import Mathlib

/-! # VelodynePointCloud: a verification development

A shallow embedding of `src/VelodynePointCloud.cpp` (but_velodyne) and the
properties of its ring decomposition, edge extraction, normalisation,
resampling, projection, invalid-point filtering and cloud statistics.

Conventions of the embedding.

* A C++ `float` is a value of `Flt`: a rational number, `+inf`, `-inf` or
  `NaN`, with the IEEE-754 rules for the special values.
* The arithmetic of the source is `Binary32.add`, `sub`, `mul`, `div` and
  `ofInt`: every result on finite operands is rounded to binary32 by
  `Binary32.round32` (round to nearest, ties to even, subnormal values, and
  overflow to an infinity), one rounding per operation as the source writes
  them, without fused or extended-precision evaluation.
* `Flt.add`, `sub`, `mul` and `div` are the exact operations.  The functions
  `normalizeIntensity`, `computeEdges` and `projectPoint` are embedded over
  both: over the exact operations for the properties in which rounding plays
  no part (a comparison, a zero divisor, a scan without candidates), and over
  the rounded operations, in the namespace `Binary32`, for the others.
* The sign of zero is not modelled: a zero divisor counts as `+0` (what
  `x - x` yields); the properties over the rounded division have a nonzero
  divisor.
* A cloud (`pcl::PointCloud<PointXYZIR>`) is a `List Point`; a PCL cloud is
  addressed by `int` indices and 32-bit width and height, so positions and
  counters are natural numbers and never wrap.
* A failed `assert` (and a division of integers by zero) is the result `none`.
* `VELODYNE_RINGS_COUNT`, `VelodyneSpecification::RINGS` and `computeRange`
  are declared in headers and enter as the parameters `RC`, `RINGS` and
  `range`; the library function `sqrt` is the parameter `sqrt`, and the
  product of two `cv::Mat` is the parameter `matMul`.
-/

namespace ButVelodyne

/-! ## Floating-point values -/

/-- A C++ `float`: a finite (rational) value, an infinity or NaN. -/
inductive Flt where
  | fin (q : ℚ)
  | pinf
  | ninf
  | nan
deriving DecidableEq

namespace Flt

instance : Inhabited Flt := ⟨fin 0⟩

/-- The conversion of an integer to `float`. -/
def ofInt (i : Int) : Flt := fin i

/-- Unary minus. -/
def neg : Flt → Flt
  | fin a => fin (-a)
  | pinf => ninf
  | ninf => pinf
  | nan => nan

/-- Addition: `inf + (-inf)` and anything with NaN is NaN. -/
def add : Flt → Flt → Flt
  | nan, _ => nan
  | _, nan => nan
  | fin a, fin b => fin (a + b)
  | pinf, ninf => nan
  | ninf, pinf => nan
  | pinf, _ => pinf
  | _, pinf => pinf
  | ninf, _ => ninf
  | _, ninf => ninf

/-- Subtraction `a - b`. -/
def sub (a b : Flt) : Flt := add a (neg b)

/-- The infinity with the sign of `s * t` for a positive infinity scaled by a
finite factor of sign `s`: NaN when the factor is zero. -/
def infTimes (positive : Bool) (a : ℚ) : Flt :=
  if a = 0 then nan else if (0 < a) = positive then pinf else ninf

/-- Multiplication: `inf * 0` and anything with NaN is NaN. -/
def mul : Flt → Flt → Flt
  | nan, _ => nan
  | _, nan => nan
  | fin a, fin b => fin (a * b)
  | pinf, fin b => infTimes true b
  | ninf, fin b => infTimes false b
  | fin a, pinf => infTimes true a
  | fin a, ninf => infTimes false a
  | pinf, pinf => pinf
  | ninf, ninf => pinf
  | pinf, ninf => ninf
  | ninf, pinf => ninf

/-- Division: a finite nonzero value over zero is an infinity of its sign,
`0 / 0` and `inf / inf` are NaN, a finite value over an infinity is zero. -/
def div : Flt → Flt → Flt
  | nan, _ => nan
  | _, nan => nan
  | fin a, fin b =>
    if b = 0 then (if 0 < a then pinf else if a < 0 then ninf else nan) else fin (a / b)
  | fin _, pinf => fin 0
  | fin _, ninf => fin 0
  | pinf, fin b => if 0 ≤ b then pinf else ninf
  | ninf, fin b => if 0 ≤ b then ninf else pinf
  | pinf, pinf => nan
  | pinf, ninf => nan
  | ninf, pinf => nan
  | ninf, ninf => nan

/-- The comparison `a < b`: false as soon as one side is NaN. -/
def lt : Flt → Flt → Bool
  | fin a, fin b => decide (a < b)
  | ninf, fin _ => true
  | ninf, pinf => true
  | fin _, pinf => true
  | _, _ => false

/-- The comparison `a <= b`: false as soon as one side is NaN. -/
def le : Flt → Flt → Bool
  | fin a, fin b => decide (a ≤ b)
  | ninf, fin _ => true
  | ninf, pinf => true
  | fin _, pinf => true
  | pinf, pinf => true
  | ninf, ninf => true
  | _, _ => false

/-- The test `std::isfinite`. -/
def isFinite : Flt → Bool
  | fin _ => true
  | _ => false

/-- The test `isnan`. -/
def isNan : Flt → Bool
  | nan => true
  | _ => false

/-- The test `isinf`. -/
def isInf : Flt → Bool
  | pinf => true
  | ninf => true
  | _ => false

/-- Modelled from the spec: the macro `MAX(a, b)` belongs to OpenCV and is not
in the source; it is the expression `((a) < (b) ? (b) : (a))`. -/
def MAX (a b : Flt) : Flt := if lt a b then b else a

/-- Modelled from the spec: the macro `MIN(a, b)` belongs to OpenCV and is not
in the source; it is the expression `((a) > (b) ? (b) : (a))`. -/
def MIN (a b : Flt) : Flt := if lt b a then b else a

end Flt

/-! ## Rounding to binary32 -/

namespace Binary32

/-- Rounding of a non-negative rational to the nearest natural number, a tie
going to the even neighbour. -/
def rne (x : ℚ) : ℕ :=
  if x - (⌊x⌋₊ : ℚ) < 1 / 2 then ⌊x⌋₊
  else if 1 / 2 < x - (⌊x⌋₊ : ℚ) then ⌊x⌋₊ + 1
  else if ⌊x⌋₊ % 2 = 0 then ⌊x⌋₊ else ⌊x⌋₊ + 1

/-- Rounding of a non-negative magnitude `t`, counted in units of the least
subnormal `2 ^ (-149)`, to 24 significant bits: below `2 ^ 24` the spacing is
one unit (the subnormal values and the first binade), from there on it is
`2 ^ (e - 23)` in the binade `[2 ^ e, 2 ^ (e + 1))`. -/
def roundGrid (t : ℚ) : ℕ :=
  rne (t / 2 ^ (Nat.log 2 ⌊t⌋₊ - 23)) * 2 ^ (Nat.log 2 ⌊t⌋₊ - 23)

/-- Rounding of a rational to binary32, round to nearest with ties to even: a
magnitude that rounds to `2 ^ 128 = 2 ^ 277 * 2 ^ (-149)` or more overflows to
the infinity of its sign. -/
def round32 (q : ℚ) : Flt :=
  if 0 ≤ q then
    (if 2 ^ 277 ≤ roundGrid (q * 2 ^ 149) then Flt.pinf
     else Flt.fin ((roundGrid (q * 2 ^ 149) : ℚ) / 2 ^ 149))
  else
    (if 2 ^ 277 ≤ roundGrid (-q * 2 ^ 149) then Flt.ninf
     else Flt.fin (-((roundGrid (-q * 2 ^ 149) : ℚ) / 2 ^ 149)))

/-- The conversion of an `int` to `float`. -/
def ofInt (i : Int) : Flt := round32 i

/-- The `float` addition: the rounded sum of finite operands, the rules of
`Flt.add` for the others. -/
def add : Flt → Flt → Flt
  | Flt.fin a, Flt.fin b => round32 (a + b)
  | a, b => Flt.add a b

/-- The `float` subtraction `a - b`. -/
def sub : Flt → Flt → Flt
  | Flt.fin a, Flt.fin b => round32 (a - b)
  | a, b => Flt.sub a b

/-- The `float` multiplication. -/
def mul : Flt → Flt → Flt
  | Flt.fin a, Flt.fin b => round32 (a * b)
  | a, b => Flt.mul a b

/-- The `float` division: the rounded quotient of finite operands with a
nonzero divisor, the rules of `Flt.div` for a zero divisor and for the
special values. -/
def div : Flt → Flt → Flt
  | Flt.fin a, Flt.fin b => if b = 0 then Flt.div (Flt.fin a) (Flt.fin b) else round32 (a / b)
  | a, b => Flt.div a b

end Binary32

/-! ## Points and clouds -/

/-- The point type `velodyne_pointcloud::PointXYZIR`. -/
structure Point where
  x : Flt
  y : Flt
  z : Flt
  intensity : Flt
  ring : Nat
deriving DecidableEq

instance : Inhabited Point := ⟨⟨default, default, default, default, 0⟩⟩

/-- A cloud: the sequence of its points. -/
abbrev Cloud := List Point

/-! ## getRings -/

/-- The statement `buckets[r].push_back(a)` on a vector of vectors. -/
def pushAt {α : Type} : List (List α) → Nat → α → List (List α)
  | [], _, _ => []
  | b :: bs, 0, a => (b ++ [a]) :: bs
  | b :: bs, r + 1, a => b :: pushAt bs r a

/-- The loop of `getRings`: `id` is the position of the next point, the state
is `(rings, indices)`. The assertion `pt->ring < VELODYNE_RINGS_COUNT` fails
with `none`. -/
def getRingsLoop (RC : Nat) :
    List Point → Nat → List (List Point) × List (List Nat) →
      Option (List (List Point) × List (List Nat))
  | [], _, st => some st
  | pt :: rest, id, (rings, indices) =>
    if pt.ring < RC then
      getRingsLoop RC rest (id + 1) (pushAt rings pt.ring pt, pushAt indices pt.ring id)
    else none

/-- `VelodynePointCloud::getRings`: both outputs are cleared and resized to
`RC` empty buckets, then filled by the loop. -/
def getRings (RC : Nat) (cloud : Cloud) : Option (List (List Point) × List (List Nat)) :=
  getRingsLoop RC cloud 0 (List.replicate RC [], List.replicate RC [])

/-! ## normalizeIntensity and discartWeakPoints -/

/-- `VelodynePointCloud::normalizeIntensity`: every intensity is overwritten
in place by
`(intensity - min_intensity) / (max_intensity - min_intensity) * (max - min) + min`
with the locals `min = 0.0` and `max = 1.0`. -/
def normalizeIntensity (min_intensity max_intensity : Flt) (cloud : Cloud) : Cloud :=
  let min : Flt := Flt.fin 0
  let max : Flt := Flt.fin 1
  cloud.map (fun pt =>
    { pt with
      intensity :=
        Flt.add
          (Flt.mul
            (Flt.div (Flt.sub pt.intensity min_intensity)
              (Flt.sub max_intensity min_intensity))
            (Flt.sub max min))
          min })

/-- `VelodynePointCloud::discartWeakPoints`: the points with
`intensity > threshold`, in cloud order. -/
def discartWeakPoints (threshold : Flt) (cloud : Cloud) : Cloud :=
  cloud.filter (fun pt => Flt.lt threshold pt.intensity)

/-! ## resampleTo -/

/-- The loop of `resampleTo`: the point at position `counter` is pushed when
`counter % factor == 0`. -/
def resampleLoop (factor : Nat) : List Point → Nat → Cloud → Cloud
  | [], _, resampled => resampled
  | pt :: rest, counter, resampled =>
    resampleLoop factor rest (counter + 1)
      (if counter % factor = 0 then resampled ++ [pt] else resampled)

/-- The cloud `resampled` that `resampleTo` has built when it reaches its
assertion, with `factor = size / final_number + 1`. -/
def resampleSelect (cloud : Cloud) (final_number : Nat) : Cloud :=
  resampleLoop (cloud.length / final_number + 1) cloud 0 []

/-- `VelodynePointCloud::resampleTo` for a non-negative `final_number`: the
integer division by `final_number = 0` and a failure of
`assert(resampled.size() == final_number)` are `none`. -/
def resampleTo (cloud : Cloud) (final_number : Nat) : Option Cloud :=
  if final_number = 0 then none
  else
    let resampled := resampleSelect cloud final_number
    if resampled.length = final_number then some resampled else none

/-! ## computeEdges -/

/-- The accumulators of `computeEdges`. -/
structure EdgeState where
  min_difference : Flt
  max_difference : Flt
  edge_cloud : Cloud

/-- The inner loop of `computeEdges`, entered with `pt = ring->begin() + 1`.
The first argument is the ring from `pt` on; the loop runs while `pt + 1` is
still a point of the ring. -/
def edgeInner (range : Point → Flt) : List Point → Flt → Flt → EdgeState → EdgeState
  | pt :: nxt :: rest, current_range, next_range, st =>
    let previous_range := current_range
    let current_range := next_range
    let next_range := range nxt
    let edge_pt : Point :=
      { x := pt.x, y := pt.y, z := pt.z, ring := pt.ring,
        intensity :=
          Flt.mul
            (Flt.MAX
              (Flt.MAX (Flt.sub previous_range current_range)
                (Flt.sub next_range current_range))
              (Flt.fin 0))
            (Flt.fin 10) }
    edgeInner range (nxt :: rest) current_range next_range
      { min_difference := Flt.MIN edge_pt.intensity st.min_difference,
        max_difference := Flt.MAX edge_pt.intensity st.max_difference,
        edge_cloud := st.edge_cloud ++ [edge_pt] }
  | _, _, _, st => st

/-- One iteration of the outer loop of `computeEdges`: a ring of fewer than
two points is skipped. -/
def edgeRing (range : Point → Flt) (st : EdgeState) (ring : List Point) : EdgeState :=
  match ring with
  | first :: second :: rest =>
    edgeInner range (second :: rest) (range first) (range second) st
  | _ => st

/-- The two loops of `computeEdges`: the accumulators when the outer loop
ends, before the normalisation. -/
def computeEdgesScan (RC : Nat) (range : Point → Flt) (cloud : Cloud) : Option EdgeState :=
  match getRings RC cloud with
  | none => none
  | some (rings, _) =>
    some (rings.foldl (edgeRing range)
      { min_difference := Flt.pinf, max_difference := Flt.fin 0, edge_cloud := [] })

/-- `VelodynePointCloud::computeEdges`: the loops, then
`edge_cloud.normalizeIntensity(min_difference, max_difference)` and
`edge_cloud.discartWeakPoints(threshold)`. -/
def computeEdges (RC : Nat) (range : Point → Flt) (threshold : Flt) (cloud : Cloud) :
    Option Cloud :=
  match computeEdgesScan RC range cloud with
  | none => none
  | some st =>
    some (discartWeakPoints threshold
      (normalizeIntensity st.min_difference st.max_difference st.edge_cloud))

/-! ## projectPoint -/

/-- The type `cv::Point2f`. -/
structure Point2f where
  x : Flt
  y : Flt
deriving DecidableEq

/-- The type `cv::Rect`: integer corner, width and height. -/
structure Rect where
  x : Int
  y : Int
  width : Int
  height : Int
deriving DecidableEq

/-- A projection matrix: the three rows that `projectPoint` reads, four
columns each. -/
abbrev ProjMat := Fin 3 → Fin 4 → Flt

/-- Row `i` of the product `projection_matrix * pt_3D`. -/
def matRow (m : ProjMat) (i : Fin 3) (v0 v1 v2 v3 : Flt) : Flt :=
  Flt.add (Flt.add (Flt.add (Flt.mul (m i 0) v0) (Flt.mul (m i 1) v1)) (Flt.mul (m i 2) v2))
    (Flt.mul (m i 3) v3)

/-- Modelled from the spec: `cv::Point2f::inside(cv::Rect)` belongs to OpenCV
and is not in the source; the rectangle contains its left and top edge and
excludes its right and bottom edge. -/
def inside (p : Point2f) (plane : Rect) : Bool :=
  Flt.le (Flt.ofInt plane.x) p.x
    && Flt.lt p.x (Flt.add (Flt.ofInt plane.x) (Flt.ofInt plane.width))
    && Flt.le (Flt.ofInt plane.y) p.y
    && Flt.lt p.y (Flt.add (Flt.ofInt plane.y) (Flt.ofInt plane.height))

/-- The function `projectPoint`: the result pairs the returned flag with the
value of the output argument `projected_pt` after the call. -/
def projectPoint (pt : Point) (projection_matrix : ProjMat) (plane : Rect)
    (projected_pt : Point2f) : Bool × Point2f :=
  if Flt.lt pt.z (Flt.fin 0) then (false, projected_pt)
  else
    let v3 : Flt := Flt.fin 1
    let w := matRow projection_matrix 2 pt.x pt.y pt.z v3
    let projected : Point2f :=
      { x := Flt.div (matRow projection_matrix 0 pt.x pt.y pt.z v3) w,
        y := Flt.div (matRow projection_matrix 1 pt.x pt.y pt.z v3) w }
    (inside projected plane, projected)

/-! ## removeNanPoints -/

/-- The type `pcl::PointXYZ`. -/
structure PointXYZ where
  x : Flt
  y : Flt
  z : Flt
deriving DecidableEq

/-- The function `PointXYZIRtoPointXYZ`. -/
def PointXYZIRtoPointXYZ (p : Point) : PointXYZ := { x := p.x, y := p.y, z := p.z }

/-- The type `pcl::PointCloud<pcl::PointXYZ>`: the points and the flag
`is_dense`. -/
structure XYZCloud where
  points : List PointXYZ
  is_dense : Bool

/-- `VelodynePointCloud::getXYZCloudPtr`: a new cloud, filled by `push_back`.
A new `pcl::PointCloud` is flagged `is_dense`, and `push_back` leaves the
flag as it is. -/
def getXYZCloudPtr (cloud : Cloud) : XYZCloud :=
  { points := cloud.map PointXYZIRtoPointXYZ, is_dense := true }

/-- The positions, counted from `start`, of the elements of `l` that satisfy
`q`, in increasing order. -/
def positionsFrom {α : Type} (start : Nat) (q : α → Bool) (l : List α) : List Nat :=
  ((l.enumFrom start).filter (fun ip => q ip.2)).map Prod.fst

/-- The positions of `l`, in increasing order, whose element satisfies `q`. -/
def positionsWhere {α : Type} (q : α → Bool) (l : List α) : List Nat :=
  positionsFrom 0 q l

/-- The test that the three coordinates are finite. -/
def xyzFinite (p : PointXYZ) : Bool := p.x.isFinite && p.y.isFinite && p.z.isFinite

/-- Modelled from the spec: `pcl::removeNaNFromPointCloud` belongs to PCL and
is not in the source; its index output lists, in increasing order, the
positions of the points whose coordinates are all finite. PCL's function
trusts the flag `is_dense`: on a cloud flagged dense it tests no point and
lists every position. -/
def removeNaNFromPointCloud (cloud_in : XYZCloud) : List Nat :=
  if cloud_in.is_dense then List.range cloud_in.points.length
  else positionsWhere xyzFinite cloud_in.points

/-- The copy loop of `removeNanPoints`, `this->at(i) = this->at(filtered_indices[i])`
for the remaining index list and the counter `i`; `at` out of bounds is `none`. -/
def copyLoop : List Nat → Nat → Cloud → Option Cloud
  | [], _, cloud => some cloud
  | src :: rest, i, cloud =>
    match cloud[src]? with
    | none => none
    | some p => if i < cloud.length then copyLoop rest (i + 1) (cloud.set i p) else none

/-- The call `resize(k)` of a cloud. -/
def resize (k : Nat) (cloud : Cloud) : Cloud :=
  cloud.take k ++ List.replicate (k - cloud.length) default

/-- `VelodynePointCloud::removeNanPoints`: the cloud after the call and the
returned index list. -/
def removeNanPoints (cloud : Cloud) : Option (Cloud × List Nat) :=
  let filtered_indices := removeNaNFromPointCloud (getXYZCloudPtr cloud)
  match copyLoop filtered_indices 0 cloud with
  | none => none
  | some copied => some (resize filtered_indices.length copied, filtered_indices)

/-! ## Cloud statistics -/

/-- Modelled from the spec: `std::sort` belongs to the C++ library and is not
in the source; it puts the values in ascending order. -/
def sort (l : List Flt) : List Flt :=
  l.insertionSort (fun a b => Flt.le a b = true)

/-- `VelodynePointCloud::getMedianRange`: NaN on the empty cloud, else the
entry `ranges[ranges.size() / 2]` of the sorted ranges (the index is in
bounds, the default of `getD` is never used). -/
def getMedianRange (range : Point → Flt) (cloud : Cloud) : Flt :=
  if cloud.length = 0 then Flt.nan
  else
    let ranges := sort (cloud.map range)
    ranges.getD (ranges.length / 2) default

/-- The first loop of `getMaxOfRingRanges`:
`ranges[pt->ring].push_back(pt->x * pt->x + pt->z * pt->z)`; the unchecked
access to a bucket that does not exist is `none`. -/
def ringRangesLoop : List Point → List (List Flt) → Option (List (List Flt))
  | [], ranges => some ranges
  | pt :: rest, ranges =>
    if pt.ring < ranges.length then
      ringRangesLoop rest
        (pushAt ranges pt.ring
          (Binary32.add (Binary32.mul pt.x pt.x) (Binary32.mul pt.z pt.z)))
    else none

/-- The body of the second loop of `getMaxOfRingRanges` for one ring: NaN for
an empty ring, else `sqrt(ranges[ring][ranges[ring].size() * 0.9])` on the
sorted ring; the truncated product `size * 0.9` is `size * 9 / 10`. -/
def almostMaximum (sqrt : Flt → Flt) (ring : List Flt) : Flt :=
  if ring.isEmpty then Flt.nan
  else sqrt ((sort ring).getD (ring.length * 9 / 10) default)

/-- `VelodynePointCloud::getMaxOfRingRanges`, with the constant
`VelodyneSpecification::RINGS` and the library function `sqrt` as
parameters. -/
def getMaxOfRingRanges (RINGS : Nat) (sqrt : Flt → Flt) (cloud : Cloud) :
    Option (List Flt) :=
  match ringRangesLoop cloud (List.replicate RINGS []) with
  | none => none
  | some ranges => some (ranges.map (almostMaximum sqrt))

/-- `VelodynePointCloud::getMinValuePt`: the sentinel has zero coordinates
and ring and intensity `INFINITY`; a point replaces the current one when its
intensity is strictly smaller. -/
def getMinValuePt (cloud : Cloud) : Point :=
  cloud.foldl (fun min pt => if Flt.lt pt.intensity min.intensity then pt else min)
    { x := Flt.fin 0, y := Flt.fin 0, z := Flt.fin 0, ring := 0, intensity := Flt.pinf }

/-- `VelodynePointCloud::getMaxValuePt`: the sentinel has zero coordinates
and ring and intensity `-INFINITY`; a point replaces the current one when its
intensity is strictly greater. -/
def getMaxValuePt (cloud : Cloud) : Point :=
  cloud.foldl (fun max pt => if Flt.lt max.intensity pt.intensity then pt else max)
    { x := Flt.fin 0, y := Flt.fin 0, z := Flt.fin 0, ring := 0, intensity := Flt.ninf }

/-- The loop of `averageIntensity` on the accumulators `(avg, count)`. -/
def averageIntensityLoop : List Point → Flt × Int → Flt × Int
  | [], st => st
  | p :: rest, (avg, count) =>
    let intensity := p.intensity
    if !Flt.isNan intensity && !Flt.isInf intensity then
      averageIntensityLoop rest (Binary32.add avg intensity, count + 1)
    else averageIntensityLoop rest (avg, count)

/-- `VelodynePointCloud::averageIntensity`:
`(count > 0) ? (avg / count) : 0`. -/
def averageIntensity (cloud : Cloud) : Flt :=
  let st := averageIntensityLoop cloud (Flt.fin 0, 0)
  if 0 < st.2 then Binary32.div st.1 (Binary32.ofInt st.2) else Flt.fin 0

/-! ## Reference descriptions -/

/-- The points of `cloud` whose ring field is `r`, in cloud order. -/
def ringPoints (cloud : Cloud) (r : Nat) : List Point :=
  cloud.filter (fun p => decide (p.ring = r))

/-- The positions in `cloud`, in increasing order, of the points whose ring
field is `r`. -/
def ringPositions (cloud : Cloud) (r : Nat) : List Nat :=
  positionsWhere (fun p => decide (p.ring = r)) cloud

/-- Writing the points `pts` back at the positions `idx`, pairwise. -/
def writeBack (base : Cloud) (pts : List Point) (idx : List Nat) : Cloud :=
  (pts.zip idx).foldl (fun acc pi => acc.set pi.2 pi.1) base

/-- Writing every ring back at its index list, ring after ring. -/
def restore (base : Cloud) (rings : List (List Point)) (indices : List (List Nat)) : Cloud :=
  (rings.zip indices).foldl (fun acc ri => writeBack acc ri.1 ri.2) base

/-- The consecutive triples `(prev, curr, next)` of a sequence: one for every
element that is neither first nor last. -/
def triples {α : Type} : List α → List (α × α × α)
  | a :: b :: c :: rest => (a, b, c) :: triples (b :: c :: rest)
  | _ => []

/-- The point `edge_pt` that the inner loop of `computeEdges` builds for the
neighbours `(prev, curr, next)`. -/
def rawEdge (range : Point → Flt) (t : Point × Point × Point) : Point :=
  { x := t.2.1.x, y := t.2.1.y, z := t.2.1.z, ring := t.2.1.ring,
    intensity :=
      Flt.mul
        (Flt.MAX
          (Flt.MAX (Flt.sub (range t.1) (range t.2.1)) (Flt.sub (range t.2.2) (range t.2.1)))
          (Flt.fin 0))
        (Flt.fin 10) }

/-- The update of the accumulators of `computeEdges` by one candidate. -/
def pushCand (st : EdgeState) (e : Point) : EdgeState :=
  { min_difference := Flt.MIN e.intensity st.min_difference,
    max_difference := Flt.MAX e.intensity st.max_difference,
    edge_cloud := st.edge_cloud ++ [e] }

/-- A candidate with its exact score in the intensity field. -/
def scored (c : Point × ℚ) : Point :=
  { x := c.1.x, y := c.1.y, z := c.1.z, ring := c.1.ring, intensity := Flt.fin c.2 }

/-- The edge score as the specification writes it, on exact ranges:
`max(0, max(range(prev) - range(curr), range(next) - range(curr))) * 10`. -/
def specScore (prev curr next : ℚ) : ℚ :=
  max 0 (max (prev - curr) (next - curr)) * 10

/-- The edge candidates as the specification describes them: for rings in
ascending ring id and within a ring in original order, every point that is
neither first nor last in its ring, paired with its score. -/
def specCandidates (RC : Nat) (rq : Point → ℚ) (scan : Cloud) : List (Point × ℚ) :=
  (List.range RC).flatMap (fun r =>
    (triples (ringPoints scan r)).map (fun t =>
      (t.2.1, specScore (rq t.1) (rq t.2.1) (rq t.2.2))))

/-- A sample range function: the `x` coordinate. -/
def xRange (p : Point) : Flt := p.x

/-- The exact value of the sample range function on a finite `x`. -/
def xRangeExact (p : Point) : ℚ :=
  match p.x with
  | Flt.fin q => q
  | _ => 0

/-- The exact value of a finite `float`, zero for the others. -/
def Flt.toRat : Flt → ℚ
  | Flt.fin q => q
  | _ => 0

/-- The finite intensities of a cloud, in cloud order. -/
def finiteIntensities (cloud : Cloud) : List ℚ :=
  cloud.filterMap (fun p =>
    match p.intensity with
    | Flt.fin q => some q
    | _ => none)

/-- A sample V-shaped ring: ranges 100, 1, 0, 1 and 2. -/
def sampleVScan : Cloud :=
  [⟨Flt.fin 100, Flt.fin 0, Flt.fin 0, Flt.fin 0, 0⟩,
   ⟨Flt.fin 1, Flt.fin 0, Flt.fin 0, Flt.fin 0, 0⟩,
   ⟨Flt.fin 0, Flt.fin 0, Flt.fin 0, Flt.fin 0, 0⟩,
   ⟨Flt.fin 1, Flt.fin 0, Flt.fin 0, Flt.fin 0, 0⟩,
   ⟨Flt.fin 2, Flt.fin 0, Flt.fin 0, Flt.fin 0, 0⟩]

/-- A sample cloud of four points at ranges 1, 2, 3 and 4. -/
def sampleFourCloud : Cloud :=
  [⟨Flt.fin 1, Flt.fin 0, Flt.fin 0, Flt.fin 0, 0⟩,
   ⟨Flt.fin 2, Flt.fin 0, Flt.fin 0, Flt.fin 0, 0⟩,
   ⟨Flt.fin 3, Flt.fin 0, Flt.fin 0, Flt.fin 0, 0⟩,
   ⟨Flt.fin 4, Flt.fin 0, Flt.fin 0, Flt.fin 0, 0⟩]

/-! ## The functions over the rounded operations -/

namespace Binary32

/-- `VelodynePointCloud::normalizeIntensity` over the rounded operations:
every intensity is overwritten in place by
`(intensity - min_intensity) / (max_intensity - min_intensity) * (max - min) + min`
with the locals `min = 0.0` and `max = 1.0`. -/
def normalizeIntensity (min_intensity max_intensity : Flt) (cloud : Cloud) : Cloud :=
  let min : Flt := Flt.fin 0
  let max : Flt := Flt.fin 1
  cloud.map (fun pt =>
    { pt with
      intensity :=
        add
          (mul
            (div (sub pt.intensity min_intensity) (sub max_intensity min_intensity))
            (sub max min))
          min })

/-- The inner loop of `computeEdges` over the rounded operations, entered
with `pt = ring->begin() + 1`. The first argument is the ring from `pt` on;
the loop runs while `pt + 1` is still a point of the ring. -/
def edgeInner (range : Point → Flt) : List Point → Flt → Flt → EdgeState → EdgeState
  | pt :: nxt :: rest, current_range, next_range, st =>
    let previous_range := current_range
    let current_range := next_range
    let next_range := range nxt
    let edge_pt : Point :=
      { x := pt.x, y := pt.y, z := pt.z, ring := pt.ring,
        intensity :=
          mul
            (Flt.MAX
              (Flt.MAX (sub previous_range current_range) (sub next_range current_range))
              (Flt.fin 0))
            (Flt.fin 10) }
    edgeInner range (nxt :: rest) current_range next_range
      { min_difference := Flt.MIN edge_pt.intensity st.min_difference,
        max_difference := Flt.MAX edge_pt.intensity st.max_difference,
        edge_cloud := st.edge_cloud ++ [edge_pt] }
  | _, _, _, st => st

/-- One iteration of the outer loop of `computeEdges`: a ring of fewer than
two points is skipped. -/
def edgeRing (range : Point → Flt) (st : EdgeState) (ring : List Point) : EdgeState :=
  match ring with
  | first :: second :: rest =>
    edgeInner range (second :: rest) (range first) (range second) st
  | _ => st

/-- The two loops of `computeEdges` over the rounded operations: the
accumulators when the outer loop ends, before the normalisation. -/
def computeEdgesScan (RC : Nat) (range : Point → Flt) (cloud : Cloud) : Option EdgeState :=
  match getRings RC cloud with
  | none => none
  | some (rings, _) =>
    some (rings.foldl (edgeRing range)
      { min_difference := Flt.pinf, max_difference := Flt.fin 0, edge_cloud := [] })

/-- `VelodynePointCloud::computeEdges` over the rounded operations: the
loops, then `edge_cloud.normalizeIntensity(min_difference, max_difference)`
and `edge_cloud.discartWeakPoints(threshold)`. -/
def computeEdges (RC : Nat) (range : Point → Flt) (threshold : Flt) (cloud : Cloud) :
    Option Cloud :=
  match computeEdgesScan RC range cloud with
  | none => none
  | some st =>
    some (discartWeakPoints threshold
      (normalizeIntensity st.min_difference st.max_difference st.edge_cloud))

/-- Modelled from the spec: `cv::Point2f::inside(cv::Rect)` belongs to OpenCV
and is not in the source; the rectangle, converted to `float` entries,
contains its left and top edge and excludes its right and bottom edge:
`x <= pt.x && pt.x < x + width && y <= pt.y && pt.y < y + height`. -/
def inside (p : Point2f) (plane : Rect) : Bool :=
  Flt.le (ofInt plane.x) p.x
    && Flt.lt p.x (add (ofInt plane.x) (ofInt plane.width))
    && Flt.le (ofInt plane.y) p.y
    && Flt.lt p.y (add (ofInt plane.y) (ofInt plane.height))

/-- The function `projectPoint` over the rounded division: the result pairs
the returned flag with the value of the output argument `projected_pt` after
the call. The product `projection_matrix * pt_3D` of two `cv::Mat` is
OpenCV's and enters as the parameter `matMul`, applied to the matrix and to
the four entries written into `pt_3D`; it returns the three entries of
`pt_2D`. -/
def projectPoint (matMul : ProjMat → Flt → Flt → Flt → Flt → Fin 3 → Flt) (pt : Point)
    (projection_matrix : ProjMat) (plane : Rect) (projected_pt : Point2f) :
    Bool × Point2f :=
  if Flt.lt pt.z (Flt.fin 0) then (false, projected_pt)
  else
    let pt_2D := matMul projection_matrix pt.x pt.y pt.z (Flt.fin 1)
    let w := pt_2D 2
    let projected : Point2f := { x := div (pt_2D 0) w, y := div (pt_2D 1) w }
    (inside projected plane, projected)

/-- The point `edge_pt` that the inner loop of `computeEdges` builds for the
neighbours `(prev, curr, next)`, over the rounded operations. -/
def rawEdge (range : Point → Flt) (t : Point × Point × Point) : Point :=
  { x := t.2.1.x, y := t.2.1.y, z := t.2.1.z, ring := t.2.1.ring,
    intensity :=
      mul
        (Flt.MAX
          (Flt.MAX (sub (range t.1) (range t.2.1)) (sub (range t.2.2) (range t.2.1)))
          (Flt.fin 0))
        (Flt.fin 10) }

/-- A candidate with its `float` score in the intensity field. -/
def scored (c : Point × Flt) : Point :=
  { x := c.1.x, y := c.1.y, z := c.1.z, ring := c.1.ring, intensity := c.2 }

/-- The larger of two values, neither of them NaN. -/
def specMax (a b : Flt) : Flt := if Flt.le a b then b else a

/-- The edge score as the specification writes it, evaluated in `float` on
finite ranges: `max(0, max(range(prev) - range(curr), range(next) - range(curr))) * 10`
with both differences and the product rounded. -/
def specScore (prev curr next : ℚ) : Flt :=
  mul (specMax (Flt.fin 0) (specMax (round32 (prev - curr)) (round32 (next - curr))))
    (Flt.fin 10)

/-- The edge candidates as the specification describes them: for rings in
ascending ring id and within a ring in original order, every point that is
neither first nor last in its ring, paired with its `float` score. -/
def specCandidates (RC : Nat) (rq : Point → ℚ) (scan : Cloud) : List (Point × Flt) :=
  (List.range RC).flatMap (fun r =>
    (triples (ringPoints scan r)).map (fun t =>
      (t.2.1, specScore (rq t.1) (rq t.2.1) (rq t.2.2))))

/-- The reference pipeline of `computeEdges` for given extreme scores `m` and
`M`: every candidate keeps `x, y, z, ring`, its intensity becomes the `float`
value of `(s - m) / (M - m)`, and the candidates above the threshold are
kept. -/
def specEdges (RC : Nat) (rq : Point → ℚ) (m M : Flt) (threshold : Flt) (scan : Cloud) :
    Cloud :=
  ((specCandidates RC rq scan).map (fun c =>
      ({ x := c.1.x, y := c.1.y, z := c.1.z, ring := c.1.ring,
         intensity := div (sub c.2 m) (sub M m) } : Point))).filter
    (fun p => Flt.lt threshold p.intensity)

/-- The score of the specification for the point at position `i` of a ring
with finite ranges `rs`. -/
def ringScore (rs : List ℚ) (i : Nat) : Flt :=
  specScore (rs.getD (i - 1) 0) (rs.getD i 0) (rs.getD (i + 1) 0)

/-- The `float` sum of finite values, accumulated from `0` in list order with
every addition rounded. -/
def floatSum (l : List ℚ) : Flt :=
  l.foldl (fun acc v => add acc (Flt.fin v)) (Flt.fin 0)

/-- The squared planar range `x * x + z * z` of a point, in `float`. -/
def squaredPlanarRange (p : Point) : Flt :=
  add (mul p.x p.x) (mul p.z p.z)

end Binary32

/-- A sample scan: one ring of four points at ranges 5, 2, 7 and 9. -/
def sampleScan : Cloud :=
  [⟨Flt.fin 5, Flt.fin 0, Flt.fin 0, Flt.fin 0, 0⟩,
   ⟨Flt.fin 2, Flt.fin 0, Flt.fin 0, Flt.fin 0, 0⟩,
   ⟨Flt.fin 7, Flt.fin 0, Flt.fin 0, Flt.fin 0, 0⟩,
   ⟨Flt.fin 9, Flt.fin 0, Flt.fin 0, Flt.fin 0, 0⟩]

/-- A sample scan whose largest score overflows: one ring of four points at
ranges `2 ^ 127`, `0`, `2 ^ 127` and `2 ^ 127`. -/
def overflowScan : Cloud :=
  [⟨Flt.fin (2 ^ 127), Flt.fin 0, Flt.fin 0, Flt.fin 0, 0⟩,
   ⟨Flt.fin 0, Flt.fin 0, Flt.fin 0, Flt.fin 0, 0⟩,
   ⟨Flt.fin (2 ^ 127), Flt.fin 0, Flt.fin 0, Flt.fin 0, 0⟩,
   ⟨Flt.fin (2 ^ 127), Flt.fin 0, Flt.fin 0, Flt.fin 0, 0⟩]

/-- A sample cloud whose small intensities are absorbed by the running sum:
intensities `2 ^ 26`, `3`, `3` and `2`. -/
def absorbingCloud : Cloud :=
  [⟨Flt.fin 0, Flt.fin 0, Flt.fin 0, Flt.fin (2 ^ 26), 0⟩,
   ⟨Flt.fin 0, Flt.fin 0, Flt.fin 0, Flt.fin 3, 0⟩,
   ⟨Flt.fin 0, Flt.fin 0, Flt.fin 0, Flt.fin 3, 0⟩,
   ⟨Flt.fin 0, Flt.fin 0, Flt.fin 0, Flt.fin 2, 0⟩]

/-- A sample V-shaped ring without a steep flank: ranges 5, 4, 1, 4 and 5. -/
def sampleVRing : Cloud :=
  [⟨Flt.fin 5, Flt.fin 0, Flt.fin 0, Flt.fin 0, 0⟩,
   ⟨Flt.fin 4, Flt.fin 0, Flt.fin 0, Flt.fin 0, 0⟩,
   ⟨Flt.fin 1, Flt.fin 0, Flt.fin 0, Flt.fin 0, 0⟩,
   ⟨Flt.fin 4, Flt.fin 0, Flt.fin 0, Flt.fin 0, 0⟩,
   ⟨Flt.fin 5, Flt.fin 0, Flt.fin 0, Flt.fin 0, 0⟩]

/-- A sample scan on which a rounded quotient meets the threshold: one ring
of five points at ranges 10, 10, 3, 5 and 15. -/
def thresholdScan : Cloud :=
  [⟨Flt.fin 10, Flt.fin 0, Flt.fin 0, Flt.fin 0, 0⟩,
   ⟨Flt.fin 10, Flt.fin 0, Flt.fin 0, Flt.fin 0, 0⟩,
   ⟨Flt.fin 3, Flt.fin 0, Flt.fin 0, Flt.fin 0, 0⟩,
   ⟨Flt.fin 5, Flt.fin 0, Flt.fin 0, Flt.fin 0, 0⟩,
   ⟨Flt.fin 15, Flt.fin 0, Flt.fin 0, Flt.fin 0, 0⟩]

/-! # Properties -/

/-! ## Lemmas on buckets -/

theorem length_pushAt {α : Type} (bs : List (List α)) (r : Nat) (a : α) :
    (pushAt bs r a).length = bs.length := by
  induction bs generalizing r with
  | nil => rfl
  | cons b bs ih =>
    cases r with
    | zero => rfl
    | succ r => simp [pushAt, ih]

theorem getElem?_pushAt {α : Type} (bs : List (List α)) (r k : Nat) (a : α) :
    (pushAt bs r a)[k]? = if k = r then (bs[k]?).map (fun b => b ++ [a]) else bs[k]? := by
  induction bs generalizing r k with
  | nil => simp [pushAt]
  | cons b bs ih =>
    cases r with
    | zero =>
      cases k with
      | zero => simp [pushAt]
      | succ k => simp [pushAt]
    | succ r =>
      cases k with
      | zero => simp [pushAt]
      | succ k => simp [pushAt, ih]

/-- Pushing into bucket `r` of a table given by a function of the bucket
number. -/
theorem pushAt_map_range {α : Type} (n : Nat) (f : Nat → List α) (r : Nat) (a : α) :
    pushAt ((List.range n).map f) r a
      = (List.range n).map (fun k => if k = r then f k ++ [a] else f k) := by
  apply List.ext_getElem?
  intro k
  rw [getElem?_pushAt]
  by_cases hk : k < n
  · by_cases hkr : k = r
    · simp [List.getElem?_map, List.getElem?_range hk, hkr]
      subst hkr
      simp [List.getElem?_range hk]
    · simp [List.getElem?_map, List.getElem?_range hk, hkr]
  · have h1 : ((List.range n).map f)[k]? = none := by
      simp [List.getElem?_eq_none_iff]; omega
    have h2 : ((List.range n).map
        (fun k => if k = r then f k ++ [a] else f k))[k]? = none := by
      simp [List.getElem?_eq_none_iff]; omega
    simp [h1, h2]

theorem replicate_nil_eq_map_range {α : Type} (n : Nat) :
    List.replicate n ([] : List α) = (List.range n).map (fun _ => []) := by
  apply List.ext_getElem?
  intro k
  by_cases hk : k < n
  · simp [List.getElem?_map, List.getElem?_range hk, List.getElem?_replicate, hk]
  · simp [List.getElem?_replicate, hk, List.getElem?_eq_none_iff]

/-- The loop invariant of `getRings`: started on tables `f` and `g`, the loop
appends to bucket `r` the ring-`r` points of the remaining cloud and their
positions. -/
theorem getRingsLoop_spec (RC : Nat) (rest : List Point) (id : Nat)
    (f : Nat → List Point) (g : Nat → List Nat) (h : ∀ p ∈ rest, p.ring < RC) :
    getRingsLoop RC rest id ((List.range RC).map f, (List.range RC).map g)
      = some ((List.range RC).map (fun r => f r ++ ringPoints rest r),
              (List.range RC).map (fun r =>
                g r ++ positionsFrom id (fun p => decide (p.ring = r)) rest)) := by
  induction rest generalizing id f g with
  | nil => simp [getRingsLoop, ringPoints, positionsFrom]
  | cons pt rest ih =>
    have hpt : pt.ring < RC := h pt (List.mem_cons_self _ _)
    have hrest : ∀ p ∈ rest, p.ring < RC := fun p hp => h p (List.mem_cons_of_mem _ hp)
    simp only [getRingsLoop, hpt, if_true]
    rw [pushAt_map_range, pushAt_map_range, ih _ _ _ hrest]
    congr 2
    · apply List.map_congr_left
      intro r _
      by_cases hr : r = pt.ring
      · subst hr; simp [ringPoints]
      · have hr2 : ¬ pt.ring = r := fun e => hr e.symm
        simp [ringPoints, hr, hr2]
    · apply List.map_congr_left
      intro r _
      by_cases hr : r = pt.ring
      · subst hr; simp [positionsFrom, List.enumFrom_cons]
      · have hr2 : ¬ pt.ring = r := fun e => hr e.symm
        simp [positionsFrom, List.enumFrom_cons, hr, hr2]

/-- Closed form of `getRings` on a cloud whose ring ids are in range. -/
theorem getRings_eq (RC : Nat) (scan : Cloud) (h : ∀ p ∈ scan, p.ring < RC) :
    getRings RC scan
      = some ((List.range RC).map (ringPoints scan),
              (List.range RC).map (ringPositions scan)) := by
  unfold getRings
  rw [replicate_nil_eq_map_range, replicate_nil_eq_map_range, getRingsLoop_spec _ _ _ _ _ h]
  simp [ringPositions, positionsWhere]

/-! ## Positions of the elements that satisfy a test -/

theorem positionsFrom_sorted {α : Type} (s : Nat) (q : α → Bool) (l : List α) :
    (positionsFrom s q l).Sorted (fun a b => a < b) := by
  unfold positionsFrom
  have hsub : (((l.enumFrom s).filter (fun ip => q ip.2)).map Prod.fst).Sublist
      ((l.enumFrom s).map Prod.fst) := List.Sublist.map _ (List.filter_sublist _)
  rw [List.enumFrom_map_fst] at hsub
  exact List.Pairwise.sublist hsub (List.pairwise_lt_range' s l.length)

theorem mem_positionsWhere {α : Type} (q : α → Bool) (l : List α) (i : Nat) :
    i ∈ positionsWhere q l ↔ ∃ a, l[i]? = some a ∧ q a = true := by
  unfold positionsWhere positionsFrom
  simp only [List.mem_map, List.mem_filter]
  constructor
  · rintro ⟨⟨j, a⟩, ⟨hmem, hq⟩, rfl⟩
    rw [List.mk_mem_enumFrom_iff_le_and_getElem?_sub] at hmem
    exact ⟨a, by simpa using hmem.2, hq⟩
  · rintro ⟨a, ha, hq⟩
    refine ⟨(i, a), ⟨?_, hq⟩, rfl⟩
    rw [List.mk_mem_enumFrom_iff_le_and_getElem?_sub]
    exact ⟨Nat.zero_le _, by simpa using ha⟩

/-- The kept elements are the second components of the kept enumeration. -/
theorem filter_eq_map_snd {α : Type} (s : Nat) (q : α → Bool) (l : List α) :
    l.filter q = ((l.enumFrom s).filter (fun ip => q ip.2)).map Prod.snd := by
  have h := List.filter_map (p := q) Prod.snd (l.enumFrom s)
  rw [List.enumFrom_map_snd] at h
  exact h

theorem length_positionsFrom {α : Type} (s : Nat) (q : α → Bool) (l : List α) :
    (positionsFrom s q l).length = (l.filter q).length := by
  rw [filter_eq_map_snd s q l]
  simp [positionsFrom]

/-- Reading the cloud at the `j`-th kept position gives the `j`-th kept
element. -/
theorem getElem?_positionsWhere {α : Type} (q : α → Bool) (l : List α) (j : Nat) :
    ((positionsWhere q l)[j]?).bind (fun i => l[i]?) = (l.filter q)[j]? := by
  rw [filter_eq_map_snd 0 q l]
  unfold positionsWhere positionsFrom
  rw [List.getElem?_map, List.getElem?_map]
  cases hj : ((l.enumFrom 0).filter (fun ip => q ip.2))[j]? with
  | none => rfl
  | some ia =>
    obtain ⟨i, a⟩ := ia
    have hmem : (i, a) ∈ (l.enumFrom 0).filter (fun ip => q ip.2) :=
      List.mem_iff_getElem?.mpr ⟨j, hj⟩
    have hmem2 := (List.mem_filter.mp hmem).1
    rw [List.mk_mem_enumFrom_iff_le_and_getElem?_sub] at hmem2
    simpa using hmem2.2

theorem count_positionsWhere {α : Type} (q : α → Bool) (l : List α) (i : Nat) :
    (positionsWhere q l).count i
      = if (∃ a, l[i]? = some a ∧ q a = true) then 1 else 0 := by
  by_cases h : ∃ a, l[i]? = some a ∧ q a = true
  · rw [if_pos h]
    exact List.count_eq_one_of_mem (positionsFrom_sorted 0 q l).nodup
      ((mem_positionsWhere q l i).mpr h)
  · rw [if_neg h]
    exact List.count_eq_zero.mpr (fun hm => h ((mem_positionsWhere q l i).mp hm))

/-! ## Writing rings back -/

theorem getElem?_map_range {β : Type} (n : Nat) (f : Nat → β) (r : Nat) (hr : r < n) :
    ((List.range n).map f)[r]? = some (f r) := by
  simp [List.getElem?_map, List.getElem?_range hr]

theorem getD_map_range {β : Type} (n : Nat) (f : Nat → β) (r : Nat) (d : β) (hr : r < n) :
    ((List.range n).map f).getD r d = f r := by
  simp [List.getD_eq_getElem?_getD, getElem?_map_range n f r hr]

/-- A sequence of writes, each of a point of `scan` at its own position,
turns any cloud of the right length into `scan` on the written positions. -/
theorem getElem?_foldl_set (scan : Cloud) (ws : List (Point × Nat)) (base : Cloud)
    (hlen : base.length = scan.length) (hws : ∀ w ∈ ws, scan[w.2]? = some w.1) (k : Nat) :
    (ws.foldl (fun acc pi => acc.set pi.2 pi.1) base)[k]?
      = if k ∈ ws.map Prod.snd then scan[k]? else base[k]? := by
  induction ws generalizing base with
  | nil => simp
  | cons w ws ih =>
    have hw : scan[w.2]? = some w.1 := hws w (List.mem_cons_self _ _)
    have hws2 : ∀ v ∈ ws, scan[v.2]? = some v.1 := fun v hv => hws v (List.mem_cons_of_mem _ hv)
    have hlt : w.2 < base.length := by
      rw [hlen]
      exact (List.getElem?_eq_some_iff.mp hw).1
    rw [List.foldl_cons, ih (base.set w.2 w.1) (by simpa using hlen) hws2]
    by_cases hk : k ∈ ws.map Prod.snd
    · simp [hk]
    · by_cases hkw : w.2 = k
      · subst hkw
        simp [List.getElem?_set, hlt, hw]
      · have hkw2 : ¬ k = w.2 := fun e => hkw e.symm
        simp only [List.map_cons, List.mem_cons, hk, hkw2, or_self, if_false]
        rw [List.getElem?_set, if_neg hkw]

/-- The writes of `restore` as one sequence. -/
theorem restore_eq_foldl (base : Cloud) (rings : List (List Point))
    (indices : List (List Nat)) :
    restore base rings indices
      = (((rings.zip indices).map (fun ri => ri.1.zip ri.2)).flatten).foldl
          (fun acc pi => acc.set pi.2 pi.1) base := by
  unfold restore writeBack
  rw [List.foldl_flatten, List.foldl_map]

/-- The ring-`r` points zipped with their positions. -/
theorem zip_ringPoints_ringPositions (scan : Cloud) (r : Nat) :
    (ringPoints scan r).zip (ringPositions scan r)
      = ((scan.enumFrom 0).filter (fun ip => decide (ip.2.ring = r))).map
          (fun ip => (ip.2, ip.1)) := by
  unfold ringPoints ringPositions positionsWhere positionsFrom
  rw [filter_eq_map_snd 0 (fun p => decide (p.ring = r)) scan, List.zip_map']

theorem sum_indicator (n k : Nat) :
    ((List.range n).map (fun r => if k = r then 1 else 0)).sum = if k < n then 1 else 0 := by
  induction n with
  | zero => simp
  | succ n ih =>
    rw [List.range_succ, List.map_append, List.sum_append, ih]
    by_cases h1 : k < n
    · have h2 : k ≠ n := by omega
      have h3 : k < n + 1 := by omega
      simp [h1, h2, h3]
    · by_cases h2 : k = n
      · subst h2; simp
      · have h3 : ¬ k < n + 1 := by omega
        simp [h1, h2, h3]

theorem sum_length_ringPoints (RC : Nat) (scan : Cloud) (h : ∀ p ∈ scan, p.ring < RC) :
    ((List.range RC).map (fun r => (ringPoints scan r).length)).sum = scan.length := by
  induction scan with
  | nil => simp [ringPoints]
  | cons pt rest ih =>
    have hpt : pt.ring < RC := h pt (List.mem_cons_self _ _)
    have hrest : ∀ p ∈ rest, p.ring < RC := fun p hp => h p (List.mem_cons_of_mem _ hp)
    have hstep : ∀ r, (ringPoints (pt :: rest) r).length
        = (if pt.ring = r then 1 else 0) + (ringPoints rest r).length := by
      intro r
      by_cases hr : pt.ring = r
      · simp [ringPoints, hr]; omega
      · simp [ringPoints, hr]
    simp only [hstep]
    rw [List.sum_map_add, sum_indicator, if_pos hpt, ih hrest]
    simp; omega

/-! ## C1 and C2: the ring decomposition -/

/-- C1: `getRings` is a stable partition by ring id. For every scan whose ring
ids are all below `RC`, the call succeeds with exactly `RC` rings and `RC`
index lists; `rings[r]` is the subsequence of the scan points with ring `r`
in their original order; `indices[r]` is strictly increasing, holds exactly
the scan positions of the points with ring `r`, has the length of `rings[r]`,
and its `j`-th entry is the scan position of the `j`-th point of `rings[r]`. -/
theorem getRings_stable_partition (RC : Nat) (scan : Cloud)
    (h : ∀ p ∈ scan, p.ring < RC) :
    ∃ (rings : List (List Point)) (indices : List (List Nat)),
      getRings RC scan = some (rings, indices) ∧
      rings.length = RC ∧ indices.length = RC ∧
      ∀ r, r < RC →
        rings[r]? = some (scan.filter (fun p => decide (p.ring = r))) ∧
        ∃ I : List Nat, indices[r]? = some I ∧
          I.Sorted (fun a b => a < b) ∧
          (∀ i : Nat, i ∈ I ↔ ∃ p, scan[i]? = some p ∧ p.ring = r) ∧
          I.length = (scan.filter (fun p => decide (p.ring = r))).length ∧
          ∀ j : Nat, (I[j]?).bind (fun i => scan[i]?)
            = (scan.filter (fun p => decide (p.ring = r)))[j]? := by
  refine ⟨_, _, getRings_eq RC scan h, by simp, by simp, ?_⟩
  intro r hr
  have hs : (ringPositions scan r).Sorted (fun a b => a < b) :=
    positionsFrom_sorted 0 (fun p : Point => decide (p.ring = r)) scan
  have hl : (ringPositions scan r).length
      = (scan.filter (fun p => decide (p.ring = r))).length :=
    length_positionsFrom 0 (fun p : Point => decide (p.ring = r)) scan
  have hg : ∀ j : Nat, ((ringPositions scan r)[j]?).bind (fun i => scan[i]?)
      = (scan.filter (fun p => decide (p.ring = r)))[j]? :=
    getElem?_positionsWhere (fun p : Point => decide (p.ring = r)) scan
  refine ⟨getElem?_map_range RC _ r hr, ringPositions scan r,
    getElem?_map_range RC _ r hr, hs, ?_, hl, hg⟩
  intro i
  rw [ringPositions, mem_positionsWhere]
  simp

/-- C1 at a scan of three points on two rings. -/
theorem getRings_stable_partition_witness :
    (∀ p ∈ ([⟨Flt.fin 1, Flt.fin 0, Flt.fin 0, Flt.fin 0, 1⟩,
             ⟨Flt.fin 2, Flt.fin 0, Flt.fin 0, Flt.fin 0, 0⟩,
             ⟨Flt.fin 3, Flt.fin 0, Flt.fin 0, Flt.fin 0, 1⟩] : Cloud), p.ring < 2) ∧
    ∃ (rings : List (List Point)) (indices : List (List Nat)),
      getRings 2 [⟨Flt.fin 1, Flt.fin 0, Flt.fin 0, Flt.fin 0, 1⟩,
                  ⟨Flt.fin 2, Flt.fin 0, Flt.fin 0, Flt.fin 0, 0⟩,
                  ⟨Flt.fin 3, Flt.fin 0, Flt.fin 0, Flt.fin 0, 1⟩] = some (rings, indices) ∧
      rings.length = 2 ∧ indices.length = 2 :=
  ⟨by simp, by
    obtain ⟨rings, indices, h1, h2, h3, _⟩ :=
      getRings_stable_partition 2
        [⟨Flt.fin 1, Flt.fin 0, Flt.fin 0, Flt.fin 0, 1⟩,
         ⟨Flt.fin 2, Flt.fin 0, Flt.fin 0, Flt.fin 0, 0⟩,
         ⟨Flt.fin 3, Flt.fin 0, Flt.fin 0, Flt.fin 0, 1⟩] (by simp)
    exact ⟨rings, indices, h1, h2, h3⟩⟩

/-- C2: the round trip of `getRings`. For every scan whose ring ids are all
below `RC`: every position of the scan occurs in the index list of exactly
one ring and exactly once there; the `j`-th point of a ring is the scan point
at the `j`-th index of that ring; writing every ring back at its indices,
over any cloud of the scan's length, gives the scan; and the ring sizes sum
to the scan's length. -/
theorem getRings_round_trip (RC : Nat) (scan : Cloud)
    (h : ∀ p ∈ scan, p.ring < RC) :
    ∃ (rings : List (List Point)) (indices : List (List Nat)),
      getRings RC scan = some (rings, indices) ∧
      (∀ i : Nat, i < scan.length →
        ∃ r : Nat, r < RC ∧ ∀ r2 : Nat, r2 < RC →
          (indices.getD r2 []).count i = if r2 = r then 1 else 0) ∧
      (∀ (r j : Nat) (p : Point), r < RC → (rings.getD r [])[j]? = some p →
        ∃ i : Nat, (indices.getD r [])[j]? = some i ∧ scan[i]? = some p) ∧
      (∀ base : Cloud, base.length = scan.length → restore base rings indices = scan) ∧
      (rings.map List.length).sum = scan.length := by
  refine ⟨_, _, getRings_eq RC scan h, ?_, ?_, ?_, ?_⟩
  · intro i hi
    refine ⟨scan[i].ring, h _ (List.getElem_mem hi), ?_⟩
    intro r2 hr2
    rw [getD_map_range RC _ r2 _ hr2, ringPositions, count_positionsWhere]
    simp [List.getElem?_eq_getElem hi, eq_comm]
  · intro r j p hr hp
    rw [getD_map_range RC _ r _ hr] at hp
    rw [getD_map_range RC _ r _ hr]
    have hb := getElem?_positionsWhere (fun p => decide (p.ring = r)) scan j
    have hp2 : (scan.filter (fun p => decide (p.ring = r)))[j]? = some p := hp
    rw [hp2] at hb
    cases hI : (ringPositions scan r)[j]? with
    | none =>
      have hI2 : (positionsWhere (fun p => decide (p.ring = r)) scan)[j]? = none := hI
      rw [hI2] at hb
      simp at hb
    | some i =>
      have hI2 : (positionsWhere (fun p => decide (p.ring = r)) scan)[j]? = some i := hI
      rw [hI2] at hb
      exact ⟨i, rfl, by simpa using hb⟩
  · intro base hlen
    rw [restore_eq_foldl]
    apply List.ext_getElem?
    intro k
    have hws : ∀ w ∈ (((List.range RC).map (ringPoints scan)).zip
        ((List.range RC).map (ringPositions scan))).map (fun ri => ri.1.zip ri.2) |>.flatten,
        scan[w.2]? = some w.1 := by
      intro w hw
      rw [List.zip_map', List.map_map, List.mem_flatten] at hw
      obtain ⟨l, hl, hwl⟩ := hw
      rw [List.mem_map] at hl
      obtain ⟨r, _, rfl⟩ := hl
      simp only [Function.comp] at hwl
      rw [zip_ringPoints_ringPositions, List.mem_map] at hwl
      obtain ⟨⟨i, p⟩, hip, rfl⟩ := hwl
      have hmem := (List.mem_filter.mp hip).1
      rw [List.mk_mem_enumFrom_iff_le_and_getElem?_sub] at hmem
      simpa using hmem.2
    rw [getElem?_foldl_set scan _ base hlen hws k]
    by_cases hk : k < scan.length
    · have hin : k ∈ ((((List.range RC).map (ringPoints scan)).zip
          ((List.range RC).map (ringPositions scan))).map
            (fun ri => ri.1.zip ri.2) |>.flatten).map Prod.snd := by
        rw [List.mem_map]
        refine ⟨(scan[k], k), ?_, rfl⟩
        rw [List.zip_map', List.map_map, List.mem_flatten]
        refine ⟨(ringPoints scan scan[k].ring).zip (ringPositions scan scan[k].ring), ?_, ?_⟩
        · rw [List.mem_map]
          exact ⟨scan[k].ring, List.mem_range.mpr (h _ (List.getElem_mem hk)), rfl⟩
        · rw [zip_ringPoints_ringPositions, List.mem_map]
          refine ⟨(k, scan[k]), ?_, rfl⟩
          rw [List.mem_filter]
          refine ⟨?_, by simp⟩
          rw [List.mk_mem_enumFrom_iff_le_and_getElem?_sub]
          exact ⟨Nat.zero_le _, by simp [List.getElem?_eq_getElem hk]⟩
      rw [if_pos hin]
    · have h1 : scan[k]? = none := List.getElem?_eq_none_iff.mpr (by omega)
      have h2 : base[k]? = none := List.getElem?_eq_none_iff.mpr (by omega)
      simp [h1, h2]
  · rw [List.map_map]
    exact sum_length_ringPoints RC scan h

/-- C2 at a scan of three points on two rings. -/
theorem getRings_round_trip_witness :
    (∀ p ∈ ([⟨Flt.fin 1, Flt.fin 0, Flt.fin 0, Flt.fin 0, 1⟩,
             ⟨Flt.fin 2, Flt.fin 0, Flt.fin 0, Flt.fin 0, 0⟩,
             ⟨Flt.fin 3, Flt.fin 0, Flt.fin 0, Flt.fin 0, 1⟩] : Cloud), p.ring < 2) ∧
    ∃ (rings : List (List Point)) (indices : List (List Nat)),
      getRings 2 [⟨Flt.fin 1, Flt.fin 0, Flt.fin 0, Flt.fin 0, 1⟩,
                  ⟨Flt.fin 2, Flt.fin 0, Flt.fin 0, Flt.fin 0, 0⟩,
                  ⟨Flt.fin 3, Flt.fin 0, Flt.fin 0, Flt.fin 0, 1⟩] = some (rings, indices) ∧
      (rings.map List.length).sum = 3 :=
  ⟨by simp, by
    obtain ⟨rings, indices, h1, _, _, _, h5⟩ :=
      getRings_round_trip 2
        [⟨Flt.fin 1, Flt.fin 0, Flt.fin 0, Flt.fin 0, 1⟩,
         ⟨Flt.fin 2, Flt.fin 0, Flt.fin 0, Flt.fin 0, 0⟩,
         ⟨Flt.fin 3, Flt.fin 0, Flt.fin 0, Flt.fin 0, 1⟩] (by simp)
    exact ⟨rings, indices, h1, h5⟩⟩

/-! ## C5 and C6: resampleTo -/

/-- Closed form of the loop of `resampleTo`: the points whose counter is a
multiple of `factor` are appended, in order. -/
theorem resampleLoop_eq (factor : Nat) (l : List Point) (c : Nat) (acc : Cloud) :
    resampleLoop factor l c acc
      = acc ++ ((l.enumFrom c).filter (fun ip => decide (ip.1 % factor = 0))).map Prod.snd := by
  induction l generalizing c acc with
  | nil => simp [resampleLoop]
  | cons pt rest ih =>
    by_cases h : c % factor = 0
    · simp [resampleLoop, ih, h, List.enumFrom_cons]
    · simp [resampleLoop, ih, h, List.enumFrom_cons]

/-- The `j`-th point kept from a counter `q * f + r` with `r < f` on. -/
theorem getElem?_strided (f : Nat) (l : List Point) (q r j : Nat) (hr : r < f) :
    (((l.enumFrom (q * f + r)).filter (fun ip => decide (ip.1 % f = 0))).map Prod.snd)[j]?
      = l[(if r = 0 then 0 else f - r) + j * f]? := by
  induction l generalizing q r j with
  | nil => simp
  | cons a t ih =>
    have hmod : (q * f + r) % f = r := by
      rw [Nat.mul_add_mod', Nat.mod_eq_of_lt hr]
    have hnext : ∀ k : Nat,
        (((t.enumFrom (q * f + r + 1)).filter (fun ip => decide (ip.1 % f = 0))).map
          Prod.snd)[k]? = t[(if r + 1 = f then 0 else f - (r + 1)) + k * f]? := by
      intro k
      by_cases hf : r + 1 = f
      · have e : q * f + r + 1 = (q + 1) * f + 0 := by rw [Nat.add_mul]; omega
        rw [e, ih (q + 1) 0 k (by omega)]
        simp [hf]
      · have e : q * f + r + 1 = q * f + (r + 1) := by omega
        rw [e, ih q (r + 1) k (by omega)]
        simp [hf]
    rw [List.enumFrom_cons]
    by_cases h0 : r = 0
    · subst h0
      have hsel : (q * f + 0) % f = 0 := hmod
      rw [List.filter_cons_of_pos (by simp), List.map_cons]
      cases j with
      | zero => simp
      | succ j =>
        rw [List.getElem?_cons_succ, hnext j]
        by_cases hf : 0 + 1 = f
        · have hf1 : f = 1 := by omega
          subst hf1
          simp
        · simp only [hf, if_false, if_true]
          have e : f - (0 + 1) + j * f = (0 + (j + 1) * f) - 1 := by
            rw [Nat.succ_mul]; omega
          have e2 : 0 + (j + 1) * f = (f - (0 + 1) + j * f) + 1 := by
            rw [Nat.succ_mul]; omega
          rw [e2, List.getElem?_cons_succ]
    · have hsel : ¬ (q * f + r) % f = 0 := by rw [hmod]; exact h0
      rw [List.filter_cons_of_neg (by simpa using hsel), hnext j]
      simp only [h0, if_false]
      by_cases hf : r + 1 = f
      · simp only [hf, if_true]
        have e : f - r + j * f = (0 + j * f) + 1 := by omega
        rw [e, List.getElem?_cons_succ]
      · simp only [hf, if_false]
        have e : f - r + j * f = (f - (r + 1) + j * f) + 1 := by omega
        rw [e, List.getElem?_cons_succ]

/-- The `j`-th point that `resampleTo` keeps is the point at position
`j * stride`. -/
theorem getElem?_resampleSelect (cloud : Cloud) (final_number j : Nat) :
    (resampleSelect cloud final_number)[j]?
      = cloud[j * (cloud.length / final_number + 1)]? := by
  unfold resampleSelect
  rw [resampleLoop_eq, List.nil_append]
  have h := getElem?_strided (cloud.length / final_number + 1) cloud 0 0 j (Nat.succ_pos _)
  simpa using h

/-- The number of points that `resampleTo` keeps is `ceil(n / stride)`. -/
theorem length_resampleSelect (cloud : Cloud) (final_number : Nat) :
    (resampleSelect cloud final_number).length
      = (cloud.length + (cloud.length / final_number + 1) - 1)
          / (cloud.length / final_number + 1) := by
  generalize hs : cloud.length / final_number + 1 = s
  have hspos : 0 < s := hs ▸ Nat.succ_pos _
  have hget : ∀ j : Nat, (resampleSelect cloud final_number)[j]? = cloud[j * s]? := by
    intro j; rw [getElem?_resampleSelect, hs]
  generalize hL : (resampleSelect cloud final_number).length = L
  have hup : cloud.length ≤ L * s := by
    have h1 : (resampleSelect cloud final_number)[L]? = none :=
      List.getElem?_eq_none_iff.mpr (by omega)
    rw [hget] at h1
    exact List.getElem?_eq_none_iff.mp h1
  have hlo : L * s < cloud.length + s := by
    cases L with
    | zero => omega
    | succ k =>
      have h1 : ∃ p, (resampleSelect cloud final_number)[k]? = some p :=
        ⟨_, List.getElem?_eq_getElem (by omega)⟩
      obtain ⟨p, hp⟩ := h1
      rw [hget] at hp
      have := (List.getElem?_eq_some_iff.mp hp).1
      rw [Nat.succ_mul]; omega
  symm
  apply Nat.div_eq_of_lt_le
  · omega
  · rw [Nat.succ_mul]; omega

/-- C5: the stride selection of `resampleTo`. For every cloud of size `n` and
every `final_number >= 1`, with `stride = n / final_number + 1`, the cloud
built by `resampleTo` consists of the input points at the positions `p` with
`p % stride = 0`, in original order; its `j`-th point is the input point at
position `j * stride`; it has `ceil(n / stride)` points; and `resampleTo`
returns it when its assertion on the size holds. -/
theorem resampleTo_stride_selection (cloud : Cloud) (final_number : Nat)
    (hfn : 1 ≤ final_number) :
    resampleSelect cloud final_number
        = ((cloud.enum).filter
            (fun ip => decide (ip.1 % (cloud.length / final_number + 1) = 0))).map Prod.snd ∧
      (∀ j : Nat, (resampleSelect cloud final_number)[j]?
        = cloud[j * (cloud.length / final_number + 1)]?) ∧
      (resampleSelect cloud final_number).length
        = (cloud.length + (cloud.length / final_number + 1) - 1)
            / (cloud.length / final_number + 1) ∧
      resampleTo cloud final_number
        = (if (resampleSelect cloud final_number).length = final_number
            then some (resampleSelect cloud final_number) else none) := by
  refine ⟨?_, getElem?_resampleSelect cloud final_number,
    length_resampleSelect cloud final_number, ?_⟩
  · unfold resampleSelect
    rw [resampleLoop_eq, List.nil_append]
    rfl
  · have h0 : final_number ≠ 0 := by omega
    simp [resampleTo, h0]

/-- C5 at a cloud of 1000 points and `final_number = 100`: the stride is 11
and the `j`-th kept point is the point at position `11 * j`. -/
theorem resampleTo_stride_selection_witness :
    1 ≤ 100 ∧
    ∀ j : Nat, (resampleSelect (List.replicate 1000 default) 100)[j]?
      = (List.replicate 1000 (default : Point))[j * 11]? :=
  ⟨by decide, fun j => by
    have h := (resampleTo_stride_selection (List.replicate 1000 default) 100 (by decide)).2.1 j
    rw [List.length_replicate] at h
    exact h⟩

/-- C6: `resampleTo` does not guarantee the requested count. On every cloud
of 1000 points with `final_number = 100` the stride is 11, the cloud built
has 91 points, not 100, and the assertion `resampled.size() == final_number`
fails. -/
theorem resampleTo_count_not_exact (cloud : Cloud) (hn : cloud.length = 1000) :
    cloud.length / 100 + 1 = 11 ∧
      (resampleSelect cloud 100).length = 91 ∧
      (resampleSelect cloud 100).length ≠ 100 ∧
      resampleTo cloud 100 = none := by
  have hlen : (resampleSelect cloud 100).length = 91 := by
    rw [length_resampleSelect, hn]
  refine ⟨by rw [hn], hlen, by rw [hlen]; decide, ?_⟩
  simp [resampleTo, hlen]

/-- C6 at the cloud of 1000 copies of one point. -/
theorem resampleTo_count_not_exact_witness :
    (List.replicate 1000 (default : Point)).length = 1000 ∧
    resampleTo (List.replicate 1000 default) 100 = none :=
  ⟨List.length_replicate _ _,
    (resampleTo_count_not_exact (List.replicate 1000 default)
      (List.length_replicate _ _)).2.2.2⟩

/-! ## C8: projectPoint -/

theorem Flt.lt_irrefl (a : Flt) : Flt.lt a a = false := by
  cases a <;> simp [Flt.lt]

/-- C8: `projectPoint` rejects the points behind the camera. For every point
with `z < 0`, every projection matrix and every viewport the call returns
false and leaves the output argument `projected_pt` as it was. -/
theorem projectPoint_behind (pt : Point) (m : ProjMat) (plane : Rect) (out : Point2f)
    (hz : Flt.lt pt.z (Flt.fin 0) = true) :
    projectPoint pt m plane out = (false, out) := by
  simp [projectPoint, hz]

/-- C8 at a point with `z = -1`. -/
theorem projectPoint_behind_witness :
    Flt.lt (Flt.fin (-1)) (Flt.fin 0) = true ∧
    projectPoint ⟨Flt.fin 3, Flt.fin 4, Flt.fin (-1), Flt.fin 0, 0⟩
        (fun i j => if i.val = j.val then Flt.fin 1 else Flt.fin 0) ⟨0, 0, 10, 10⟩
        ⟨Flt.fin 7, Flt.fin 8⟩
      = (false, ⟨Flt.fin 7, Flt.fin 8⟩) :=
  ⟨by simp [Flt.lt],
    projectPoint_behind ⟨Flt.fin 3, Flt.fin 4, Flt.fin (-1), Flt.fin 0, 0⟩
      (fun i j => if i.val = j.val then Flt.fin 1 else Flt.fin 0) ⟨0, 0, 10, 10⟩
      ⟨Flt.fin 7, Flt.fin 8⟩ (by simp [Flt.lt])⟩

/-! ## The update of normalizeIntensity -/

theorem Flt.div_fin {a b : ℚ} (hb : b ≠ 0) :
    Flt.div (Flt.fin a) (Flt.fin b) = Flt.fin (a / b) := by
  simp [Flt.div, hb]

/-! ## The copy loop of removeNanPoints -/

/-- The `j`-th entry of a strictly increasing list of numbers, all at least
`lo`, is at least `lo + j`. -/
theorem sorted_index_le (l : List Nat) (lo : Nat) (hs : l.Sorted (fun a b => a < b))
    (hlo : ∀ x ∈ l, lo ≤ x) (j s : Nat) (hj : l[j]? = some s) : lo + j ≤ s := by
  induction l generalizing lo j with
  | nil => simp at hj
  | cons a t ih =>
    cases j with
    | zero =>
      simp at hj
      subst hj
      exact hlo a (List.mem_cons_self _ _)
    | succ j =>
      rw [List.getElem?_cons_succ] at hj
      have hs2 := List.sorted_cons.mp hs
      have ha : lo ≤ a := hlo a (List.mem_cons_self _ _)
      have := ih (lo + 1) hs2.2 (fun x hx => by have := hs2.1 x hx; omega) j hj
      omega

/-- The copy loop of `removeNanPoints` on a strictly increasing index list:
when the slots from `i` on still hold their original points, the loop
completes, leaves the slots below `i` and from `i + rest.length` on as they
were, and slot `i + j` receives the original point at `rest[j]`. -/
theorem copyLoop_spec (orig : Cloud) (rest : List Nat) (i : Nat) (cur : Cloud)
    (hlen : cur.length = orig.length)
    (hkeep : ∀ m : Nat, i ≤ m → cur[m]? = orig[m]?)
    (hs : rest.Sorted (fun a b => a < b))
    (hb : ∀ s ∈ rest, i ≤ s ∧ s < orig.length) :
    ∃ c2 : Cloud, copyLoop rest i cur = some c2 ∧ c2.length = orig.length ∧
      (∀ k : Nat, k < i → c2[k]? = cur[k]?) ∧
      (∀ m : Nat, i + rest.length ≤ m → c2[m]? = orig[m]?) ∧
      (∀ j s : Nat, rest[j]? = some s → c2[i + j]? = orig[s]?) := by
  induction rest generalizing i cur with
  | nil =>
    refine ⟨cur, rfl, hlen, fun _ _ => rfl, ?_, ?_⟩
    · intro m hm
      exact hkeep m (by simpa using hm)
    · intro j s hj
      simp at hj
  | cons s rest ih =>
    have hsb := hb s (List.mem_cons_self _ _)
    have hs2 := List.sorted_cons.mp hs
    have hread : cur[s]? = some orig[s] := by
      rw [hkeep s hsb.1]
      exact List.getElem?_eq_getElem hsb.2
    have hi : i < cur.length := by omega
    have hlen2 : (cur.set i orig[s]).length = orig.length := by simpa using hlen
    have hkeep2 : ∀ m : Nat, i + 1 ≤ m → (cur.set i orig[s])[m]? = orig[m]? := by
      intro m hm
      rw [List.getElem?_set, if_neg (by omega)]
      exact hkeep m (by omega)
    have hb2 : ∀ t ∈ rest, i + 1 ≤ t ∧ t < orig.length := by
      intro t ht
      have h1 := hs2.1 t ht
      have h2 := hb t (List.mem_cons_of_mem _ ht)
      omega
    obtain ⟨c2, hrun, hl, hlow, hhigh, hmid⟩ := ih (i + 1) (cur.set i orig[s]) hlen2 hkeep2 hs2.2 hb2
    refine ⟨c2, ?_, hl, ?_, ?_, ?_⟩
    · simp only [copyLoop, hread, hi, if_true]
      exact hrun
    · intro k hk
      rw [hlow k (by omega), List.getElem?_set, if_neg (by omega)]
    · intro m hm
      apply hhigh
      simp only [List.length_cons] at hm
      omega
    · intro j t hj
      cases j with
      | zero =>
        simp at hj
        subst hj
        rw [Nat.add_zero, hlow i (by omega), List.getElem?_set, if_pos rfl, if_pos hi]
        exact (List.getElem?_eq_getElem hsb.2).symm
      | succ j =>
        rw [List.getElem?_cons_succ] at hj
        have := hmid j t hj
        have e : i + (j + 1) = i + 1 + j := by omega
        rw [e]
        exact this

theorem positionsWhere_lt {α : Type} (q : α → Bool) (l : List α) :
    ∀ s ∈ positionsWhere q l, 0 ≤ s ∧ s < l.length := by
  intro s hs
  obtain ⟨a, ha, _⟩ := (mem_positionsWhere q l s).mp hs
  exact ⟨Nat.zero_le _, (List.getElem?_eq_some_iff.mp ha).1⟩

/-! ## The loops of computeEdges -/

theorem edgeInner_eq (range : Point → Flt) (a b : Point) (rest : List Point)
    (st : EdgeState) :
    edgeInner range (b :: rest) (range a) (range b) st
      = ((triples (a :: b :: rest)).map (rawEdge range)).foldl pushCand st := by
  induction rest generalizing a b st with
  | nil => simp [edgeInner, triples]
  | cons n rest ih =>
    rw [edgeInner, ih]
    simp [triples, rawEdge, pushCand]

theorem edgeRing_eq (range : Point → Flt) (st : EdgeState) (ring : List Point) :
    edgeRing range st ring = ((triples ring).map (rawEdge range)).foldl pushCand st := by
  cases ring with
  | nil => simp [edgeRing, triples]
  | cons a t =>
    cases t with
    | nil => simp [edgeRing, triples]
    | cons b rest => simp [edgeRing, edgeInner_eq]

theorem foldl_edgeRing_eq (range : Point → Flt) (rings : List (List Point))
    (st : EdgeState) :
    rings.foldl (edgeRing range) st
      = (rings.flatMap (fun ring => (triples ring).map (rawEdge range))).foldl pushCand st := by
  induction rings generalizing st with
  | nil => simp
  | cons ring rings ih =>
    rw [List.foldl_cons, ih, edgeRing_eq, List.flatMap_cons, List.foldl_append]

theorem mem_triples {α : Type} (l : List α) (t : α × α × α) (ht : t ∈ triples l) :
    t.1 ∈ l ∧ t.2.1 ∈ l ∧ t.2.2 ∈ l := by
  induction l with
  | nil => simp [triples] at ht
  | cons a l1 ih =>
    cases l1 with
    | nil => simp [triples] at ht
    | cons b l2 =>
      cases l2 with
      | nil => simp [triples] at ht
      | cons n rest =>
        rw [triples, List.mem_cons] at ht
        rcases ht with h | h
        · subst h; simp
        · have := ih h
          exact ⟨List.mem_cons_of_mem _ this.1, List.mem_cons_of_mem _ this.2.1,
            List.mem_cons_of_mem _ this.2.2⟩

theorem Flt.lt_nan (t : Flt) : Flt.lt t Flt.nan = false := by
  cases t <;> rfl

theorem triples_short {α : Type} (l : List α) (h : l.length < 3) : triples l = [] := by
  cases l with
  | nil => rfl
  | cons a t =>
    cases t with
    | nil => rfl
    | cons b u =>
      cases u with
      | nil => rfl
      | cons d v =>
        simp only [List.length_cons] at h
        omega

/-- C11: `computeEdges` on a scan without candidates. For every threshold and
every scan with in-range ring ids that is empty or whose rings all have
fewer than 2 points, the loops end with the initial accumulators and an
empty candidate cloud, the normalisation runs over that empty cloud (no
quotient is formed), and the returned edge cloud is empty. -/
theorem computeEdges_no_candidates (RC : Nat) (range : Point → Flt) (threshold : Flt)
    (scan : Cloud) (hring : ∀ p ∈ scan, p.ring < RC)
    (hshort : scan = [] ∨ ∀ r : Nat, r < RC → (ringPoints scan r).length < 2) :
    computeEdgesScan RC range scan
        = some { min_difference := Flt.pinf, max_difference := Flt.fin 0, edge_cloud := [] } ∧
      normalizeIntensity Flt.pinf (Flt.fin 0) [] = [] ∧
      computeEdges RC range threshold scan = some [] := by
  have hlen : ∀ r : Nat, r < RC → (ringPoints scan r).length < 2 := by
    rcases hshort with h | h
    · intro r _
      rw [h]
      simp [ringPoints]
    · exact h
  have hcands : ((List.range RC).map (ringPoints scan)).flatMap
      (fun ring => (triples ring).map (rawEdge range)) = [] := by
    rw [List.flatMap_map, List.flatMap_eq_nil_iff]
    intro r hr
    have := hlen r (List.mem_range.mp hr)
    rw [triples_short _ (by omega)]
    rfl
  have hscan : computeEdgesScan RC range scan
      = some { min_difference := Flt.pinf, max_difference := Flt.fin 0, edge_cloud := [] } := by
    unfold computeEdgesScan
    rw [getRings_eq RC scan hring]
    simp only
    rw [foldl_edgeRing_eq, hcands]
    rfl
  refine ⟨hscan, rfl, ?_⟩
  unfold computeEdges
  rw [hscan]
  rfl

/-- C11 at the empty scan. -/
theorem computeEdges_no_candidates_witness :
    (∀ p ∈ ([] : Cloud), p.ring < 4) ∧
    computeEdges 4 xRange (Flt.fin 0) [] = some [] :=
  ⟨by simp,
    (computeEdges_no_candidates 4 xRange (Flt.fin 0) [] (by simp) (Or.inl rfl)).2.2⟩

/-! ## C13: the assertion of getRings -/

theorem getRingsLoop_eq_none_iff (RC : Nat) (rest : List Point) (id : Nat)
    (st : List (List Point) × List (List Nat)) :
    getRingsLoop RC rest id st = none ↔ ∃ p ∈ rest, RC ≤ p.ring := by
  induction rest generalizing id st with
  | nil => simp [getRingsLoop]
  | cons pt rest ih =>
    obtain ⟨rings, indices⟩ := st
    by_cases h : pt.ring < RC
    · simp only [getRingsLoop, h, if_true, ih, List.mem_cons, exists_eq_or_imp]
      constructor
      · intro hx; exact Or.inr hx
      · rintro (hx | hx)
        · omega
        · exact hx
    · simp only [getRingsLoop, h, if_false, List.mem_cons, exists_eq_or_imp, true_iff]
      exact Or.inl (by omega)

/-- C13: `getRings` fails fast on a bad ring id. The call faults exactly when
some point of the scan has `ring >= RC`; when every ring id is in range it
completes, and at the iteration of every point the state holds `RC` rings and
`RC` index lists, so the buckets `rings[pt->ring]` and `indices[pt->ring]`
exist. -/
theorem getRings_fault_iff (RC : Nat) (scan : Cloud) :
    (getRings RC scan = none ↔ ∃ p ∈ scan, RC ≤ p.ring) ∧
    ((∀ p ∈ scan, p.ring < RC) →
      (∃ (rings : List (List Point)) (indices : List (List Nat)),
        getRings RC scan = some (rings, indices)) ∧
      ∀ (k : Nat) (p : Point), scan[k]? = some p →
        ∃ (rings : List (List Point)) (indices : List (List Nat)),
          getRings RC (scan.take k) = some (rings, indices) ∧
          p.ring < rings.length ∧ p.ring < indices.length) := by
  refine ⟨getRingsLoop_eq_none_iff RC scan 0 _, ?_⟩
  intro h
  refine ⟨⟨_, _, getRings_eq RC scan h⟩, ?_⟩
  intro k p hp
  have hk : ∀ q ∈ scan.take k, q.ring < RC := fun q hq => h q (List.mem_of_mem_take hq)
  have hpr : p.ring < RC := h p (List.mem_iff_getElem?.mpr ⟨k, hp⟩)
  exact ⟨_, _, getRings_eq RC (scan.take k) hk, by simpa using hpr, by simpa using hpr⟩

/-! ## C19: resampleTo never overshoots -/

/-- C19: `resampleTo` never overshoots. For every cloud of size `n` and every
`final_number >= 1` the number of points kept, `ceil(n / (n / final_number + 1))`,
is at most `final_number`, and at least 1 when `n >= 1`; so when the
assertion of `resampleTo` fails, too few points were kept. -/
theorem resampleTo_never_overshoots (cloud : Cloud) (final_number : Nat)
    (hfn : 1 ≤ final_number) :
    (resampleSelect cloud final_number).length
        = (cloud.length + (cloud.length / final_number + 1) - 1)
            / (cloud.length / final_number + 1) ∧
      (resampleSelect cloud final_number).length ≤ final_number ∧
      (1 ≤ cloud.length → 1 ≤ (resampleSelect cloud final_number).length) ∧
      (resampleTo cloud final_number = none →
        (resampleSelect cloud final_number).length < final_number) := by
  have hle : (resampleSelect cloud final_number).length ≤ final_number := by
    apply List.getElem?_eq_none_iff.mp
    rw [getElem?_resampleSelect]
    apply List.getElem?_eq_none_iff.mpr
    exact le_of_lt (Nat.lt_mul_div_succ cloud.length (by omega))
  refine ⟨length_resampleSelect cloud final_number, hle, ?_, ?_⟩
  · intro hn
    have h0 : (resampleSelect cloud final_number)[0]? = cloud[0]? := by
      have := getElem?_resampleSelect cloud final_number 0
      simpa using this
    have h1 : cloud[0]? = some cloud[0] := List.getElem?_eq_getElem (by omega)
    rw [h1] at h0
    exact Nat.succ_le_of_lt (List.getElem?_eq_some_iff.mp h0).1
  · intro hnone
    have h0 : final_number ≠ 0 := by omega
    have hne : (resampleSelect cloud final_number).length ≠ final_number := by
      intro heq
      simp [resampleTo, h0, heq] at hnone
    omega

/-- C19 at a cloud of 1000 points and `final_number = 100`: at most 100
points are kept. -/
theorem resampleTo_never_overshoots_witness :
    1 ≤ 100 ∧ (resampleSelect (List.replicate 1000 (default : Point)) 100).length ≤ 100 :=
  ⟨by decide,
    (resampleTo_never_overshoots (List.replicate 1000 default) 100 (by decide)).2.1⟩

/-! ## Thresholds of at least one -/

theorem Flt.lt_fin_of_one_le {t : Flt} {v : ℚ} (ht : Flt.le (Flt.fin 1) t = true)
    (hv : v ≤ 1) : Flt.lt t (Flt.fin v) = false := by
  cases t with
  | fin q =>
    simp only [Flt.le, decide_eq_true_eq] at ht
    simp only [Flt.lt, decide_eq_false_iff_not, not_lt]
    linarith
  | pinf => rfl
  | ninf => simp [Flt.le] at ht
  | nan => simp [Flt.le] at ht

/-! ## C17: getMinValuePt and getMaxValuePt -/

/-- A scan that keeps the current point unless the next one is strictly
better for the relation `R`, started from a sentinel that every point beats:
on a non-empty list it ends at the first point that none of the list beats. -/
theorem foldl_best_spec (R : ℚ → ℚ → Prop) (step : Point → Point → Point) (init : Point)
    (iq : Point → ℚ)
    (hasymm : ∀ a b : ℚ, R a b → ¬ R b a)
    (hchain : ∀ a b q : ℚ, R b a → ¬ R q a → R b q)
    (hinit : ∀ (p : Point) (b : ℚ), p.intensity = Flt.fin b → step init p = p)
    (hstep : ∀ (r p : Point) (a b : ℚ), r.intensity = Flt.fin a → p.intensity = Flt.fin b →
      (R b a → step r p = p) ∧ (¬ R b a → step r p = r))
    (l : List Point) (hfin : ∀ p ∈ l, p.intensity = Flt.fin (iq p)) (hne : l ≠ []) :
    ∃ i : Nat, l[i]? = some (l.foldl step init) ∧
      (∀ (j : Nat) (q : Point), j < i → l[j]? = some q →
        R (iq (l.foldl step init)) (iq q)) ∧
      (∀ q ∈ l, ¬ R (iq q) (iq (l.foldl step init))) := by
  induction l using List.reverseRecOn with
  | nil => exact absurd rfl hne
  | append_singleton l p ih =>
    have hp : p.intensity = Flt.fin (iq p) := hfin p (by simp)
    have hl : ∀ q ∈ l, q.intensity = Flt.fin (iq q) := fun q hq => hfin q (by simp [hq])
    rw [List.foldl_append, List.foldl_cons, List.foldl_nil]
    by_cases hnil : l = []
    · subst hnil
      rw [List.foldl_nil, hinit p _ hp]
      refine ⟨0, by simp, ?_, ?_⟩
      · intro j q hj _
        omega
      · intro q hq
        simp only [List.nil_append, List.mem_singleton] at hq
        subst hq
        exact fun h => hasymm _ _ h h
    · obtain ⟨i, hi, hbefore, hall⟩ := ih hl hnil
      have hrmem : l.foldl step init ∈ l := List.mem_iff_getElem?.mpr ⟨i, hi⟩
      have hr := hl _ hrmem
      have hilt : i < l.length := (List.getElem?_eq_some_iff.mp hi).1
      by_cases hbetter : R (iq p) (iq (l.foldl step init))
      · rw [(hstep _ p _ _ hr hp).1 hbetter]
        refine ⟨l.length, by simp, ?_, ?_⟩
        · intro j q hj hq
          rw [List.getElem?_append_left hj] at hq
          exact hchain _ _ _ hbetter (hall q (List.mem_iff_getElem?.mpr ⟨j, hq⟩))
        · intro q hq
          rcases List.mem_append.mp hq with h | h
          · exact hasymm _ _ (hchain _ _ _ hbetter (hall q h))
          · simp only [List.mem_singleton] at h
            subst h
            exact fun h2 => hasymm _ _ h2 h2
      · rw [(hstep _ p _ _ hr hp).2 hbetter]
        refine ⟨i, by rw [List.getElem?_append_left hilt]; exact hi, ?_, ?_⟩
        · intro j q hj hq
          rw [List.getElem?_append_left (by omega)] at hq
          exact hbefore j q hj hq
        · intro q hq
          rcases List.mem_append.mp hq with h | h
          · exact hall q h
          · simp only [List.mem_singleton] at h
            subst h
            exact hbetter

/-- C17: `getMinValuePt` and `getMaxValuePt`. On the empty cloud they return
the sentinel with zero coordinates and intensity `+inf`, respectively `-inf`.
On a non-empty cloud with finite intensities `getMinValuePt` returns the
point at some position `i` of the cloud whose intensity is at most every
intensity of the cloud and strictly below the intensity of every earlier
point; `getMaxValuePt` returns the point at some position whose intensity is
at least every intensity of the cloud and strictly above the intensity of
every earlier point. -/
theorem getMinMaxValuePt_spec (cloud : Cloud) (iq : Point → ℚ)
    (hfin : ∀ p ∈ cloud, p.intensity = Flt.fin (iq p)) (hne : cloud ≠ []) :
    getMinValuePt []
        = { x := Flt.fin 0, y := Flt.fin 0, z := Flt.fin 0, ring := 0,
            intensity := Flt.pinf } ∧
    getMaxValuePt []
        = { x := Flt.fin 0, y := Flt.fin 0, z := Flt.fin 0, ring := 0,
            intensity := Flt.ninf } ∧
    (∃ i : Nat, cloud[i]? = some (getMinValuePt cloud) ∧
      (∀ (j : Nat) (q : Point), j < i → cloud[j]? = some q →
        iq (getMinValuePt cloud) < iq q) ∧
      (∀ q ∈ cloud, iq (getMinValuePt cloud) ≤ iq q)) ∧
    (∃ i : Nat, cloud[i]? = some (getMaxValuePt cloud) ∧
      (∀ (j : Nat) (q : Point), j < i → cloud[j]? = some q →
        iq q < iq (getMaxValuePt cloud)) ∧
      (∀ q ∈ cloud, iq q ≤ iq (getMaxValuePt cloud))) := by
  refine ⟨rfl, rfl, ?_, ?_⟩
  · obtain ⟨i, h1, h2, h3⟩ := foldl_best_spec (fun a b => a < b)
      (fun min pt => if Flt.lt pt.intensity min.intensity then pt else min)
      { x := Flt.fin 0, y := Flt.fin 0, z := Flt.fin 0, ring := 0, intensity := Flt.pinf }
      iq (fun a b h => not_lt.mpr (le_of_lt h))
      (fun a b q h1 h2 => lt_of_lt_of_le h1 (not_lt.mp h2))
      (fun p b hp => by simp [hp, Flt.lt])
      (fun r p a b hr hp => by
        simp only [hr, hp, Flt.lt, decide_eq_true_eq]
        exact ⟨fun h => if_pos h, fun h => if_neg h⟩)
      cloud hfin hne
    exact ⟨i, h1, h2, fun q hq => not_lt.mp (h3 q hq)⟩
  · obtain ⟨i, h1, h2, h3⟩ := foldl_best_spec (fun a b => b < a)
      (fun max pt => if Flt.lt max.intensity pt.intensity then pt else max)
      { x := Flt.fin 0, y := Flt.fin 0, z := Flt.fin 0, ring := 0, intensity := Flt.ninf }
      iq (fun a b h => not_lt.mpr (le_of_lt h))
      (fun a b q h1 h2 => lt_of_le_of_lt (not_lt.mp h2) h1)
      (fun p b hp => by simp [hp, Flt.lt])
      (fun r p a b hr hp => by
        simp only [hr, hp, Flt.lt, decide_eq_true_eq]
        exact ⟨fun h => if_pos h, fun h => if_neg h⟩)
      cloud hfin hne
    exact ⟨i, h1, h2, fun q hq => not_lt.mp (h3 q hq)⟩

/-- C17 at the cloud with intensities 3, 1, 4 and 1. -/
theorem getMinMaxValuePt_spec_witness :
    (([⟨Flt.fin 0, Flt.fin 0, Flt.fin 0, Flt.fin 3, 0⟩,
       ⟨Flt.fin 1, Flt.fin 0, Flt.fin 0, Flt.fin 1, 0⟩,
       ⟨Flt.fin 2, Flt.fin 0, Flt.fin 0, Flt.fin 4, 0⟩,
       ⟨Flt.fin 3, Flt.fin 0, Flt.fin 0, Flt.fin 1, 0⟩] : Cloud) ≠ []) ∧
    ∃ i : Nat,
      ([⟨Flt.fin 0, Flt.fin 0, Flt.fin 0, Flt.fin 3, 0⟩,
        ⟨Flt.fin 1, Flt.fin 0, Flt.fin 0, Flt.fin 1, 0⟩,
        ⟨Flt.fin 2, Flt.fin 0, Flt.fin 0, Flt.fin 4, 0⟩,
        ⟨Flt.fin 3, Flt.fin 0, Flt.fin 0, Flt.fin 1, 0⟩] : Cloud)[i]?
      = some (getMinValuePt
        [⟨Flt.fin 0, Flt.fin 0, Flt.fin 0, Flt.fin 3, 0⟩,
         ⟨Flt.fin 1, Flt.fin 0, Flt.fin 0, Flt.fin 1, 0⟩,
         ⟨Flt.fin 2, Flt.fin 0, Flt.fin 0, Flt.fin 4, 0⟩,
         ⟨Flt.fin 3, Flt.fin 0, Flt.fin 0, Flt.fin 1, 0⟩]) :=
  ⟨by simp, by
    obtain ⟨_, _, ⟨i, h, _⟩, _⟩ :=
      getMinMaxValuePt_spec
        [⟨Flt.fin 0, Flt.fin 0, Flt.fin 0, Flt.fin 3, 0⟩,
         ⟨Flt.fin 1, Flt.fin 0, Flt.fin 0, Flt.fin 1, 0⟩,
         ⟨Flt.fin 2, Flt.fin 0, Flt.fin 0, Flt.fin 4, 0⟩,
         ⟨Flt.fin 3, Flt.fin 0, Flt.fin 0, Flt.fin 1, 0⟩]
        (fun p => p.intensity.toRat) (by simp [Flt.toRat]) (by simp)
    exact ⟨i, h⟩⟩

/-! ## C14 and C15: getMedianRange -/

/-- Sorting finite values is sorting their exact values. -/
theorem sort_map_fin (qs : List ℚ) :
    sort (qs.map Flt.fin) = (qs.insertionSort (fun a b => a ≤ b)).map Flt.fin := by
  unfold sort
  symm
  apply List.map_insertionSort
  intro a _ b _
  simp [Flt.le]

theorem sorted_insertionSort_rat (qs : List ℚ) :
    (qs.insertionSort (fun a b => a ≤ b)).Sorted (fun a b => a ≤ b) :=
  List.sorted_insertionSort (fun a b : ℚ => a ≤ b) qs

/-- In an ascending list at least `k + 1` entries are at most the entry at
index `k`, and at least `length - k` entries are at least that entry. -/
theorem sorted_count (s : List ℚ) (hs : s.Sorted (fun a b => a ≤ b)) (k : Nat)
    (hk : k < s.length) :
    k + 1 ≤ s.countP (fun x => decide (x ≤ s[k])) ∧
      s.length - k ≤ s.countP (fun x => decide (s[k] ≤ x)) := by
  have hpair := List.pairwise_iff_getElem.mp hs
  constructor
  · have h1 : (s.take (k + 1)).countP (fun x => decide (x ≤ s[k])) = (s.take (k + 1)).length := by
      rw [List.countP_eq_length]
      intro a ha
      obtain ⟨i, hi, rfl⟩ := List.mem_take_iff_getElem.mp ha
      have hik : i ≤ k := by
        have := Nat.lt_min.mp hi
        omega
      rcases Nat.lt_or_eq_of_le hik with h | h
      · simpa using hpair i k (by omega) hk h
      · subst h; simp
    have h2 := List.Sublist.countP_le (fun x => decide (x ≤ s[k])) (List.take_sublist (k + 1) s)
    rw [h1, List.length_take] at h2
    have : min (k + 1) s.length = k + 1 := Nat.min_eq_left (by omega)
    omega
  · have h1 : (s.drop k).countP (fun x => decide (s[k] ≤ x)) = (s.drop k).length := by
      rw [List.countP_eq_length]
      intro a ha
      obtain ⟨i, hi, rfl⟩ := List.mem_drop_iff_getElem.mp ha
      rcases Nat.eq_zero_or_pos i with h | h
      · subst h; simp
      · simpa using hpair k (k + i) hk (by omega) (by omega)
    have h2 := List.Sublist.countP_le (fun x => decide (s[k] ≤ x)) (List.drop_sublist k s)
    rw [h1, List.length_drop] at h2
    exact h2

/-- The value of `getMedianRange` on a non-empty cloud with finite ranges. -/
theorem getMedianRange_eq (range : Point → Flt) (rq : Point → ℚ) (cloud : Cloud)
    (hfin : ∀ p ∈ cloud, range p = Flt.fin (rq p)) (hne : 1 ≤ cloud.length) :
    getMedianRange range cloud
      = Flt.fin (((cloud.map rq).insertionSort (fun a b => a ≤ b)).getD
          (cloud.length / 2) 0) := by
  have h0 : ¬ cloud.length = 0 := by omega
  have hmap : cloud.map range = (cloud.map rq).map Flt.fin := by
    rw [List.map_map]
    exact List.map_congr_left hfin
  unfold getMedianRange
  rw [if_neg h0, hmap, sort_map_fin]
  simp only [List.length_map, List.length_insertionSort]
  exact List.getD_map _ 0 Flt.fin

/-- The order statistic behind `getMedianRange`: the ascending list of the
exact ranges and its entry at index `n / 2`. -/
theorem median_entry (rq : Point → ℚ) (cloud : Cloud) (k : Nat) (hk : k < cloud.length) :
    ∃ (sorted : List ℚ) (v : ℚ),
      sorted = (cloud.map rq).insertionSort (fun a b => a ≤ b) ∧
      sorted.Sorted (fun a b => a ≤ b) ∧ sorted.Perm (cloud.map rq) ∧
      sorted[k]? = some v ∧ sorted.getD k 0 = v ∧
      (∃ p ∈ cloud, rq p = v) ∧
      k + 1 ≤ cloud.countP (fun p => decide (rq p ≤ v)) ∧
      cloud.length - k ≤ cloud.countP (fun p => decide (v ≤ rq p)) := by
  have hperm := List.perm_insertionSort (fun a b : ℚ => a ≤ b) (cloud.map rq)
  have hsorted := sorted_insertionSort_rat (cloud.map rq)
  have hlen : ((cloud.map rq).insertionSort (fun a b => a ≤ b)).length = cloud.length := by
    rw [List.length_insertionSort, List.length_map]
  have hk2 : k < ((cloud.map rq).insertionSort (fun a b => a ≤ b)).length := by omega
  have hcount := sorted_count _ hsorted k hk2
  refine ⟨_, ((cloud.map rq).insertionSort (fun a b => a ≤ b))[k], rfl, hsorted, hperm,
    List.getElem?_eq_getElem hk2, List.getD_eq_getElem _ _ hk2, ?_, ?_, ?_⟩
  · have hmem : ((cloud.map rq).insertionSort (fun a b => a ≤ b))[k] ∈ cloud.map rq :=
      hperm.mem_iff.mp (List.getElem_mem hk2)
    obtain ⟨p, hp, hpv⟩ := List.mem_map.mp hmem
    exact ⟨p, hp, hpv⟩
  · have h1 := hcount.1
    rw [List.Perm.countP_eq _ hperm, List.countP_map] at h1
    exact h1
  · have h2 := hcount.2
    rw [List.Perm.countP_eq _ hperm, List.countP_map, hlen] at h2
    exact h2

/-- C14: the order statistic of `getMedianRange`. On the empty cloud the
result is NaN. On a cloud of `n >= 1` points with finite ranges the result is
the entry at 0-based index `n / 2` of the ascending list of the ranges; it is
the range of a point of the cloud, at least `n / 2 + 1` points have a range
at most it and at least `n - n / 2` points have a range at least it. -/
theorem getMedianRange_order_statistic (range : Point → Flt) (rq : Point → ℚ)
    (cloud : Cloud) (hfin : ∀ p ∈ cloud, range p = Flt.fin (rq p))
    (hne : 1 ≤ cloud.length) :
    getMedianRange range [] = Flt.nan ∧
    ∃ (sorted : List ℚ) (v : ℚ),
      sorted.Sorted (fun a b => a ≤ b) ∧ sorted.Perm (cloud.map rq) ∧
      sorted[cloud.length / 2]? = some v ∧
      getMedianRange range cloud = Flt.fin v ∧
      (∃ p ∈ cloud, rq p = v) ∧
      cloud.length / 2 + 1 ≤ cloud.countP (fun p => decide (rq p ≤ v)) ∧
      cloud.length - cloud.length / 2 ≤ cloud.countP (fun p => decide (v ≤ rq p)) := by
  refine ⟨rfl, ?_⟩
  obtain ⟨sorted, v, hdef, hs, hp, hget, hgetD, hmem, hc1, hc2⟩ :=
    median_entry rq cloud (cloud.length / 2) (by omega)
  refine ⟨sorted, v, hs, hp, hget, ?_, hmem, hc1, hc2⟩
  rw [getMedianRange_eq range rq cloud hfin hne, ← hdef, hgetD]

/-- C14 at the sample cloud with ranges 1, 2, 3 and 4. -/
theorem getMedianRange_order_statistic_witness :
    (∀ p ∈ sampleFourCloud, xRange p = Flt.fin (xRangeExact p)) ∧
    1 ≤ sampleFourCloud.length ∧
    ∃ v : ℚ, getMedianRange xRange sampleFourCloud = Flt.fin v :=
  ⟨by simp [sampleFourCloud, xRange, xRangeExact], by simp [sampleFourCloud], by
    obtain ⟨_, _, v, _, _, _, h, _⟩ :=
      getMedianRange_order_statistic xRange xRangeExact sampleFourCloud
        (by simp [sampleFourCloud, xRange, xRangeExact]) (by simp [sampleFourCloud])
    exact ⟨v, h⟩⟩

/-- C15, as the code behaves: on a cloud with an even number `n >= 2` of
points and finite ranges `getMedianRange` returns the upper median, the entry
at 0-based index `n / 2` of the ascending ranges (the `(n / 2 + 1)`-th
smallest); the entry at index `n / 2 - 1` is at most it, and the result
differs from that lower median whenever the two entries differ. -/
theorem getMedianRange_upper_median (range : Point → Flt) (rq : Point → ℚ)
    (cloud : Cloud) (hfin : ∀ p ∈ cloud, range p = Flt.fin (rq p))
    (heven : cloud.length % 2 = 0) (hn : 2 ≤ cloud.length) :
    ∃ (sorted : List ℚ) (lo hi : ℚ),
      sorted.Sorted (fun a b => a ≤ b) ∧ sorted.Perm (cloud.map rq) ∧
      sorted[cloud.length / 2 - 1]? = some lo ∧
      sorted[cloud.length / 2]? = some hi ∧
      lo ≤ hi ∧
      getMedianRange range cloud = Flt.fin hi ∧
      (lo ≠ hi → getMedianRange range cloud ≠ Flt.fin lo) := by
  obtain ⟨sorted, hi, hdef, hs, hp, hget, hgetD, _, _, _⟩ :=
    median_entry rq cloud (cloud.length / 2) (by omega)
  have hlen : sorted.length = cloud.length := by
    rw [hp.length_eq, List.length_map]
  have hlo : cloud.length / 2 - 1 < sorted.length := by omega
  have hhi : cloud.length / 2 < sorted.length := by omega
  have hval : getMedianRange range cloud = Flt.fin hi := by
    rw [getMedianRange_eq range rq cloud hfin (by omega), ← hdef, hgetD]
  have hhi2 : sorted[cloud.length / 2] = hi := by
    have := List.getElem?_eq_getElem hhi
    rw [hget] at this
    exact (Option.some.inj this).symm
  refine ⟨sorted, sorted[cloud.length / 2 - 1], hi, hs, hp,
    List.getElem?_eq_getElem hlo, hget, ?_, hval, ?_⟩
  · rw [← hhi2]
    exact List.pairwise_iff_getElem.mp hs _ _ hlo hhi (by omega)
  · intro hne heq
    rw [hval] at heq
    exact hne (Flt.fin.inj heq).symm

/-- C15 as amended, at the sample cloud with ranges 1, 2, 3 and 4. -/
theorem getMedianRange_upper_median_witness :
    (∀ p ∈ sampleFourCloud, xRange p = Flt.fin (xRangeExact p)) ∧
    sampleFourCloud.length % 2 = 0 ∧ 2 ≤ sampleFourCloud.length ∧
    ∃ hi : ℚ, getMedianRange xRange sampleFourCloud = Flt.fin hi :=
  ⟨by simp [sampleFourCloud, xRange, xRangeExact], by simp [sampleFourCloud],
    by simp [sampleFourCloud], by
    obtain ⟨_, _, hi, _, _, _, _, _, h, _⟩ :=
      getMedianRange_upper_median xRange xRangeExact sampleFourCloud
        (by simp [sampleFourCloud, xRange, xRangeExact]) (by simp [sampleFourCloud])
        (by simp [sampleFourCloud])
    exact ⟨hi, h⟩⟩

/-- C15 as stated fails: for the ranges 1, 2, 3, 4 the sorted ranges are
1, 2, 3, 4, the lower median (index `4 / 2 - 1 = 1`) is 2, and
`getMedianRange` returns 3, the entry at index `4 / 2 = 2`. -/
theorem getMedianRange_lower_median_counterexample :
    sort (sampleFourCloud.map xRange) = [Flt.fin 1, Flt.fin 2, Flt.fin 3, Flt.fin 4] ∧
    (sort (sampleFourCloud.map xRange))[sampleFourCloud.length / 2 - 1]? = some (Flt.fin 2) ∧
    getMedianRange xRange sampleFourCloud = Flt.fin 3 ∧
    getMedianRange xRange sampleFourCloud ≠ Flt.fin 2 := by
  have hsort : sort (sampleFourCloud.map xRange)
      = [Flt.fin 1, Flt.fin 2, Flt.fin 3, Flt.fin 4] := by
    have h := sort_map_fin [1, 2, 3, 4]
    have hq : List.insertionSort (fun a b : ℚ => a ≤ b) [1, 2, 3, 4] = [1, 2, 3, 4] := by
      simp [List.insertionSort, List.orderedInsert]
    rw [hq] at h
    exact h
  have hval : getMedianRange xRange sampleFourCloud = Flt.fin 3 := by
    unfold getMedianRange
    rw [hsort]
    rfl
  refine ⟨hsort, ?_, hval, ?_⟩
  · rw [hsort]
    rfl
  · rw [hval]
    intro h
    have := Flt.fin.inj h
    norm_num at this

/-! ## Triples and chains -/

theorem getElem?_triples {α : Type} (l : List α) (j : Nat) (a b d : α)
    (ha : l[j]? = some a) (hb : l[j + 1]? = some b) (hd : l[j + 2]? = some d) :
    (triples l)[j]? = some (a, b, d) := by
  induction l generalizing j with
  | nil => simp at ha
  | cons x l1 ih =>
    cases l1 with
    | nil => simp at hb
    | cons y l2 =>
      cases l2 with
      | nil => simp at hd
      | cons z rest =>
        cases j with
        | zero =>
          simp only [List.getElem?_cons_zero, Option.some.injEq, Nat.zero_add,
            List.getElem?_cons_succ] at ha hb hd
          subst ha hb hd
          simp [triples]
        | succ j =>
          rw [triples, List.getElem?_cons_succ]
          rw [List.getElem?_cons_succ] at ha
          have hb2 : (y :: z :: rest)[j + 1]? = some b := by
            have e : j + 1 + 1 = (j + 1) + 1 := rfl
            rw [e, List.getElem?_cons_succ] at hb
            exact hb
          have hd2 : (y :: z :: rest)[j + 2]? = some d := by
            have e : j + 1 + 2 = (j + 2) + 1 := by omega
            rw [e, List.getElem?_cons_succ] at hd
            exact hd
          exact ih j ha hb2 hd2

theorem edge_cloud_foldl_pushCand (es : List Point) (st : EdgeState) :
    (es.foldl pushCand st).edge_cloud = st.edge_cloud ++ es := by
  induction es generalizing st with
  | nil => simp
  | cons e es ih =>
    rw [List.foldl_cons, ih]
    simp [pushCand]

theorem chain_down (f : Nat → ℚ) (k : Nat) (h : ∀ i : Nat, i < k → f (i + 1) < f i) :
    ∀ d : Nat, d ≤ k → f k ≤ f (k - d) := by
  intro d
  induction d with
  | zero => intro _; exact le_refl _
  | succ d ih =>
    intro hd
    have h1 := ih (by omega)
    have h2 := h (k - (d + 1)) (by omega)
    have e : k - (d + 1) + 1 = k - d := by omega
    rw [e] at h2
    exact le_trans h1 (le_of_lt h2)

theorem chain_up (f : Nat → ℚ) (k n : Nat)
    (h : ∀ i : Nat, k ≤ i → i + 1 < n → f i < f (i + 1)) :
    ∀ d : Nat, k + d < n → f k ≤ f (k + d) := by
  intro d
  induction d with
  | zero => intro _; exact le_refl _
  | succ d ih =>
    intro hd
    have h1 := ih (by omega)
    have h2 := h (k + d) (by omega) (by omega)
    exact le_trans h1 (le_of_lt h2)

/-! ## Rounding to binary32 -/

open Binary32 (rne roundGrid round32)

theorem rne_natCast (n : ℕ) : rne (n : ℚ) = n := by
  simp [rne]

theorem rne_le_of_le (x : ℚ) (n : ℕ) (h0 : 0 ≤ x) (h : x ≤ n) : rne x ≤ n := by
  have hf : ⌊x⌋₊ ≤ n := Nat.floor_le_of_le h
  have hfx : (⌊x⌋₊ : ℚ) ≤ x := Nat.floor_le h0
  unfold rne
  rcases Nat.lt_or_eq_of_le hf with hlt | heq
  · split_ifs <;> omega
  · have hx : x - (⌊x⌋₊ : ℚ) < 1 / 2 := by
      have : (⌊x⌋₊ : ℚ) = n := by exact_mod_cast heq
      rw [this]
      linarith
    rw [if_pos hx]
    exact hf

theorem le_rne_of_le (x : ℚ) (n : ℕ) (h : (n : ℚ) ≤ x) : n ≤ rne x := by
  have hf : n ≤ ⌊x⌋₊ := Nat.le_floor h
  unfold rne
  split_ifs <;> omega

theorem rne_mono (x y : ℚ) (h0 : 0 ≤ x) (h : x ≤ y) : rne x ≤ rne y := by
  have hy0 : 0 ≤ y := le_trans h0 h
  have hfl : ⌊x⌋₊ ≤ ⌊y⌋₊ := Nat.floor_mono h
  rcases Nat.lt_or_eq_of_le hfl with hlt | heq
  · have h1 : rne x ≤ ⌊x⌋₊ + 1 := by
      unfold rne
      split_ifs <;> omega
    have h2 : ⌊y⌋₊ ≤ rne y := by
      unfold rne
      split_ifs <;> omega
    omega
  · unfold rne
    rw [← heq]
    have hd : x - (⌊x⌋₊ : ℚ) ≤ y - (⌊x⌋₊ : ℚ) := by linarith
    split_ifs <;> first | omega | (exfalso; linarith)

theorem floor_lt_two_pow (t : ℚ) (h0 : 0 ≤ t) : t < 2 ^ (Nat.log 2 ⌊t⌋₊ + 1) := by
  have h := Nat.lt_pow_succ_log_self (by norm_num : 1 < 2) ⌊t⌋₊
  have h2 : t < ((2 ^ (Nat.log 2 ⌊t⌋₊ + 1) : ℕ) : ℚ) := (Nat.floor_lt h0).mp h
  simpa using h2

theorem two_pow_le_of_floor_ne (t : ℚ) (h0 : 0 ≤ t) (hf : ⌊t⌋₊ ≠ 0) :
    (2 : ℚ) ^ (Nat.log 2 ⌊t⌋₊) ≤ t := by
  have h := Nat.pow_log_le_self 2 hf
  have h2 : ((2 ^ Nat.log 2 ⌊t⌋₊ : ℕ) : ℚ) ≤ (⌊t⌋₊ : ℚ) := by exact_mod_cast h
  have h3 : (⌊t⌋₊ : ℚ) ≤ t := Nat.floor_le h0
  have h4 : ((2 ^ Nat.log 2 ⌊t⌋₊ : ℕ) : ℚ) = (2 : ℚ) ^ (Nat.log 2 ⌊t⌋₊) := by push_cast; rfl
  linarith

theorem roundGrid_le (t : ℚ) (h0 : 0 ≤ t) : roundGrid t ≤ 2 ^ (Nat.log 2 ⌊t⌋₊ + 1) := by
  unfold roundGrid
  generalize hL : Nat.log 2 ⌊t⌋₊ = L
  have hlt : t < 2 ^ (L + 1) := by rw [← hL]; exact floor_lt_two_pow t h0
  have hs : L - 23 ≤ L + 1 := by omega
  have hpos : (0 : ℚ) < 2 ^ (L - 23) := by positivity
  have hx : t / 2 ^ (L - 23) ≤ ((2 ^ (L + 1 - (L - 23)) : ℕ) : ℚ) := by
    rw [div_le_iff₀ hpos]
    push_cast
    rw [← pow_add]
    have e : L + 1 - (L - 23) + (L - 23) = L + 1 := by omega
    rw [e]
    exact le_of_lt hlt
  have h1 := rne_le_of_le _ _ (div_nonneg h0 (le_of_lt hpos)) hx
  calc rne (t / 2 ^ (L - 23)) * 2 ^ (L - 23)
      ≤ 2 ^ (L + 1 - (L - 23)) * 2 ^ (L - 23) := Nat.mul_le_mul_right _ h1
    _ = 2 ^ (L + 1) := by rw [← pow_add]; congr 1; omega

theorem le_roundGrid (t : ℚ) (h0 : 0 ≤ t) (hf : ⌊t⌋₊ ≠ 0) :
    2 ^ (Nat.log 2 ⌊t⌋₊) ≤ roundGrid t := by
  have hle := two_pow_le_of_floor_ne t h0 hf
  unfold roundGrid
  generalize hL : Nat.log 2 ⌊t⌋₊ = L at hle
  have hpos : (0 : ℚ) < 2 ^ (L - 23) := by positivity
  have hx : ((2 ^ (L - (L - 23)) : ℕ) : ℚ) ≤ t / 2 ^ (L - 23) := by
    rw [le_div_iff₀ hpos]
    push_cast
    rw [← pow_add]
    have e : L - (L - 23) + (L - 23) = L := by omega
    rw [e]
    exact hle
  have h1 := le_rne_of_le _ _ hx
  calc 2 ^ L = 2 ^ (L - (L - 23)) * 2 ^ (L - 23) := by rw [← pow_add]; congr 1; omega
    _ ≤ rne (t / 2 ^ (L - 23)) * 2 ^ (L - 23) := Nat.mul_le_mul_right _ h1

theorem roundGrid_mono (t u : ℚ) (h0 : 0 ≤ t) (h : t ≤ u) : roundGrid t ≤ roundGrid u := by
  have hu0 : 0 ≤ u := le_trans h0 h
  have hfl : ⌊t⌋₊ ≤ ⌊u⌋₊ := Nat.floor_mono h
  have hlog : Nat.log 2 ⌊t⌋₊ ≤ Nat.log 2 ⌊u⌋₊ := Nat.log_mono_right hfl
  rcases Nat.lt_or_eq_of_le hlog with hlt | heq
  · have h1 := roundGrid_le t h0
    have hf : ⌊u⌋₊ ≠ 0 := by
      intro hz
      rw [hz] at hlt
      simp at hlt
    have h2 := le_roundGrid u hu0 hf
    have h3 : 2 ^ (Nat.log 2 ⌊t⌋₊ + 1) ≤ 2 ^ (Nat.log 2 ⌊u⌋₊) :=
      Nat.pow_le_pow_right (by norm_num) hlt
    omega
  · unfold roundGrid
    rw [← heq]
    have hpos : (0 : ℚ) < 2 ^ (Nat.log 2 ⌊t⌋₊ - 23) := by positivity
    apply Nat.mul_le_mul_right
    apply rne_mono _ _ (div_nonneg h0 (le_of_lt hpos))
    exact div_le_div_of_nonneg_right h (le_of_lt hpos)

theorem log_mul_two_pow (m j : ℕ) (hm : m ≠ 0) : Nat.log 2 (m * 2 ^ j) = Nat.log 2 m + j := by
  induction j with
  | zero => simp
  | succ j ih =>
    rw [pow_succ, ← mul_assoc, Nat.log_mul_base (by norm_num) (by positivity), ih]
    omega

theorem roundGrid_exact (m j : ℕ) (hm : m < 2 ^ 24) :
    roundGrid ((m : ℚ) * 2 ^ j) = m * 2 ^ j := by
  rcases Nat.eq_zero_or_pos m with h0 | hpos
  · subst h0
    simp [roundGrid, rne]
  · have hfloor : ⌊(m : ℚ) * 2 ^ j⌋₊ = m * 2 ^ j := by
      have : (m : ℚ) * 2 ^ j = ((m * 2 ^ j : ℕ) : ℚ) := by push_cast; rfl
      rw [this, Nat.floor_natCast]
    have hlogm : Nat.log 2 m < 24 := Nat.log_lt_of_lt_pow (by omega) hm
    unfold roundGrid
    rw [hfloor, log_mul_two_pow m j (by omega)]
    generalize hs : Nat.log 2 m + j - 23 = s
    have hsj : s ≤ j := by omega
    obtain ⟨r, rfl⟩ : ∃ r, j = s + r := ⟨j - s, by omega⟩
    have hx : (m : ℚ) * 2 ^ (s + r) / 2 ^ s = ((m * 2 ^ r : ℕ) : ℚ) := by
      push_cast
      rw [pow_add]
      field_simp
      ring
    rw [hx, rne_natCast, pow_add]
    ring

theorem roundGrid_form (t : ℚ) (h0 : 0 ≤ t) :
    ∃ m j : ℕ, m < 2 ^ 24 ∧ roundGrid t = m * 2 ^ j := by
  have hle := roundGrid_le t h0
  unfold roundGrid at hle ⊢
  generalize hL : Nat.log 2 ⌊t⌋₊ = L at hle
  generalize hk : rne (t / 2 ^ (L - 23)) = k at hle
  have hk24 : k ≤ 2 ^ 24 := by
    by_contra hgt
    push_neg at hgt
    have h1 : 2 ^ 24 * 2 ^ (L - 23) < k * 2 ^ (L - 23) :=
      Nat.mul_lt_mul_of_pos_right hgt (by positivity)
    have h2 : 2 ^ (L + 1) ≤ 2 ^ 24 * 2 ^ (L - 23) := by
      rw [← pow_add]
      exact Nat.pow_le_pow_right (by norm_num) (by omega)
    omega
  rcases Nat.lt_or_eq_of_le hk24 with hlt | heq
  · exact ⟨k, L - 23, hlt, rfl⟩
  · refine ⟨2 ^ 23, L - 23 + 1, by norm_num, ?_⟩
    rw [heq, pow_succ]
    ring

theorem roundGrid_idem (t : ℚ) (h0 : 0 ≤ t) :
    roundGrid ((roundGrid t : ℕ) : ℚ) = roundGrid t := by
  obtain ⟨m, j, hm, hform⟩ := roundGrid_form t h0
  rw [hform]
  have := roundGrid_exact m j hm
  push_cast
  exact this

theorem round32_of_nonneg (q : ℚ) (h : 0 ≤ q) :
    round32 q = if 2 ^ 277 ≤ roundGrid (q * 2 ^ 149) then Flt.pinf
      else Flt.fin ((roundGrid (q * 2 ^ 149) : ℚ) / 2 ^ 149) := by
  unfold round32
  rw [if_pos h]

theorem round32_of_neg (q : ℚ) (h : q < 0) :
    round32 q = if 2 ^ 277 ≤ roundGrid (-q * 2 ^ 149) then Flt.ninf
      else Flt.fin (-((roundGrid (-q * 2 ^ 149) : ℚ) / 2 ^ 149)) := by
  unfold round32
  rw [if_neg (not_le.mpr h)]

/-- Rounding never yields NaN. -/
theorem round32_ne_nan (q : ℚ) : round32 q ≠ Flt.nan := by
  unfold round32
  split_ifs <;> simp

/-- Rounding keeps the sign: a non-negative value rounds to a non-negative
finite value or to `+inf`. -/
theorem round32_nonneg (q : ℚ) (h : 0 ≤ q) : Flt.le (Flt.fin 0) (round32 q) = true := by
  rw [round32_of_nonneg q h]
  split_ifs
  · rfl
  · simp only [Flt.le, decide_eq_true_eq]
    positivity

theorem round32_nonpos (q : ℚ) (h : q ≤ 0) : Flt.le (round32 q) (Flt.fin 0) = true := by
  rcases lt_or_eq_of_le h with hlt | heq
  · rw [round32_of_neg q hlt]
    split_ifs
    · rfl
    · simp only [Flt.le, decide_eq_true_eq]
      have : (0 : ℚ) ≤ (roundGrid (-q * 2 ^ 149) : ℚ) / 2 ^ 149 := by positivity
      linarith
  · subst heq
    have hz : roundGrid (0 * 2 ^ 149) = 0 := by simp [roundGrid, rne]
    rw [round32_of_nonneg 0 (le_refl _), hz, if_neg (Nat.not_le.mpr (pow_pos (by norm_num) _))]
    simp [Flt.le]

/-- Rounding is monotone. -/
theorem round32_mono (q r : ℚ) (h : q ≤ r) : Flt.le (round32 q) (round32 r) = true := by
  have hp : (0 : ℚ) < 2 ^ 149 := by positivity
  rcases le_or_lt 0 q with hq | hq
  · have hr : 0 ≤ r := le_trans hq h
    have hm := roundGrid_mono (q * 2 ^ 149) (r * 2 ^ 149) (mul_nonneg hq (le_of_lt hp))
      (mul_le_mul_of_nonneg_right h (le_of_lt hp))
    rw [round32_of_nonneg q hq, round32_of_nonneg r hr]
    split_ifs with h1 h2 h2
    · rfl
    · exact absurd (le_trans h1 hm) h2
    · rfl
    · simp only [Flt.le, decide_eq_true_eq]
      exact div_le_div_of_nonneg_right (Nat.cast_le.mpr hm) (le_of_lt hp)
  · rcases le_or_lt 0 r with hr | hr
    · have h1 := round32_nonpos q (le_of_lt hq)
      have h2 := round32_nonneg r hr
      have n1 := round32_ne_nan q
      have n2 := round32_ne_nan r
      revert h1 h2 n1 n2
      generalize round32 q = a
      generalize round32 r = b
      intro h1 h2 n1 n2
      cases a <;> cases b <;> simp_all [Flt.le]
      linarith
    · have hm := roundGrid_mono (-r * 2 ^ 149) (-q * 2 ^ 149)
        (mul_nonneg (by linarith) (le_of_lt hp))
        (mul_le_mul_of_nonneg_right (by linarith) (le_of_lt hp))
      rw [round32_of_neg q hq, round32_of_neg r hr]
      split_ifs with h1 h2 h2
      · rfl
      · rfl
      · exact absurd (le_trans h2 hm) h1
      · simp only [Flt.le, decide_eq_true_eq]
        have : ((roundGrid (-r * 2 ^ 149) : ℕ) : ℚ) / 2 ^ 149
            ≤ ((roundGrid (-q * 2 ^ 149) : ℕ) : ℚ) / 2 ^ 149 :=
          div_le_div_of_nonneg_right (Nat.cast_le.mpr hm) (le_of_lt hp)
        linarith

/-- A value on the binary32 grid below the overflow threshold is its own
rounding. -/
theorem round32_exact (m j : ℕ) (hm : m < 2 ^ 24) (hlt : m * 2 ^ j < 2 ^ 277) :
    round32 ((m : ℚ) * 2 ^ j / 2 ^ 149) = Flt.fin ((m : ℚ) * 2 ^ j / 2 ^ 149) := by
  have hq : (0 : ℚ) ≤ (m : ℚ) * 2 ^ j / 2 ^ 149 := by positivity
  have hsc : (m : ℚ) * 2 ^ j / 2 ^ 149 * 2 ^ 149 = (m : ℚ) * 2 ^ j := by
    field_simp
  rw [round32_of_nonneg _ hq, hsc, roundGrid_exact m j hm, if_neg (not_le.mpr hlt)]
  push_cast
  rfl

theorem round32_exact_neg (m j : ℕ) (hm : m < 2 ^ 24) (hlt : m * 2 ^ j < 2 ^ 277) :
    round32 (-((m : ℚ) * 2 ^ j / 2 ^ 149)) = Flt.fin (-((m : ℚ) * 2 ^ j / 2 ^ 149)) := by
  rcases Nat.eq_zero_or_pos m with h0 | hpos
  · subst h0
    have := round32_exact 0 j (by norm_num)
      (by rw [Nat.zero_mul]; exact pow_pos (by norm_num) _)
    simpa using this
  · have hq : -((m : ℚ) * 2 ^ j / 2 ^ 149) < 0 := by
      have : (0 : ℚ) < (m : ℚ) * 2 ^ j / 2 ^ 149 := by positivity
      linarith
    have hsc : -(-((m : ℚ) * 2 ^ j / 2 ^ 149)) * 2 ^ 149 = (m : ℚ) * 2 ^ j := by
      field_simp
    rw [round32_of_neg _ hq, hsc, roundGrid_exact m j hm, if_neg (not_le.mpr hlt)]
    push_cast
    rfl

/-- The finite values that rounding returns: `m * 2 ^ j / 2 ^ 149` up to
sign, with `m < 2 ^ 24`, below the overflow threshold. -/
theorem round32_form (q v : ℚ) (h : round32 q = Flt.fin v) :
    ∃ m j : ℕ, m < 2 ^ 24 ∧ m * 2 ^ j < 2 ^ 277 ∧
      (v = (m : ℚ) * 2 ^ j / 2 ^ 149 ∨ v = -((m : ℚ) * 2 ^ j / 2 ^ 149)) := by
  rcases le_or_lt 0 q with hq | hq
  · rw [round32_of_nonneg q hq] at h
    split_ifs at h with h1
    obtain ⟨m, j, hm, hform⟩ := roundGrid_form (q * 2 ^ 149)
      (mul_nonneg hq (by positivity))
    refine ⟨m, j, hm, by rw [← hform]; exact not_le.mp h1, Or.inl ?_⟩
    have hv := Flt.fin.inj h
    rw [← hv, hform]
    push_cast
    rfl
  · rw [round32_of_neg q hq] at h
    split_ifs at h with h1
    obtain ⟨m, j, hm, hform⟩ := roundGrid_form (-q * 2 ^ 149)
      (mul_nonneg (by linarith) (by positivity))
    refine ⟨m, j, hm, by rw [← hform]; exact not_le.mp h1, Or.inr ?_⟩
    have hv := Flt.fin.inj h
    rw [← hv, hform]
    push_cast
    rfl

/-- Rounding is idempotent: a value that rounding returned is kept by
rounding. -/
theorem round32_idem (q v : ℚ) (h : round32 q = Flt.fin v) : round32 v = Flt.fin v := by
  obtain ⟨m, j, hm, hlt, hv | hv⟩ := round32_form q v h
  · rw [hv]; exact round32_exact m j hm hlt
  · rw [hv]; exact round32_exact_neg m j hm hlt

theorem round32_int_multiple (v : ℚ) (h : round32 v = Flt.fin v) :
    ∃ k : ℤ, v = (k : ℚ) / 2 ^ 149 := by
  obtain ⟨m, j, _, _, hv | hv⟩ := round32_form v v h
  · exact ⟨(m * 2 ^ j : ℕ), by rw [hv]; push_cast; rfl⟩
  · exact ⟨-((m * 2 ^ j : ℕ) : ℤ), by rw [hv]; push_cast; ring⟩

theorem one_lt_two_pow_of_ne (k : ℕ) (hk : k ≠ 0) : 1 * 2 ^ 0 < 2 ^ k := by
  rw [Nat.one_mul, pow_zero]
  exact Nat.one_lt_two_pow hk

theorem round32_one_grid : round32 (1 / 2 ^ 149) = Flt.fin (1 / 2 ^ 149) := by
  have := round32_exact 1 0 (by norm_num) (one_lt_two_pow_of_ne 277 (by norm_num))
  simpa using this

/-- The difference of two distinct binary32 values does not round to zero:
for `a < b` the rounded `b - a` is positive. -/
theorem round32_sub_pos (a b : ℚ) (ha : round32 a = Flt.fin a) (hb : round32 b = Flt.fin b)
    (hab : a < b) : Flt.lt (Flt.fin 0) (round32 (b - a)) = true := by
  obtain ⟨ka, hka⟩ := round32_int_multiple a ha
  obtain ⟨kb, hkb⟩ := round32_int_multiple b hb
  have hp : (0 : ℚ) < 2 ^ 149 := by positivity
  have hk : ka < kb := by
    rw [hka, hkb] at hab
    have := (div_lt_div_iff_of_pos_right hp).mp hab
    exact_mod_cast this
  have hge : (1 : ℚ) / 2 ^ 149 ≤ b - a := by
    rw [hka, hkb, ← sub_div]
    apply div_le_div_of_nonneg_right _ (le_of_lt hp)
    have : (1 : ℤ) ≤ kb - ka := by omega
    exact_mod_cast this
  have hm := round32_mono _ _ hge
  rw [round32_one_grid] at hm
  have hn := round32_ne_nan (b - a)
  revert hm hn
  generalize round32 (b - a) = r
  intro hm hn
  cases r with
  | fin v =>
    simp only [Flt.le, decide_eq_true_eq] at hm
    simp only [Flt.lt, decide_eq_true_eq]
    have : (0 : ℚ) < 1 / 2 ^ 149 := by positivity
    linarith
  | pinf => rfl
  | ninf => simp [Flt.le] at hm
  | nan => exact absurd rfl hn

theorem two_pow_mul_le (a b k : ℕ) (hk : a + b ≤ k) : 2 ^ a * 2 ^ b ≤ 2 ^ k :=
  le_trans (le_of_eq (pow_add 2 a b).symm) (Nat.pow_le_pow_right (by norm_num) hk)

/-- The integers below `2 ^ 24` are binary32 values. -/
theorem round32_natCast (n : ℕ) (h : n < 2 ^ 24) : round32 (n : ℚ) = Flt.fin n := by
  have := round32_exact n 149 h
    (lt_of_lt_of_le (Nat.mul_lt_mul_of_pos_right h (by positivity))
      (two_pow_mul_le 24 149 277 (by norm_num)))
  have e : (n : ℚ) * 2 ^ 149 / 2 ^ 149 = n := by field_simp
  rw [e] at this
  exact this

theorem round32_neg_natCast (n : ℕ) (h : n < 2 ^ 24) :
    round32 (-(n : ℚ)) = Flt.fin (-(n : ℚ)) := by
  have := round32_exact_neg n 149 h
    (lt_of_lt_of_le (Nat.mul_lt_mul_of_pos_right h (by positivity))
      (two_pow_mul_le 24 149 277 (by norm_num)))
  have e : (n : ℚ) * 2 ^ 149 / 2 ^ 149 = n := by field_simp
  rw [e] at this
  exact this

theorem round32_zero : round32 0 = Flt.fin 0 := by
  have := round32_natCast 0 (by norm_num)
  simpa using this

theorem round32_one : round32 1 = Flt.fin 1 := by
  have := round32_natCast 1 (by norm_num)
  simpa using this


theorem two_pow_split (a b k : ℕ) (h : a + b = k) : (2 : ℚ) ^ k = 2 ^ a * 2 ^ b := by
  rw [← h, pow_add]

theorem roundGrid_two_pow (k : ℕ) : roundGrid ((2 : ℚ) ^ k) = 2 ^ k := by
  have := roundGrid_exact 1 k (by norm_num)
  simpa using this

/-- Overflow: a value of at least `2 ^ 128` rounds to `+inf`. -/
theorem round32_overflow (q : ℚ) (h : 2 ^ 128 ≤ q) : round32 q = Flt.pinf := by
  have hp : (0 : ℚ) < 2 ^ 149 := by positivity
  have hq : 0 ≤ q := le_trans (by positivity) h
  have h1 : (2 : ℚ) ^ 277 ≤ q * 2 ^ 149 := by
    rw [two_pow_split 128 149 277 (by norm_num)]
    exact mul_le_mul_of_nonneg_right h (le_of_lt hp)
  have hm := roundGrid_mono _ _ (by positivity) h1
  rw [roundGrid_two_pow] at hm
  rw [round32_of_nonneg q hq, if_pos hm]

/-- The rounded operations on finite operands. -/
theorem add32_fin (a b : ℚ) :
    Binary32.add (Flt.fin a) (Flt.fin b) = round32 (a + b) := by
  rw [Binary32.add]

theorem sub32_fin (a b : ℚ) :
    Binary32.sub (Flt.fin a) (Flt.fin b) = round32 (a - b) := by
  rw [Binary32.sub]

theorem mul32_fin (a b : ℚ) :
    Binary32.mul (Flt.fin a) (Flt.fin b) = round32 (a * b) := by
  rw [Binary32.mul]

theorem div32_fin (a b : ℚ) (hb : b ≠ 0) :
    Binary32.div (Flt.fin a) (Flt.fin b) = round32 (a / b) := by
  simp [Binary32.div, hb]

/-! ## The order of the values that are not NaN -/

theorem Flt.le_ne_nan {a b : Flt} (h : Flt.le a b = true) : a ≠ Flt.nan ∧ b ≠ Flt.nan := by
  cases a <;> cases b <;> simp_all [Flt.le]

theorem Flt.le_rfl_of_ne_nan {a : Flt} (h : a ≠ Flt.nan) : Flt.le a a = true := by
  cases a <;> simp_all [Flt.le]

theorem Flt.le_trans_of {a b d : Flt} (h1 : Flt.le a b = true) (h2 : Flt.le b d = true) :
    Flt.le a d = true := by
  cases a <;> cases b <;> cases d <;> simp_all [Flt.le]
  exact le_trans h1 h2

theorem Flt.le_antisymm_of {a b : Flt} (h1 : Flt.le a b = true) (h2 : Flt.le b a = true) :
    a = b := by
  cases a <;> cases b <;> simp_all [Flt.le]
  exact le_antisymm h1 h2

theorem Flt.le_total_of {a b : Flt} (ha : a ≠ Flt.nan) (hb : b ≠ Flt.nan) :
    Flt.le a b = true ∨ Flt.le b a = true := by
  cases a <;> cases b <;> simp_all [Flt.le]
  exact le_total _ _

theorem Flt.le_of_lt_of {a b : Flt} (h : Flt.lt a b = true) : Flt.le a b = true := by
  cases a <;> cases b <;> simp_all [Flt.le, Flt.lt]
  exact le_of_lt h

theorem Flt.lt_of_le_of_neq {a b : Flt} (h : Flt.le a b = true) (hne : a ≠ b) :
    Flt.lt a b = true := by
  cases a <;> cases b <;> simp_all [Flt.le, Flt.lt]
  exact lt_of_le_of_ne h hne

theorem Flt.lt_of_not_le {a b : Flt} (ha : a ≠ Flt.nan) (hb : b ≠ Flt.nan)
    (h : Flt.le a b = false) : Flt.lt b a = true := by
  cases a <;> cases b <;> simp_all [Flt.le, Flt.lt]

theorem Flt.le_pinf {a : Flt} (h : a ≠ Flt.nan) : Flt.le a Flt.pinf = true := by
  cases a <;> simp_all [Flt.le]

theorem Flt.eq_pinf_of_le {a : Flt} (h : Flt.le Flt.pinf a = true) : a = Flt.pinf := by
  cases a <;> simp_all [Flt.le]

/-- On values that are not NaN the macro `MAX` is the larger value. -/
theorem MAX_eq_specMax {a b : Flt} (ha : a ≠ Flt.nan) (hb : b ≠ Flt.nan) :
    Flt.MAX a b = Binary32.specMax a b := by
  cases a <;> cases b <;> simp_all [Flt.MAX, Binary32.specMax, Flt.le, Flt.lt]
  rename_i x y
  by_cases h : x < y
  · simp [h, le_of_lt h]
  · simp only [h, if_false]
    by_cases h2 : x ≤ y
    · have : x = y := le_antisymm h2 (not_lt.mp h)
      simp [this]
    · simp [h2]

theorem specMax_comm {a b : Flt} (ha : a ≠ Flt.nan) (hb : b ≠ Flt.nan) :
    Binary32.specMax a b = Binary32.specMax b a := by
  unfold Binary32.specMax
  by_cases h1 : Flt.le a b = true
  · by_cases h2 : Flt.le b a = true
    · simp [h1, h2, Flt.le_antisymm_of h1 h2]
    · simp [h1, h2]
  · by_cases h2 : Flt.le b a = true
    · simp [h1, h2]
    · rcases Flt.le_total_of ha hb with h | h
      · exact absurd h h1
      · exact absurd h h2

theorem specMax_ne_nan {a b : Flt} (ha : a ≠ Flt.nan) (hb : b ≠ Flt.nan) :
    Binary32.specMax a b ≠ Flt.nan := by
  unfold Binary32.specMax
  split_ifs <;> assumption

theorem le_specMax_left {a b : Flt} (ha : a ≠ Flt.nan) :
    Flt.le a (Binary32.specMax a b) = true := by
  unfold Binary32.specMax
  split_ifs with h
  · exact h
  · exact Flt.le_rfl_of_ne_nan ha

theorem le_specMax_right {a b : Flt} (ha : a ≠ Flt.nan) (hb : b ≠ Flt.nan) :
    Flt.le b (Binary32.specMax a b) = true := by
  rw [specMax_comm ha hb]
  exact le_specMax_left hb

theorem specMax_le {a b d : Flt} (h1 : Flt.le a d = true) (h2 : Flt.le b d = true) :
    Flt.le (Binary32.specMax a b) d = true := by
  unfold Binary32.specMax
  split_ifs <;> assumption

theorem MIN_spec {a b : Flt} (ha : a ≠ Flt.nan) (hb : b ≠ Flt.nan) :
    Flt.le (Flt.MIN a b) a = true ∧ Flt.le (Flt.MIN a b) b = true ∧
      (Flt.MIN a b = a ∨ Flt.MIN a b = b) := by
  unfold Flt.MIN
  by_cases h : Flt.lt b a = true
  · rw [if_pos h]
    exact ⟨Flt.le_of_lt_of h, Flt.le_rfl_of_ne_nan hb, Or.inr rfl⟩
  · rw [if_neg h]
    refine ⟨Flt.le_rfl_of_ne_nan ha, ?_, Or.inl rfl⟩
    by_contra hc
    exact h (Flt.lt_of_not_le ha hb (by simpa using hc))

theorem MAX_spec {a b : Flt} (ha : a ≠ Flt.nan) (hb : b ≠ Flt.nan) :
    Flt.le a (Flt.MAX a b) = true ∧ Flt.le b (Flt.MAX a b) = true ∧
      (Flt.MAX a b = a ∨ Flt.MAX a b = b) := by
  unfold Flt.MAX
  by_cases h : Flt.lt a b = true
  · rw [if_pos h]
    exact ⟨Flt.le_of_lt_of h, Flt.le_rfl_of_ne_nan hb, Or.inr rfl⟩
  · rw [if_neg h]
    refine ⟨Flt.le_rfl_of_ne_nan ha, ?_, Or.inl rfl⟩
    by_contra hc
    exact h (Flt.lt_of_not_le hb ha (by simpa using hc))

/-! ## C4: removeNanPoints -/

/-- The copy loop on the identity index list changes nothing. -/
theorem copyLoop_range (cloud : Cloud) :
    copyLoop (List.range cloud.length) 0 cloud = some cloud := by
  obtain ⟨c2, hrun, hl, _, _, hmid⟩ :=
    copyLoop_spec cloud (List.range cloud.length) 0 cloud rfl (fun _ _ => rfl)
      (List.pairwise_lt_range _)
      (fun s hs => ⟨Nat.zero_le _, List.mem_range.mp hs⟩)
  rw [hrun]
  congr 1
  apply List.ext_getElem?
  intro j
  by_cases hj : j < cloud.length
  · have := hmid j j (by rw [List.getElem?_range hj])
    simpa using this
  · rw [List.getElem?_eq_none_iff.mpr (by omega), List.getElem?_eq_none_iff.mpr (by omega)]

/-- The index list that `removeNanPoints` receives: the copy that
`getXYZCloudPtr` builds is flagged dense, so every position is listed,
whatever the coordinates. -/
theorem removeNaNFromPointCloud_getXYZCloudPtr (cloud : Cloud) :
    removeNaNFromPointCloud (getXYZCloudPtr cloud) = List.range cloud.length := by
  simp [removeNaNFromPointCloud, getXYZCloudPtr]

/-- `removeNanPoints` removes nothing: it returns the identity index list and
leaves the cloud as it was. -/
theorem removeNanPoints_identity (cloud : Cloud) :
    removeNanPoints cloud = some (cloud, List.range cloud.length) := by
  unfold removeNanPoints
  simp only [removeNaNFromPointCloud_getXYZCloudPtr, copyLoop_range, List.length_range]
  simp [resize]

/-- C4 at a failing input: on the cloud of a point with `x = NaN` followed by
a point with finite coordinates, the only position with finite coordinates is
`1`, yet `removeNanPoints` keeps both points and returns the positions `0`
and `1`: the index correspondence of the claim fails. -/
theorem removeNanPoints_keeps_nan :
    positionsWhere (fun p : Point => p.x.isFinite && p.y.isFinite && p.z.isFinite)
        [⟨Flt.nan, Flt.fin 0, Flt.fin 0, Flt.fin 0, 0⟩,
         ⟨Flt.fin 1, Flt.fin 0, Flt.fin 0, Flt.fin 0, 0⟩] = [1] ∧
    removeNanPoints
        [⟨Flt.nan, Flt.fin 0, Flt.fin 0, Flt.fin 0, 0⟩,
         ⟨Flt.fin 1, Flt.fin 0, Flt.fin 0, Flt.fin 0, 0⟩]
      = some ([⟨Flt.nan, Flt.fin 0, Flt.fin 0, Flt.fin 0, 0⟩,
               ⟨Flt.fin 1, Flt.fin 0, Flt.fin 0, Flt.fin 0, 0⟩], [0, 1]) := by
  refine ⟨?_, ?_⟩
  · simp [positionsWhere, positionsFrom, List.enumFrom, Flt.isFinite]
  · rw [removeNanPoints_identity]
    rfl

/-! ## The loops of computeEdges over the rounded operations -/

theorem edgeInner32_eq (range : Point → Flt) (a b : Point) (rest : List Point)
    (st : EdgeState) :
    Binary32.edgeInner range (b :: rest) (range a) (range b) st
      = ((triples (a :: b :: rest)).map (Binary32.rawEdge range)).foldl pushCand st := by
  induction rest generalizing a b st with
  | nil => simp [Binary32.edgeInner, triples]
  | cons n rest ih =>
    rw [Binary32.edgeInner, ih]
    simp [triples, Binary32.rawEdge, pushCand]

theorem edgeRing32_eq (range : Point → Flt) (st : EdgeState) (ring : List Point) :
    Binary32.edgeRing range st ring
      = ((triples ring).map (Binary32.rawEdge range)).foldl pushCand st := by
  cases ring with
  | nil => simp [Binary32.edgeRing, triples]
  | cons a t =>
    cases t with
    | nil => simp [Binary32.edgeRing, triples]
    | cons b rest => simp [Binary32.edgeRing, edgeInner32_eq]

theorem foldl_edgeRing32_eq (range : Point → Flt) (rings : List (List Point))
    (st : EdgeState) :
    rings.foldl (Binary32.edgeRing range) st
      = (rings.flatMap (fun ring => (triples ring).map (Binary32.rawEdge range))).foldl
          pushCand st := by
  induction rings generalizing st with
  | nil => simp
  | cons ring rings ih =>
    rw [List.foldl_cons, ih, edgeRing32_eq, List.flatMap_cons, List.foldl_append]

/-- On finite ranges the candidate of the loop carries the score of the
specification: the macro `MAX` is the larger value, in either order. -/
theorem rawEdge32_fin (range : Point → Flt) (rq : Point → ℚ) (t : Point × Point × Point)
    (h1 : range t.1 = Flt.fin (rq t.1)) (h2 : range t.2.1 = Flt.fin (rq t.2.1))
    (h3 : range t.2.2 = Flt.fin (rq t.2.2)) :
    Binary32.rawEdge range t
      = Binary32.scored (t.2.1, Binary32.specScore (rq t.1) (rq t.2.1) (rq t.2.2)) := by
  unfold Binary32.rawEdge Binary32.scored Binary32.specScore
  rw [h1, h2, h3, sub32_fin, sub32_fin]
  have n1 := round32_ne_nan (rq t.1 - rq t.2.1)
  have n2 := round32_ne_nan (rq t.2.2 - rq t.2.1)
  have n0 : Flt.fin 0 ≠ Flt.nan := by simp
  rw [MAX_eq_specMax n1 n2, MAX_eq_specMax (specMax_ne_nan n1 n2) n0,
    specMax_comm (specMax_ne_nan n1 n2) n0]

/-- The candidates of the loops on a scan with finite ranges are the
candidates of the specification. -/
theorem flatMap_rawEdge32_eq (RC : Nat) (range : Point → Flt) (rq : Point → ℚ) (scan : Cloud)
    (hfin : ∀ p ∈ scan, range p = Flt.fin (rq p)) :
    ((List.range RC).map (ringPoints scan)).flatMap
        (fun ring => (triples ring).map (Binary32.rawEdge range))
      = (Binary32.specCandidates RC rq scan).map Binary32.scored := by
  unfold Binary32.specCandidates
  rw [List.flatMap_map, List.map_flatMap]
  congr 1
  funext r
  rw [List.map_map]
  apply List.map_congr_left
  intro t ht
  have hm := mem_triples _ t ht
  have hsub : ∀ p ∈ ringPoints scan r, p ∈ scan := fun p hp => (List.mem_filter.mp hp).1
  exact rawEdge32_fin range rq t (hfin _ (hsub _ hm.1)) (hfin _ (hsub _ hm.2.1))
    (hfin _ (hsub _ hm.2.2))

/-- The accumulators of `computeEdges` after its loops, on a scan with
in-range ring ids and finite ranges, in terms of the candidates of the
specification. -/
theorem computeEdgesScan32_eq (RC : Nat) (range : Point → Flt) (rq : Point → ℚ)
    (scan : Cloud) (hring : ∀ p ∈ scan, p.ring < RC)
    (hfin : ∀ p ∈ scan, range p = Flt.fin (rq p)) :
    Binary32.computeEdgesScan RC range scan
      = some (((Binary32.specCandidates RC rq scan).map Binary32.scored).foldl pushCand
          { min_difference := Flt.pinf, max_difference := Flt.fin 0, edge_cloud := [] }) := by
  unfold Binary32.computeEdgesScan
  rw [getRings_eq RC scan hring]
  simp only
  rw [foldl_edgeRing32_eq, flatMap_rawEdge32_eq RC range rq scan hfin]

/-- A product with ten keeps the sign and the order of two values that are
not negative. -/
theorem mul32_ten_nonneg {x : Flt} (h : Flt.le (Flt.fin 0) x = true) :
    Flt.le (Flt.fin 0) (Binary32.mul x (Flt.fin 10)) = true := by
  cases x with
  | fin v =>
    simp only [Flt.le, decide_eq_true_eq] at h
    rw [mul32_fin]
    exact round32_nonneg _ (mul_nonneg h (by norm_num))
  | pinf => simp [Binary32.mul, Flt.mul, Flt.infTimes, Flt.le]
  | ninf => simp [Flt.le] at h
  | nan => simp [Flt.le] at h

theorem mul32_ten_mono {x y : Flt} (hx : Flt.le (Flt.fin 0) x = true)
    (h : Flt.le x y = true) :
    Flt.le (Binary32.mul x (Flt.fin 10)) (Binary32.mul y (Flt.fin 10)) = true := by
  cases x with
  | fin v =>
    cases y with
    | fin w =>
      simp only [Flt.le, decide_eq_true_eq] at h
      rw [mul32_fin, mul32_fin]
      exact round32_mono _ _ (mul_le_mul_of_nonneg_right h (by norm_num))
    | pinf =>
      rw [mul32_fin]
      have e : Binary32.mul Flt.pinf (Flt.fin 10) = Flt.pinf := by
        simp [Binary32.mul, Flt.mul, Flt.infTimes]
      rw [e]
      exact Flt.le_pinf (round32_ne_nan _)
    | ninf => simp [Flt.le] at h
    | nan => simp [Flt.le] at h
  | pinf =>
    have := Flt.eq_pinf_of_le h
    subst this
    simp [Binary32.mul, Flt.mul, Flt.infTimes, Flt.le]
  | ninf => simp [Flt.le] at hx
  | nan => simp [Flt.le] at hx

/-- The scores of the specification are not negative (so not NaN). -/
theorem specScore32_nonneg (a b d : ℚ) :
    Flt.le (Flt.fin 0) (Binary32.specScore a b d) = true := by
  unfold Binary32.specScore
  apply mul32_ten_nonneg
  exact le_specMax_left (by simp)

theorem specCandidates32_nonneg (RC : Nat) (rq : Point → ℚ) (scan : Cloud) :
    ∀ c ∈ Binary32.specCandidates RC rq scan, Flt.le (Flt.fin 0) c.2 = true := by
  intro c hc
  unfold Binary32.specCandidates at hc
  rw [List.mem_flatMap] at hc
  obtain ⟨r, _, hc⟩ := hc
  rw [List.mem_map] at hc
  obtain ⟨t, _, rfl⟩ := hc
  exact specScore32_nonneg _ _ _

/-- The finite values of a rounded product are binary32 values. -/
theorem mul32_closed (x y : Flt) (v : ℚ) (h : Binary32.mul x y = Flt.fin v) :
    round32 v = Flt.fin v := by
  cases x with
  | fin a =>
    cases y with
    | fin b => exact round32_idem _ _ h
    | pinf => simp [Binary32.mul, Flt.mul, Flt.infTimes] at h; split_ifs at h
    | ninf => simp [Binary32.mul, Flt.mul, Flt.infTimes] at h; split_ifs at h
    | nan => simp [Binary32.mul, Flt.mul] at h
  | pinf =>
    cases y <;> simp [Binary32.mul, Flt.mul, Flt.infTimes] at h
    split_ifs at h
  | ninf =>
    cases y <;> simp [Binary32.mul, Flt.mul, Flt.infTimes] at h
    split_ifs at h
  | nan => cases y <;> simp [Binary32.mul, Flt.mul] at h

/-- The accumulators after a run of scored candidates. -/
theorem foldl_pushCand32 (cs : List (Point × Flt)) (a b : Flt) (cloud : Cloud) :
    (cs.map Binary32.scored).foldl pushCand
        { min_difference := a, max_difference := b, edge_cloud := cloud }
      = { min_difference := (cs.map Prod.snd).foldl (fun acc s => Flt.MIN s acc) a,
          max_difference := (cs.map Prod.snd).foldl (fun acc s => Flt.MAX s acc) b,
          edge_cloud := cloud ++ cs.map Binary32.scored } := by
  induction cs generalizing a b cloud with
  | nil => simp
  | cons c cs ih =>
    simp only [List.map_cons, List.foldl_cons]
    have h1 : pushCand { min_difference := a, max_difference := b, edge_cloud := cloud }
        (Binary32.scored c)
        = { min_difference := Flt.MIN c.2 a, max_difference := Flt.MAX c.2 b,
            edge_cloud := cloud ++ [Binary32.scored c] } := by
      simp [pushCand, Binary32.scored]
    rw [h1, ih]
    simp

/-- The running `MIN` over values that are not NaN ends at a least value. -/
theorem foldl_MIN_spec (l : List Flt) (a : Flt) (ha : a ≠ Flt.nan)
    (hl : ∀ s ∈ l, s ≠ Flt.nan) :
    Flt.le (l.foldl (fun acc s => Flt.MIN s acc) a) a = true ∧
      (∀ s ∈ l, Flt.le (l.foldl (fun acc s => Flt.MIN s acc) a) s = true) ∧
      (l.foldl (fun acc s => Flt.MIN s acc) a = a ∨
        l.foldl (fun acc s => Flt.MIN s acc) a ∈ l) := by
  induction l generalizing a with
  | nil => exact ⟨Flt.le_rfl_of_ne_nan ha, by simp, Or.inl rfl⟩
  | cons x l ih =>
    simp only [List.foldl_cons]
    have hx : x ≠ Flt.nan := hl x (List.mem_cons_self _ _)
    obtain ⟨m1, m2, m3⟩ := MIN_spec hx ha
    have hm : Flt.MIN x a ≠ Flt.nan := (Flt.le_ne_nan m1).1
    obtain ⟨h1, h2, h3⟩ := ih (Flt.MIN x a) hm (fun s hs => hl s (List.mem_cons_of_mem _ hs))
    refine ⟨Flt.le_trans_of h1 m2, ?_, ?_⟩
    · intro s hs
      rcases List.mem_cons.mp hs with h | h
      · subst h; exact Flt.le_trans_of h1 m1
      · exact h2 s h
    · rcases h3 with h | h
      · rcases m3 with hx2 | hx2
        · right; rw [h, hx2]; exact List.mem_cons_self _ _
        · left; rw [h, hx2]
      · right; exact List.mem_cons_of_mem _ h

/-- The running `MAX` over values that are not NaN ends at a greatest value. -/
theorem foldl_MAX_spec (l : List Flt) (a : Flt) (ha : a ≠ Flt.nan)
    (hl : ∀ s ∈ l, s ≠ Flt.nan) :
    Flt.le a (l.foldl (fun acc s => Flt.MAX s acc) a) = true ∧
      (∀ s ∈ l, Flt.le s (l.foldl (fun acc s => Flt.MAX s acc) a) = true) ∧
      (l.foldl (fun acc s => Flt.MAX s acc) a = a ∨
        l.foldl (fun acc s => Flt.MAX s acc) a ∈ l) := by
  induction l generalizing a with
  | nil => exact ⟨Flt.le_rfl_of_ne_nan ha, by simp, Or.inl rfl⟩
  | cons x l ih =>
    simp only [List.foldl_cons]
    have hx : x ≠ Flt.nan := hl x (List.mem_cons_self _ _)
    obtain ⟨m1, m2, m3⟩ := MAX_spec hx ha
    have hm : Flt.MAX x a ≠ Flt.nan := (Flt.le_ne_nan m1).2
    obtain ⟨h1, h2, h3⟩ := ih (Flt.MAX x a) hm (fun s hs => hl s (List.mem_cons_of_mem _ hs))
    refine ⟨Flt.le_trans_of m2 h1, ?_, ?_⟩
    · intro s hs
      rcases List.mem_cons.mp hs with h | h
      · subst h; exact Flt.le_trans_of m1 h1
      · exact h2 s h
    · rcases h3 with h | h
      · rcases m3 with hx2 | hx2
        · right; rw [h, hx2]; exact List.mem_cons_self _ _
        · left; rw [h, hx2]
      · right; exact List.mem_cons_of_mem _ h

/-- With at least one candidate, the loops of `computeEdges` end with the
least and the greatest candidate score in `min_difference` and
`max_difference`. -/
theorem computeEdgesScan32_extremes (RC : Nat) (range : Point → Flt) (rq : Point → ℚ)
    (scan : Cloud) (hring : ∀ p ∈ scan, p.ring < RC)
    (hfin : ∀ p ∈ scan, range p = Flt.fin (rq p))
    (hne : Binary32.specCandidates RC rq scan ≠ []) :
    ∃ m M : Flt,
      (∃ c ∈ Binary32.specCandidates RC rq scan, c.2 = m) ∧
      (∀ c ∈ Binary32.specCandidates RC rq scan, Flt.le m c.2 = true) ∧
      (∃ c ∈ Binary32.specCandidates RC rq scan, c.2 = M) ∧
      (∀ c ∈ Binary32.specCandidates RC rq scan, Flt.le c.2 M = true) ∧
      Binary32.computeEdgesScan RC range scan
        = some { min_difference := m, max_difference := M,
                 edge_cloud := (Binary32.specCandidates RC rq scan).map Binary32.scored } := by
  rw [computeEdgesScan32_eq RC range rq scan hring hfin]
  have hnonneg := specCandidates32_nonneg RC rq scan
  generalize Binary32.specCandidates RC rq scan = cands at hne hnonneg
  have hnn : ∀ s ∈ cands.map Prod.snd, s ≠ Flt.nan := by
    intro s hs
    obtain ⟨c, hc, rfl⟩ := List.mem_map.mp hs
    exact (Flt.le_ne_nan (hnonneg c hc)).2
  obtain ⟨c0, hc0⟩ := List.exists_mem_of_ne_nil cands hne
  rw [foldl_pushCand32]
  obtain ⟨_, a2, a3⟩ := foldl_MIN_spec (cands.map Prod.snd) Flt.pinf (by simp) hnn
  obtain ⟨_, b2, b3⟩ := foldl_MAX_spec (cands.map Prod.snd) (Flt.fin 0) (by simp) hnn
  refine ⟨(cands.map Prod.snd).foldl (fun acc s => Flt.MIN s acc) Flt.pinf,
    (cands.map Prod.snd).foldl (fun acc s => Flt.MAX s acc) (Flt.fin 0), ?_, ?_, ?_, ?_,
    by simp⟩
  · rcases a3 with h | h
    · refine ⟨c0, hc0, ?_⟩
      have := a2 c0.2 (List.mem_map.mpr ⟨c0, hc0, rfl⟩)
      rw [h] at this ⊢
      exact Flt.eq_pinf_of_le this
    · obtain ⟨d, hd, hd2⟩ := List.mem_map.mp h
      exact ⟨d, hd, hd2⟩
  · intro d hd
    exact a2 _ (List.mem_map.mpr ⟨d, hd, rfl⟩)
  · rcases b3 with h | h
    · refine ⟨c0, hc0, ?_⟩
      have := b2 c0.2 (List.mem_map.mpr ⟨c0, hc0, rfl⟩)
      rw [h] at this ⊢
      exact Flt.le_antisymm_of this (hnonneg c0 hc0)
    · obtain ⟨d, hd, hd2⟩ := List.mem_map.mp h
      exact ⟨d, hd, hd2⟩
  · intro d hd
    exact b2 _ (List.mem_map.mpr ⟨d, hd, rfl⟩)

/-! ## The update of normalizeIntensity over the rounded operations -/

/-- The finite values of a rounded quotient are binary32 values. -/
theorem div32_closed (x y : Flt) (v : ℚ) (h : Binary32.div x y = Flt.fin v) :
    round32 v = Flt.fin v := by
  cases x with
  | fin a =>
    cases y with
    | fin b =>
      by_cases hb : b = 0
      · subst hb
        simp only [Binary32.div, Flt.div, if_true] at h
        split_ifs at h
      · rw [div32_fin a b hb] at h
        exact round32_idem _ _ h
    | pinf =>
      simp only [Binary32.div, Flt.div, Flt.fin.injEq] at h
      rw [← h]
      exact round32_zero
    | ninf =>
      simp only [Binary32.div, Flt.div, Flt.fin.injEq] at h
      rw [← h]
      exact round32_zero
    | nan => simp [Binary32.div, Flt.div] at h
  | pinf =>
    cases y <;> simp [Binary32.div, Flt.div] at h
    split_ifs at h
  | ninf =>
    cases y <;> simp [Binary32.div, Flt.div] at h
    split_ifs at h
  | nan => cases y <;> simp [Binary32.div, Flt.div] at h

/-- Scaling a value that a `float` holds by `max - min = 1 - 0` and adding
`min = 0` changes nothing. -/
theorem affine_unit32 (x : Flt) (hx : ∀ v : ℚ, x = Flt.fin v → round32 v = Flt.fin v) :
    Binary32.add (Binary32.mul x (Binary32.sub (Flt.fin 1) (Flt.fin 0))) (Flt.fin 0) = x := by
  have h1 : Binary32.sub (Flt.fin 1) (Flt.fin 0) = Flt.fin 1 := by
    rw [sub32_fin, sub_zero, round32_one]
  rw [h1]
  cases x with
  | fin v =>
    rw [mul32_fin, mul_one, hx v rfl, add32_fin, add_zero, hx v rfl]
  | pinf => simp [Binary32.mul, Binary32.add, Flt.mul, Flt.add, Flt.infTimes]
  | ninf => simp [Binary32.mul, Binary32.add, Flt.mul, Flt.add, Flt.infTimes]
  | nan => simp [Binary32.mul, Binary32.add, Flt.mul, Flt.add]

/-- The update of `normalizeIntensity` without the unit target interval. -/
theorem normalizeIntensity32_eq (lo hi : Flt) (cloud : Cloud) :
    Binary32.normalizeIntensity lo hi cloud
      = cloud.map (fun pt =>
          { pt with
            intensity := Binary32.div (Binary32.sub pt.intensity lo) (Binary32.sub hi lo) }) := by
  unfold Binary32.normalizeIntensity
  apply List.map_congr_left
  intro pt _
  rw [affine_unit32 _ (div32_closed _ _)]

/-! ## Small integers are binary32 values -/

theorem round32_ofNat (n : ℕ) [n.AtLeastTwo] (h : n < 2 ^ 24) :
    round32 (no_index (OfNat.ofNat n) : ℚ) = Flt.fin (OfNat.ofNat n) := by
  rw [← Nat.cast_eq_ofNat]
  exact round32_natCast n h

theorem round32_neg_ofNat (n : ℕ) [n.AtLeastTwo] (h : n < 2 ^ 24) :
    round32 (-(no_index (OfNat.ofNat n) : ℚ)) = Flt.fin (-(OfNat.ofNat n : ℚ)) := by
  rw [← Nat.cast_eq_ofNat]
  exact round32_neg_natCast n h

theorem round32_neg_one : round32 (-1) = Flt.fin (-1) := by
  have := round32_neg_natCast 1 (by norm_num)
  simpa using this

/-! ## C3: computeEdges and its reference pipeline -/

/-- The least candidate score is below the greatest as soon as two candidate
scores differ. -/
theorem extremes32_lt (cands : List (Point × Flt)) (m M : Flt)
    (hm : ∀ c ∈ cands, Flt.le m c.2 = true) (hM : ∀ c ∈ cands, Flt.le c.2 M = true)
    (hdiff : ∃ c1 ∈ cands, ∃ c2 ∈ cands, c1.2 ≠ c2.2) : Flt.lt m M = true := by
  obtain ⟨c1, h1, c2, h2, hd⟩ := hdiff
  have hle : Flt.le m M = true := Flt.le_trans_of (hm c1 h1) (hM c1 h1)
  apply Flt.lt_of_le_of_neq hle
  intro h
  apply hd
  have e1 : c1.2 = m := Flt.le_antisymm_of (by rw [h]; exact hM c1 h1) (hm c1 h1)
  have e2 : c2.2 = m := Flt.le_antisymm_of (by rw [h]; exact hM c2 h2) (hm c2 h2)
  rw [e1, e2]

/-- The pipeline of `computeEdges` on a scan with in-range ring ids, finite
ranges and two candidates of different score. -/
theorem computeEdges32_pipeline (RC : Nat) (range : Point → Flt) (rq : Point → ℚ)
    (threshold : Flt) (scan : Cloud)
    (hring : ∀ p ∈ scan, p.ring < RC)
    (hfin : ∀ p ∈ scan, range p = Flt.fin (rq p))
    (hdiff : ∃ c1 ∈ Binary32.specCandidates RC rq scan,
      ∃ c2 ∈ Binary32.specCandidates RC rq scan, c1.2 ≠ c2.2) :
    ∃ m M : Flt,
      (∃ c ∈ Binary32.specCandidates RC rq scan, c.2 = m) ∧
      (∀ c ∈ Binary32.specCandidates RC rq scan, Flt.le m c.2 = true) ∧
      (∃ c ∈ Binary32.specCandidates RC rq scan, c.2 = M) ∧
      (∀ c ∈ Binary32.specCandidates RC rq scan, Flt.le c.2 M = true) ∧
      Flt.lt m M = true ∧
      Binary32.computeEdges RC range threshold scan
        = some (Binary32.specEdges RC rq m M threshold scan) := by
  have hne : Binary32.specCandidates RC rq scan ≠ [] := by
    obtain ⟨c1, h1, _⟩ := hdiff
    exact List.ne_nil_of_mem h1
  obtain ⟨m, M, hm1, hm2, hM1, hM2, hscan⟩ :=
    computeEdgesScan32_extremes RC range rq scan hring hfin hne
  refine ⟨m, M, hm1, hm2, hM1, hM2, extremes32_lt _ m M hm2 hM2 hdiff, ?_⟩
  unfold Binary32.computeEdges
  rw [hscan]
  simp only
  rw [normalizeIntensity32_eq]
  unfold Binary32.specEdges discartWeakPoints
  rw [List.map_map]
  congr 2

/-- C3: `computeEdges` equals its reference pipeline, every operation being
the `float` operation of the source. For every scan with in-range ring ids
and finite ranges whose candidate scores are not all equal, there are a least
score `m` and a greatest score `M` over all candidates of all rings, `m < M`,
and `computeEdges(threshold)` returns the candidates of the specification
(rings in ascending id, ring order inside a ring, every point that is neither
first nor last, with `x, y, z, ring` kept and the score
`max(0, max(range(prev) - range(curr), range(next) - range(curr))) * 10`),
each score `s` replaced by `(s - m) / (M - m)`, restricted to those above the
threshold, in the same order. -/
theorem computeEdges_eq_reference (RC : Nat) (range : Point → Flt) (rq : Point → ℚ)
    (threshold : Flt) (scan : Cloud)
    (hring : ∀ p ∈ scan, p.ring < RC)
    (hfin : ∀ p ∈ scan, range p = Flt.fin (rq p))
    (hdiff : ∃ c1 ∈ Binary32.specCandidates RC rq scan,
      ∃ c2 ∈ Binary32.specCandidates RC rq scan, c1.2 ≠ c2.2) :
    ∃ m M : Flt,
      (∃ c ∈ Binary32.specCandidates RC rq scan, c.2 = m) ∧
      (∀ c ∈ Binary32.specCandidates RC rq scan, Flt.le m c.2 = true) ∧
      (∃ c ∈ Binary32.specCandidates RC rq scan, c.2 = M) ∧
      (∀ c ∈ Binary32.specCandidates RC rq scan, Flt.le c.2 M = true) ∧
      Flt.lt m M = true ∧
      Binary32.computeEdges RC range threshold scan
        = some (Binary32.specEdges RC rq m M threshold scan) :=
  computeEdges32_pipeline RC range rq threshold scan hring hfin hdiff

theorem specScore32_5_2_7 : Binary32.specScore 5 2 7 = Flt.fin 50 := by
  unfold Binary32.specScore
  norm_num [round32_ofNat, round32_neg_ofNat]
  norm_num [Binary32.specMax, Flt.le]
  norm_num [round32_ofNat, mul32_fin]

theorem specScore32_2_7_9 : Binary32.specScore 2 7 9 = Flt.fin 20 := by
  unfold Binary32.specScore
  norm_num [round32_ofNat, round32_neg_ofNat]
  norm_num [Binary32.specMax, Flt.le]
  norm_num [round32_ofNat, mul32_fin]

theorem specCandidates32_sampleScan :
    Binary32.specCandidates 1 xRangeExact sampleScan
      = [(⟨Flt.fin 2, Flt.fin 0, Flt.fin 0, Flt.fin 0, 0⟩, Flt.fin 50),
         (⟨Flt.fin 7, Flt.fin 0, Flt.fin 0, Flt.fin 0, 0⟩, Flt.fin 20)] := by
  have hr : List.range 1 = [0] := rfl
  simp [Binary32.specCandidates, hr, sampleScan, ringPoints, triples, xRangeExact,
    specScore32_5_2_7, specScore32_2_7_9]

/-- C3 at the sample scan (one ring, ranges 5, 2, 7, 9; scores 50 and 20). -/
theorem computeEdges_eq_reference_witness :
    (∀ p ∈ sampleScan, p.ring < 1) ∧
    (∀ p ∈ sampleScan, xRange p = Flt.fin (xRangeExact p)) ∧
    ∃ m M : Flt, Flt.lt m M = true ∧
      Binary32.computeEdges 1 xRange (Flt.fin (1 / 2)) sampleScan
        = some (Binary32.specEdges 1 xRangeExact m M (Flt.fin (1 / 2)) sampleScan) :=
  ⟨by simp [sampleScan], by simp [sampleScan, xRange, xRangeExact], by
    obtain ⟨m, M, _, _, _, _, hlt, h⟩ :=
      computeEdges_eq_reference 1 xRange xRangeExact (Flt.fin (1 / 2)) sampleScan
        (by simp [sampleScan]) (by simp [sampleScan, xRange, xRangeExact])
        (by
          rw [specCandidates32_sampleScan]
          exact ⟨_, List.mem_cons_self _ _, _,
            List.mem_cons_of_mem _ (List.mem_cons_self _ _), by simp⟩)
    exact ⟨m, M, hlt, h⟩⟩

/-! ## C20: the range of the scores of computeEdges -/

theorem specCandidates32_closed (RC : Nat) (rq : Point → ℚ) (scan : Cloud) :
    ∀ c ∈ Binary32.specCandidates RC rq scan, ∀ v : ℚ, c.2 = Flt.fin v →
      round32 v = Flt.fin v := by
  intro c hc v hv
  unfold Binary32.specCandidates at hc
  rw [List.mem_flatMap] at hc
  obtain ⟨r, _, hc⟩ := hc
  rw [List.mem_map] at hc
  obtain ⟨t, _, rfl⟩ := hc
  exact mul32_closed _ _ v hv

/-- A value between zero and a finite value is finite. -/
theorem Flt.fin_of_between {s : Flt} {b : ℚ} (h0 : Flt.le (Flt.fin 0) s = true)
    (h1 : Flt.le s (Flt.fin b) = true) : ∃ v : ℚ, s = Flt.fin v ∧ 0 ≤ v ∧ v ≤ b := by
  cases s with
  | fin v =>
    simp only [Flt.le, decide_eq_true_eq] at h0 h1
    exact ⟨v, rfl, h0, h1⟩
  | pinf => simp [Flt.le] at h1
  | ninf => simp [Flt.le] at h0
  | nan => simp [Flt.le] at h0

/-- The normalised score of a candidate: with `0 <= m <= s <= M` and `m < M`
on values that a `float` holds, the value `(s - m) / (M - m)` is NaN (only
when `s` and `M` are both infinite) or lies in `[0, 1]`. -/
theorem normalised32_bounds (s m M : Flt)
    (hm0 : Flt.le (Flt.fin 0) m = true) (hms : Flt.le m s = true)
    (hsM : Flt.le s M = true) (hlt : Flt.lt m M = true)
    (cm : ∀ v : ℚ, m = Flt.fin v → round32 v = Flt.fin v)
    (cs : ∀ v : ℚ, s = Flt.fin v → round32 v = Flt.fin v)
    (cM : ∀ v : ℚ, M = Flt.fin v → round32 v = Flt.fin v)
    (hx : Binary32.div (Binary32.sub s m) (Binary32.sub M m) ≠ Flt.nan) :
    ∃ v : ℚ, Binary32.div (Binary32.sub s m) (Binary32.sub M m) = Flt.fin v ∧
      0 ≤ v ∧ v ≤ 1 := by
  have hs0 : Flt.le (Flt.fin 0) s = true := Flt.le_trans_of hm0 hms
  cases M with
  | fin Mv =>
    obtain ⟨sv, rfl, hsv0, hsvM⟩ := Flt.fin_of_between hs0 hsM
    obtain ⟨mv, rfl, hmv0, hmvM⟩ := Flt.fin_of_between hm0 (Flt.le_trans_of hms hsM)
    have hmlt : mv < Mv := by simpa [Flt.lt] using hlt
    have hmsv : mv ≤ sv := by simpa [Flt.le] using hms
    rw [sub32_fin, sub32_fin]
    -- the divisor is finite and positive
    have hD1 : Flt.le (round32 (Mv - mv)) (Flt.fin Mv) = true := by
      have := round32_mono (Mv - mv) Mv (by linarith)
      rwa [cM Mv rfl] at this
    have hD0 := round32_sub_pos mv Mv (cm mv rfl) (cM Mv rfl) hmlt
    obtain ⟨dv, hd, _, _⟩ := Flt.fin_of_between (Flt.le_of_lt_of hD0) hD1
    rw [hd] at hD0 ⊢
    have hdpos : 0 < dv := by simpa [Flt.lt] using hD0
    -- the dividend lies between zero and the divisor
    have hA0 : Flt.le (Flt.fin 0) (round32 (sv - mv)) = true :=
      round32_nonneg _ (by linarith)
    have hA1 : Flt.le (round32 (sv - mv)) (Flt.fin dv) = true := by
      have := round32_mono (sv - mv) (Mv - mv) (by linarith)
      rwa [hd] at this
    obtain ⟨av, ha, hav0, havd⟩ := Flt.fin_of_between hA0 hA1
    rw [ha, div32_fin av dv (ne_of_gt hdpos)]
    have hq0 : 0 ≤ av / dv := div_nonneg hav0 (le_of_lt hdpos)
    have hq1 : av / dv ≤ 1 := by
      rw [div_le_one hdpos]
      exact havd
    have h1 : Flt.le (round32 (av / dv)) (Flt.fin 1) = true := by
      have := round32_mono (av / dv) 1 hq1
      rwa [round32_one] at this
    obtain ⟨v, hv, hv0, hv1⟩ := Flt.fin_of_between (round32_nonneg _ hq0) h1
    exact ⟨v, hv, hv0, hv1⟩
  | pinf =>
    cases m with
    | fin mv =>
      have hmv0 : 0 ≤ mv := by simpa [Flt.le] using hm0
      cases s with
      | fin sv =>
        have hmsv : mv ≤ sv := by simpa [Flt.le] using hms
        rw [sub32_fin]
        have hA1 : Flt.le (round32 (sv - mv)) (Flt.fin sv) = true := by
          have := round32_mono (sv - mv) sv (by linarith)
          rwa [cs sv rfl] at this
        obtain ⟨av, ha, _, _⟩ :=
          Flt.fin_of_between (round32_nonneg (sv - mv) (by linarith)) hA1
        rw [ha]
        exact ⟨0, by simp [Binary32.sub, Binary32.div, Flt.sub, Flt.neg, Flt.add, Flt.div],
          le_refl _, by norm_num⟩
      | pinf =>
        exfalso
        apply hx
        simp [Binary32.sub, Binary32.div, Flt.sub, Flt.neg, Flt.add, Flt.div]
      | ninf => simp [Flt.le] at hs0
      | nan => simp [Flt.le] at hs0
    | pinf => simp [Flt.lt] at hlt
    | ninf => simp [Flt.le] at hm0
    | nan => simp [Flt.le] at hm0
  | ninf => simp [Flt.le] at hsM hs0; cases s <;> simp_all [Flt.le]
  | nan => cases s <;> simp [Flt.le] at hsM

/-- The candidate of greatest score is normalised to one when that score is
finite. -/
theorem normalised32_top (m M : Flt) (hm0 : Flt.le (Flt.fin 0) m = true)
    (hlt : Flt.lt m M = true) (hM : M.isFinite = true)
    (cm : ∀ v : ℚ, m = Flt.fin v → round32 v = Flt.fin v)
    (cM : ∀ v : ℚ, M = Flt.fin v → round32 v = Flt.fin v) :
    Binary32.div (Binary32.sub M m) (Binary32.sub M m) = Flt.fin 1 := by
  cases M with
  | fin Mv =>
    obtain ⟨mv, rfl, hmv0, _⟩ := Flt.fin_of_between hm0 (Flt.le_of_lt_of hlt)
    have hmlt : mv < Mv := by simpa [Flt.lt] using hlt
    rw [sub32_fin]
    have hD1 : Flt.le (round32 (Mv - mv)) (Flt.fin Mv) = true := by
      have := round32_mono (Mv - mv) Mv (by linarith)
      rwa [cM Mv rfl] at this
    have hD0 := round32_sub_pos mv Mv (cm mv rfl) (cM Mv rfl) hmlt
    obtain ⟨dv, hd, _, _⟩ := Flt.fin_of_between (Flt.le_of_lt_of hD0) hD1
    rw [hd] at hD0 ⊢
    have hdpos : 0 < dv := by simpa [Flt.lt] using hD0
    rw [div32_fin dv dv (ne_of_gt hdpos), div_self (ne_of_gt hdpos), round32_one]
  | pinf => simp [Flt.isFinite] at hM
  | ninf => simp [Flt.isFinite] at hM
  | nan => simp [Flt.isFinite] at hM

/-- C20, as amended: the range of the scores that `computeEdges` returns. For
every scan with in-range ring ids and finite ranges whose candidate scores
are not all equal, and every threshold, the call returns a cloud whose points
all have a finite intensity `v` with `threshold < v`, `0 <= v` and `v <= 1`;
the result is empty whenever `threshold >= 1`; and whenever `threshold < 1`
and every candidate score is finite (no product with ten has overflowed) the
result is not empty and holds a point of intensity exactly `1`. -/
theorem computeEdges_score_range (RC : Nat) (range : Point → Flt) (rq : Point → ℚ)
    (threshold : Flt) (scan : Cloud)
    (hring : ∀ p ∈ scan, p.ring < RC)
    (hfin : ∀ p ∈ scan, range p = Flt.fin (rq p))
    (hdiff : ∃ c1 ∈ Binary32.specCandidates RC rq scan,
      ∃ c2 ∈ Binary32.specCandidates RC rq scan, c1.2 ≠ c2.2) :
    ∃ out : Cloud, Binary32.computeEdges RC range threshold scan = some out ∧
      (∀ p ∈ out, ∃ v : ℚ, p.intensity = Flt.fin v ∧
        Flt.lt threshold (Flt.fin v) = true ∧ 0 ≤ v ∧ v ≤ 1) ∧
      (Flt.le (Flt.fin 1) threshold = true → out = []) ∧
      ((∀ c ∈ Binary32.specCandidates RC rq scan, c.2.isFinite = true) →
        Flt.lt threshold (Flt.fin 1) = true →
        out ≠ [] ∧ ∃ p ∈ out, p.intensity = Flt.fin 1) := by
  obtain ⟨m, M, ⟨cm, hcm, hcm2⟩, hm2, ⟨cM, hcM, hcM2⟩, hM2, hlt, hrun⟩ :=
    computeEdges32_pipeline RC range rq threshold scan hring hfin hdiff
  have hnonneg := specCandidates32_nonneg RC rq scan
  have hclosed := specCandidates32_closed RC rq scan
  have hm0 : Flt.le (Flt.fin 0) m = true := by rw [← hcm2]; exact hnonneg cm hcm
  have clm : ∀ v : ℚ, m = Flt.fin v → round32 v = Flt.fin v := by
    rw [← hcm2]; exact hclosed cm hcm
  have clM : ∀ v : ℚ, M = Flt.fin v → round32 v = Flt.fin v := by
    rw [← hcM2]; exact hclosed cM hcM
  have hbound : ∀ p ∈ Binary32.specEdges RC rq m M threshold scan, ∃ v : ℚ,
      p.intensity = Flt.fin v ∧ Flt.lt threshold (Flt.fin v) = true ∧ 0 ≤ v ∧ v ≤ 1 := by
    intro p hp
    unfold Binary32.specEdges at hp
    rw [List.mem_filter, List.mem_map] at hp
    obtain ⟨⟨c, hc, rfl⟩, hthr⟩ := hp
    simp only at hthr ⊢
    have hx : Binary32.div (Binary32.sub c.2 m) (Binary32.sub M m) ≠ Flt.nan := by
      intro h
      rw [h, Flt.lt_nan] at hthr
      exact Bool.false_ne_true hthr
    obtain ⟨v, hv, hv0, hv1⟩ := normalised32_bounds c.2 m M hm0 (hm2 c hc) (hM2 c hc) hlt
      clm (hclosed c hc) clM hx
    rw [hv] at hthr ⊢
    exact ⟨v, rfl, hthr, hv0, hv1⟩
  refine ⟨_, hrun, hbound, ?_, ?_⟩
  · intro hthr
    rw [List.eq_nil_iff_forall_not_mem]
    intro p hp
    obtain ⟨v, _, hlt2, _, hv1⟩ := hbound p hp
    rw [Flt.lt_fin_of_one_le hthr hv1] at hlt2
    exact Bool.false_ne_true hlt2
  · intro hallfin hthr
    have hMfin : M.isFinite = true := by rw [← hcM2]; exact hallfin cM hcM
    have hmem : (⟨cM.1.x, cM.1.y, cM.1.z, Flt.fin 1, cM.1.ring⟩ : Point)
        ∈ Binary32.specEdges RC rq m M threshold scan := by
      unfold Binary32.specEdges
      rw [List.mem_filter]
      refine ⟨List.mem_map.mpr ⟨cM, hcM, ?_⟩, by simpa using hthr⟩
      rw [hcM2, normalised32_top m M hm0 hlt hMfin clm clM]
    exact ⟨List.ne_nil_of_mem hmem, _, hmem, rfl⟩

/-- C20, as amended, at the sample scan (scores 50 and 20) with threshold
one half. -/
theorem computeEdges_score_range_witness :
    (∀ p ∈ sampleScan, p.ring < 1) ∧
    (∀ p ∈ sampleScan, xRange p = Flt.fin (xRangeExact p)) ∧
    ∃ out : Cloud, Binary32.computeEdges 1 xRange (Flt.fin (1 / 2)) sampleScan = some out ∧
      out ≠ [] ∧ ∃ p ∈ out, p.intensity = Flt.fin 1 :=
  ⟨by simp [sampleScan], by simp [sampleScan, xRange, xRangeExact], by
    obtain ⟨out, hrun, _, _, h3⟩ :=
      computeEdges_score_range 1 xRange xRangeExact (Flt.fin (1 / 2)) sampleScan
        (by simp [sampleScan]) (by simp [sampleScan, xRange, xRangeExact])
        (by
          rw [specCandidates32_sampleScan]
          exact ⟨_, List.mem_cons_self _ _, _,
            List.mem_cons_of_mem _ (List.mem_cons_self _ _), by simp⟩)
    obtain ⟨h4, h5⟩ := h3
      (by rw [specCandidates32_sampleScan]; simp [Flt.isFinite])
      (by simp [Flt.lt]; norm_num)
    exact ⟨out, hrun, h4, h5⟩⟩

theorem one_mul_two_pow_lt (a b : ℕ) (h : a < b) : 1 * 2 ^ a < 2 ^ b := by
  rw [Nat.one_mul]
  exact Nat.pow_lt_pow_right (by norm_num) h

/-- The powers of two up to `2 ^ 127` are binary32 values. -/
theorem round32_two_pow (k : ℕ) (hk : k ≤ 127) : round32 ((2 : ℚ) ^ k) = Flt.fin (2 ^ k) := by
  have h := round32_exact 1 (k + 149) (by norm_num)
    (one_mul_two_pow_lt (k + 149) 277 (by omega))
  have e : ((1 : ℕ) : ℚ) * 2 ^ (k + 149) / 2 ^ 149 = 2 ^ k := by
    rw [pow_add]
    field_simp
  rw [e] at h
  exact h

theorem round32_neg_two_pow (k : ℕ) (hk : k ≤ 127) :
    round32 (-(2 : ℚ) ^ k) = Flt.fin (-(2 : ℚ) ^ k) := by
  have h := round32_exact_neg 1 (k + 149) (by norm_num)
    (one_mul_two_pow_lt (k + 149) 277 (by omega))
  have e : ((1 : ℕ) : ℚ) * 2 ^ (k + 149) / 2 ^ 149 = 2 ^ k := by
    rw [pow_add]
    field_simp
  rw [e] at h
  exact h

theorem specScore32_overflow : Binary32.specScore (2 ^ 127) 0 (2 ^ 127) = Flt.pinf := by
  unfold Binary32.specScore
  rw [sub_zero, round32_two_pow 127 (le_refl _)]
  have e1 : Binary32.specMax (Flt.fin (2 ^ 127)) (Flt.fin (2 ^ 127)) = Flt.fin (2 ^ 127) := by
    simp [Binary32.specMax]
  have e0 : Binary32.specMax (Flt.fin 0) (Flt.fin (2 ^ 127)) = Flt.fin (2 ^ 127) := by
    unfold Binary32.specMax
    rw [if_pos]
    simp only [Flt.le, decide_eq_true_eq]
    positivity
  rw [e1, e0, mul32_fin]
  exact round32_overflow _ (by norm_num)

theorem specScore32_flat : Binary32.specScore 0 (2 ^ 127) (2 ^ 127) = Flt.fin 0 := by
  unfold Binary32.specScore
  rw [zero_sub, sub_self, round32_neg_two_pow 127 (le_refl _), round32_zero]
  have e1 : Binary32.specMax (Flt.fin (-(2 : ℚ) ^ 127)) (Flt.fin 0) = Flt.fin 0 := by
    unfold Binary32.specMax
    rw [if_pos]
    simp only [Flt.le, decide_eq_true_eq]
    have : (0 : ℚ) < 2 ^ 127 := by positivity
    linarith
  have e0 : Binary32.specMax (Flt.fin 0) (Flt.fin 0) = Flt.fin 0 := by
    simp [Binary32.specMax]
  rw [e1, e0, mul32_fin, zero_mul, round32_zero]

theorem specCandidates32_overflowScan :
    Binary32.specCandidates 1 xRangeExact overflowScan
      = [(⟨Flt.fin 0, Flt.fin 0, Flt.fin 0, Flt.fin 0, 0⟩, Flt.pinf),
         (⟨Flt.fin (2 ^ 127), Flt.fin 0, Flt.fin 0, Flt.fin 0, 0⟩, Flt.fin 0)] := by
  have hr : List.range 1 = [0] := rfl
  simp only [Binary32.specCandidates, hr, overflowScan, ringPoints, triples, xRangeExact,
    List.flatMap_cons, List.flatMap_nil, List.append_nil, List.filter_cons, decide_True,
    if_true, List.filter_nil, List.map_cons, List.map_nil, specScore32_overflow,
    specScore32_flat]

/-- C20 fails as stated: on one ring with the finite ranges `2 ^ 127`, `0`,
`2 ^ 127`, `2 ^ 127` the two candidate scores are `+inf` (the product with ten
overflows) and `0`, so they are not all equal, and the threshold one half is
below `1`; yet `computeEdges` returns the empty cloud, because the candidate
of greatest score is normalised to `inf / inf`, which is NaN, and the other
one to `0`. -/
theorem computeEdges_overflow_counterexample :
    (∀ p ∈ overflowScan, p.ring < 1) ∧
    (∀ p ∈ overflowScan, xRange p = Flt.fin (xRangeExact p)) ∧
    (∃ c1 ∈ Binary32.specCandidates 1 xRangeExact overflowScan,
      ∃ c2 ∈ Binary32.specCandidates 1 xRangeExact overflowScan, c1.2 ≠ c2.2) ∧
    Flt.lt (Flt.fin (1 / 2)) (Flt.fin 1) = true ∧
    Binary32.computeEdges 1 xRange (Flt.fin (1 / 2)) overflowScan = some [] := by
  refine ⟨by simp [overflowScan], by simp [overflowScan, xRange, xRangeExact], ?_, ?_, ?_⟩
  · rw [specCandidates32_overflowScan]
    exact ⟨_, List.mem_cons_self _ _, _,
      List.mem_cons_of_mem _ (List.mem_cons_self _ _), by simp⟩
  · simp [Flt.lt]; norm_num
  · unfold Binary32.computeEdges
    rw [computeEdgesScan32_eq 1 xRange xRangeExact overflowScan (by simp [overflowScan])
      (by simp [overflowScan, xRange, xRangeExact]), specCandidates32_overflowScan]
    simp only [List.map_cons, List.map_nil, List.foldl_cons, List.foldl_nil, pushCand,
      Binary32.scored, Flt.MIN, Flt.MAX, Flt.lt]
    rw [normalizeIntensity32_eq]
    simp [discartWeakPoints, Binary32.sub, Binary32.div, Flt.sub, Flt.neg, Flt.add, Flt.div,
      Flt.lt, round32_zero]

/-! ## C9: normalizeIntensity -/

/-- A rounded quotient of a value between zero and a positive divisor lies in
`[0, 1]`. -/
theorem quot32_unit (u d : ℚ) (h0 : 0 ≤ u) (hud : u ≤ d) (hd : 0 < d) :
    ∃ v : ℚ, round32 (u / d) = Flt.fin v ∧ 0 ≤ v ∧ v ≤ 1 := by
  have hq0 : 0 ≤ u / d := div_nonneg h0 (le_of_lt hd)
  have hq1 : u / d ≤ 1 := by
    rw [div_le_one hd]
    exact hud
  have h1 : Flt.le (round32 (u / d)) (Flt.fin 1) = true := by
    have := round32_mono (u / d) 1 hq1
    rwa [round32_one] at this
  exact Flt.fin_of_between (round32_nonneg _ hq0) h1

/-- C9 fails as stated: `min_intensity = -2 ^ 127` is below
`max_intensity = 2 ^ 127`, yet a point whose intensity is exactly
`max_intensity` ends with NaN, not with `1`: the difference
`max_intensity - min_intensity` overflows to `+inf`, and so does the
difference of the intensity and `min_intensity`. -/
theorem normalizeIntensity_overflow_counterexample :
    Flt.lt (Flt.fin (-(2 : ℚ) ^ 127)) (Flt.fin (2 ^ 127)) = true ∧
    Binary32.normalizeIntensity (Flt.fin (-(2 : ℚ) ^ 127)) (Flt.fin (2 ^ 127))
        [⟨Flt.fin 0, Flt.fin 0, Flt.fin 0, Flt.fin (2 ^ 127), 0⟩]
      = [⟨Flt.fin 0, Flt.fin 0, Flt.fin 0, Flt.nan, 0⟩] := by
  refine ⟨?_, ?_⟩
  · simp only [Flt.lt, decide_eq_true_eq]
    have : (0 : ℚ) < 2 ^ 127 := by positivity
    linarith
  · have e : Binary32.sub (Flt.fin (2 ^ 127)) (Flt.fin (-(2 : ℚ) ^ 127)) = Flt.pinf := by
      rw [sub32_fin]
      exact round32_overflow _ (by norm_num)
    rw [normalizeIntensity32_eq]
    simp only [List.map_cons, List.map_nil, e]
    simp [Binary32.div, Flt.div]

/-- C9, as amended: `normalizeIntensity` hits the target endpoints when the
span does not overflow. For every cloud and all `float` values
`min_intensity < max_intensity` whose `float` difference
`max_intensity - min_intensity` is finite, the cloud keeps its length, every
point keeps `x, y, z, ring`, and its intensity `v` becomes the `float` value
of `(v - min_intensity) / (max_intensity - min_intensity)`: the rounded
quotient of the two rounded differences; an intensity equal to
`min_intensity` becomes exactly 0 and one equal to `max_intensity` exactly 1;
and when `min_intensity` and `max_intensity` are the least and greatest
intensity of the cloud, the new intensities lie in `[0, 1]` and attain 0 and
1. -/
theorem normalizeIntensity_endpoints (cloud : Cloud) (a b : ℚ)
    (ha : round32 a = Flt.fin a) (hb : round32 b = Flt.fin b) (hab : a < b)
    (hspan : (Binary32.sub (Flt.fin b) (Flt.fin a)).isFinite = true) :
    (Binary32.normalizeIntensity (Flt.fin a) (Flt.fin b) cloud).length = cloud.length ∧
    (∀ (i : Nat) (p : Point), cloud[i]? = some p →
      ∃ p2 : Point,
        (Binary32.normalizeIntensity (Flt.fin a) (Flt.fin b) cloud)[i]? = some p2 ∧
        p2.x = p.x ∧ p2.y = p.y ∧ p2.z = p.z ∧ p2.ring = p.ring ∧
        p2.intensity
          = Binary32.div (Binary32.sub p.intensity (Flt.fin a))
              (Binary32.sub (Flt.fin b) (Flt.fin a)) ∧
        (∀ v u d : ℚ, p.intensity = Flt.fin v → round32 (v - a) = Flt.fin u →
          round32 (b - a) = Flt.fin d → p2.intensity = round32 (u / d)) ∧
        (p.intensity = Flt.fin a → p2.intensity = Flt.fin 0) ∧
        (p.intensity = Flt.fin b → p2.intensity = Flt.fin 1)) ∧
    ((∃ p ∈ cloud, p.intensity = Flt.fin a) → (∃ p ∈ cloud, p.intensity = Flt.fin b) →
      (∀ p ∈ cloud, ∃ v : ℚ, p.intensity = Flt.fin v ∧ a ≤ v ∧ v ≤ b) →
      (∃ p2 ∈ Binary32.normalizeIntensity (Flt.fin a) (Flt.fin b) cloud,
        p2.intensity = Flt.fin 0) ∧
      (∃ p2 ∈ Binary32.normalizeIntensity (Flt.fin a) (Flt.fin b) cloud,
        p2.intensity = Flt.fin 1) ∧
      (∀ p2 ∈ Binary32.normalizeIntensity (Flt.fin a) (Flt.fin b) cloud,
        ∃ v2 : ℚ, p2.intensity = Flt.fin v2 ∧ 0 ≤ v2 ∧ v2 ≤ 1)) := by
  -- the span is a positive finite value
  have hpos := round32_sub_pos a b ha hb hab
  rw [sub32_fin] at hspan
  obtain ⟨d, hd⟩ : ∃ d : ℚ, round32 (b - a) = Flt.fin d := by
    revert hspan
    generalize round32 (b - a) = r
    intro hspan
    cases r with
    | fin d => exact ⟨d, rfl⟩
    | pinf => simp [Flt.isFinite] at hspan
    | ninf => simp [Flt.isFinite] at hspan
    | nan => simp [Flt.isFinite] at hspan
  rw [hd] at hpos
  have hdpos : 0 < d := by simpa [Flt.lt] using hpos
  have hdne : d ≠ 0 := ne_of_gt hdpos
  have hlow : Binary32.div (Binary32.sub (Flt.fin a) (Flt.fin a))
      (Binary32.sub (Flt.fin b) (Flt.fin a)) = Flt.fin 0 := by
    rw [sub32_fin, sub32_fin, sub_self, round32_zero, hd, div32_fin 0 d hdne, zero_div,
      round32_zero]
  have hhigh : Binary32.div (Binary32.sub (Flt.fin b) (Flt.fin a))
      (Binary32.sub (Flt.fin b) (Flt.fin a)) = Flt.fin 1 := by
    rw [sub32_fin, hd, div32_fin d d hdne, div_self hdne, round32_one]
  rw [normalizeIntensity32_eq]
  refine ⟨by simp, ?_, ?_⟩
  · intro i p hp
    refine ⟨⟨p.x, p.y, p.z,
        Binary32.div (Binary32.sub p.intensity (Flt.fin a))
          (Binary32.sub (Flt.fin b) (Flt.fin a)), p.ring⟩,
      by simp [List.getElem?_map, hp], rfl, rfl, rfl, rfl, rfl, ?_, ?_, ?_⟩
    · intro v u d2 hv hu hd2
      have e : d2 = d := Flt.fin.inj (hd2.symm.trans hd)
      subst e
      simp only [hv, sub32_fin, hu, hd2, div32_fin u d2 hdne]
    · intro hv
      simp only [hv, hlow]
    · intro hv
      simp only [hv, hhigh]
  · intro hmin hmax hall
    refine ⟨?_, ?_, ?_⟩
    · obtain ⟨p, hp, hv⟩ := hmin
      refine ⟨_, List.mem_map.mpr ⟨p, hp, rfl⟩, ?_⟩
      simp only [hv, hlow]
    · obtain ⟨p, hp, hv⟩ := hmax
      refine ⟨_, List.mem_map.mpr ⟨p, hp, rfl⟩, ?_⟩
      simp only [hv, hhigh]
    · intro p2 hp2
      obtain ⟨p, hp, rfl⟩ := List.mem_map.mp hp2
      obtain ⟨v, hv, hlo, hhi⟩ := hall p hp
      have hA1 : Flt.le (round32 (v - a)) (Flt.fin d) = true := by
        have := round32_mono (v - a) (b - a) (by linarith)
        rwa [hd] at this
      obtain ⟨u, hu, hu0, hud⟩ :=
        Flt.fin_of_between (round32_nonneg (v - a) (by linarith)) hA1
      obtain ⟨v2, hv2, h0, h1⟩ := quot32_unit u d hu0 hud hdpos
      refine ⟨v2, ?_, h0, h1⟩
      simp only [hv, sub32_fin, hu, hd, div32_fin u d hdne, hv2]

/-- C9, as amended, at the cloud with intensities 2, 4 and 3, normalised from
`[2, 4]`: the point of intensity 2 ends at 0 and the point of intensity 4 at
1. -/
theorem normalizeIntensity_endpoints_witness :
    round32 2 = Flt.fin 2 ∧ round32 4 = Flt.fin 4 ∧ (2 : ℚ) < 4 ∧
    (Binary32.sub (Flt.fin 4) (Flt.fin 2)).isFinite = true ∧
    (∃ p2 ∈ Binary32.normalizeIntensity (Flt.fin 2) (Flt.fin 4)
        [⟨Flt.fin 0, Flt.fin 0, Flt.fin 0, Flt.fin 2, 0⟩,
         ⟨Flt.fin 0, Flt.fin 0, Flt.fin 0, Flt.fin 4, 0⟩,
         ⟨Flt.fin 0, Flt.fin 0, Flt.fin 0, Flt.fin 3, 0⟩], p2.intensity = Flt.fin 0) ∧
    (∃ p2 ∈ Binary32.normalizeIntensity (Flt.fin 2) (Flt.fin 4)
        [⟨Flt.fin 0, Flt.fin 0, Flt.fin 0, Flt.fin 2, 0⟩,
         ⟨Flt.fin 0, Flt.fin 0, Flt.fin 0, Flt.fin 4, 0⟩,
         ⟨Flt.fin 0, Flt.fin 0, Flt.fin 0, Flt.fin 3, 0⟩], p2.intensity = Flt.fin 1) := by
  have h2 : round32 2 = Flt.fin 2 := round32_ofNat 2 (by norm_num)
  have h4 : round32 4 = Flt.fin 4 := round32_ofNat 4 (by norm_num)
  have hs : (Binary32.sub (Flt.fin 4) (Flt.fin 2)).isFinite = true := by
    have e : (4 : ℚ) - 2 = 2 := by norm_num
    rw [sub32_fin, e, h2]
    rfl
  have h := (normalizeIntensity_endpoints
      [⟨Flt.fin 0, Flt.fin 0, Flt.fin 0, Flt.fin 2, 0⟩,
       ⟨Flt.fin 0, Flt.fin 0, Flt.fin 0, Flt.fin 4, 0⟩,
       ⟨Flt.fin 0, Flt.fin 0, Flt.fin 0, Flt.fin 3, 0⟩] 2 4 h2 h4 (by norm_num) hs).2.2
    ⟨_, List.mem_cons_self _ _, rfl⟩
    ⟨_, List.mem_cons_of_mem _ (List.mem_cons_self _ _), rfl⟩
    (by
      intro p hp
      simp only [List.mem_cons, List.mem_singleton, List.mem_nil_iff, or_false] at hp
      rcases hp with rfl | rfl | rfl
      · exact ⟨2, rfl, by norm_num, by norm_num⟩
      · exact ⟨4, rfl, by norm_num, by norm_num⟩
      · exact ⟨3, rfl, by norm_num, by norm_num⟩)
  exact ⟨h2, h4, by norm_num, hs, h.1, h.2.1⟩

/-! ## Rounding down to a binary32 value -/

theorem rne_of_lt_half (y : ℚ) (m : ℕ) (h1 : (m : ℚ) ≤ y) (h2 : y < m + 1 / 2) :
    rne y = m := by
  have hy0 : 0 ≤ y := le_trans (Nat.cast_nonneg m) h1
  have hf : ⌊y⌋₊ = m := by
    rw [Nat.floor_eq_iff hy0]
    exact ⟨h1, by linarith⟩
  unfold Binary32.rne
  rw [hf, if_pos (by linarith)]

theorem roundGrid_round_down (t : ℚ) (m j : ℕ) (hm1 : 2 ^ 23 ≤ m) (hm2 : m < 2 ^ 24)
    (hlo : (m : ℚ) * 2 ^ j ≤ t) (hhi : t < (m : ℚ) * 2 ^ j + 2 ^ j / 2) :
    roundGrid t = m * 2 ^ j := by
  have hp : (0 : ℚ) < 2 ^ j := by positivity
  have ht0 : 0 ≤ t := le_trans (by positivity) hlo
  have hfl1 : m * 2 ^ j ≤ ⌊t⌋₊ := by
    apply Nat.le_floor
    push_cast
    exact hlo
  have hfl2 : ⌊t⌋₊ < (m + 1) * 2 ^ j := by
    rw [Nat.floor_lt ht0]
    push_cast
    have : (2 : ℚ) ^ j / 2 < 2 ^ j := by linarith
    linarith
  have hlog : Nat.log 2 ⌊t⌋₊ = 23 + j := by
    rw [Nat.log_eq_iff (Or.inr ⟨by norm_num, by
      have : 0 < m * 2 ^ j := Nat.mul_pos (by omega) (by positivity)
      omega⟩)]
    constructor
    · calc 2 ^ (23 + j) = 2 ^ 23 * 2 ^ j := pow_add 2 23 j
        _ ≤ m * 2 ^ j := Nat.mul_le_mul_right _ hm1
        _ ≤ ⌊t⌋₊ := hfl1
    · calc ⌊t⌋₊ < (m + 1) * 2 ^ j := hfl2
        _ ≤ 2 ^ 24 * 2 ^ j := Nat.mul_le_mul_right _ (by omega)
        _ = 2 ^ (23 + j + 1) := by rw [← pow_add]; congr 1; omega
  unfold Binary32.roundGrid
  rw [hlog, Nat.add_sub_cancel_left]
  rw [rne_of_lt_half (t / 2 ^ j) m]
  · rw [le_div_iff₀ hp]
    exact hlo
  · rw [div_lt_iff₀ hp]
    have : ((m : ℚ) + 1 / 2) * 2 ^ j = (m : ℚ) * 2 ^ j + 2 ^ j / 2 := by ring
    rw [this]
    exact hhi

/-- A value at or above a binary32 value `x = m * 2 ^ j * 2 ^ (-149)` with a
full significand `m`, and less than half a spacing `2 ^ j * 2 ^ (-149)` above
it, rounds to `x`. -/
theorem round32_round_down (x q : ℚ) (m j : ℕ) (hx : x = (m : ℚ) * 2 ^ j / 2 ^ 149)
    (hm1 : 2 ^ 23 ≤ m) (hm2 : m < 2 ^ 24) (hj : 24 + j ≤ 277)
    (hlo : x ≤ q) (hhi : q < x + 2 ^ j / 2 ^ 150) : round32 q = Flt.fin x := by
  have hp : (0 : ℚ) < 2 ^ 149 := by positivity
  have hx0 : 0 ≤ x := by rw [hx]; positivity
  have hq0 : 0 ≤ q := le_trans hx0 hlo
  have hxs : x * 2 ^ 149 = (m : ℚ) * 2 ^ j := by
    rw [hx]
    field_simp
  have h1 : (m : ℚ) * 2 ^ j ≤ q * 2 ^ 149 := by
    rw [← hxs]
    exact mul_le_mul_of_nonneg_right hlo (le_of_lt hp)
  have h2 : q * 2 ^ 149 < (m : ℚ) * 2 ^ j + 2 ^ j / 2 := by
    have := mul_lt_mul_of_pos_right hhi hp
    have h150 : (2 : ℚ) ^ 150 = 2 ^ 149 * 2 := pow_succ 2 149
    have e : (x + 2 ^ j / 2 ^ 150) * 2 ^ 149 = (m : ℚ) * 2 ^ j + 2 ^ j / 2 := by
      rw [add_mul, hxs, h150, div_mul_eq_mul_div, mul_comm ((2 : ℚ) ^ 149) 2,
        mul_div_mul_right _ _ (ne_of_gt hp)]
    rw [e] at this
    exact this
  have hg := roundGrid_round_down (q * 2 ^ 149) m j hm1 hm2 h1 h2
  have hlt : m * 2 ^ j < 2 ^ 277 :=
    lt_of_lt_of_le (Nat.mul_lt_mul_of_pos_right hm2 (by positivity))
      (two_pow_mul_le 24 j 277 hj)
  rw [round32_of_nonneg q hq0, hg, if_neg (not_le.mpr hlt), hx]
  push_cast
  rfl

/-! ## C18: averageIntensity -/

/-- The loop of `averageIntensity`: the finite intensities are added to the
sum in cloud order and counted, the others are skipped. -/
theorem averageIntensityLoop_eq (l : List Point) (acc : Flt) (n : Int) :
    averageIntensityLoop l (acc, n)
      = ((finiteIntensities l).foldl (fun s v => Binary32.add s (Flt.fin v)) acc,
          n + ((finiteIntensities l).length : Int)) := by
  induction l generalizing acc n with
  | nil => simp [averageIntensityLoop, finiteIntensities]
  | cons p l ih =>
    cases hp : p.intensity with
    | fin q =>
      simp only [averageIntensityLoop, hp, Flt.isNan, Flt.isInf]
      rw [if_pos (by simp), ih]
      simp [finiteIntensities, hp]
      omega
    | pinf =>
      simp only [averageIntensityLoop, hp, Flt.isNan, Flt.isInf]
      rw [if_neg (by simp), ih]
      simp [finiteIntensities, hp]
    | ninf =>
      simp only [averageIntensityLoop, hp, Flt.isNan, Flt.isInf]
      rw [if_neg (by simp), ih]
      simp [finiteIntensities, hp]
    | nan =>
      simp only [averageIntensityLoop, hp, Flt.isNan, Flt.isInf]
      rw [if_neg (by simp), ih]
      simp [finiteIntensities, hp]

/-- The conversion of a positive count is at least one, so not zero. -/
theorem ofInt_pos_ne_zero (n : ℕ) (h : 0 < n) : Binary32.ofInt (n : Int) ≠ Flt.fin 0 := by
  unfold Binary32.ofInt
  have h1 : (1 : ℚ) ≤ ((n : Int) : ℚ) := by
    have : (1 : Int) ≤ (n : Int) := by omega
    exact_mod_cast this
  have hm := round32_mono 1 _ h1
  rw [round32_one] at hm
  intro h0
  rw [h0] at hm
  simp [Flt.le] at hm
  linarith

/-- The finite intensities of a cloud, by membership. -/
theorem mem_finiteIntensities (cloud : Cloud) (q : ℚ) :
    q ∈ finiteIntensities cloud ↔ ∃ p ∈ cloud, p.intensity = Flt.fin q := by
  unfold finiteIntensities
  rw [List.mem_filterMap]
  constructor
  · rintro ⟨p, hp, h⟩
    refine ⟨p, hp, ?_⟩
    cases hi : p.intensity with
    | fin v =>
      rw [hi] at h
      simp only [Option.some.injEq] at h
      rw [h]
    | pinf => rw [hi] at h; simp at h
    | ninf => rw [hi] at h; simp at h
    | nan => rw [hi] at h; simp at h
  · rintro ⟨p, hp, h⟩
    exact ⟨p, hp, by rw [h]⟩

/-- The value of `averageIntensity` in terms of the finite intensities. -/
theorem averageIntensity_mean_eq (cloud : Cloud) :
    averageIntensity cloud
      = (if (finiteIntensities cloud).length = 0 then Flt.fin 0
         else Binary32.div (Binary32.floatSum (finiteIntensities cloud))
           (Binary32.ofInt ((finiteIntensities cloud).length : Int))) := by
  have hloop : averageIntensityLoop cloud (Flt.fin 0, 0)
      = (Binary32.floatSum (finiteIntensities cloud),
          ((finiteIntensities cloud).length : Int)) := by
    rw [averageIntensityLoop_eq]
    simp [Binary32.floatSum]
  unfold averageIntensity
  rw [hloop]
  by_cases h0 : (finiteIntensities cloud).length = 0
  · simp [h0]
  · have hpos : (0 : Int) < ((finiteIntensities cloud).length : Int) := by omega
    simp only [hpos, if_true, h0, if_false]

/-- C18, as amended: `averageIntensity` ignores the non-finite values and
averages in `float`. For every cloud, with `fs` the intensities that are
neither NaN nor infinite, in cloud order, the loop ends with the `float` sum
of `fs` (accumulated from `0` in cloud order, every addition rounded) and
their number; the call returns that sum divided in `float` by the converted
count when `fs` is not empty, a divisor that is never zero and is the count
itself below `2 ^ 24`; and it returns `0` when the cloud has no finite
intensity, the empty cloud included. -/
theorem averageIntensity_finite_mean (cloud : Cloud) :
    (∀ q : ℚ, q ∈ finiteIntensities cloud ↔ ∃ p ∈ cloud, p.intensity = Flt.fin q) ∧
    averageIntensityLoop cloud (Flt.fin 0, 0)
      = (Binary32.floatSum (finiteIntensities cloud),
          ((finiteIntensities cloud).length : Int)) ∧
    averageIntensity cloud
      = (if (finiteIntensities cloud).length = 0 then Flt.fin 0
         else Binary32.div (Binary32.floatSum (finiteIntensities cloud))
           (Binary32.ofInt ((finiteIntensities cloud).length : Int))) ∧
    (0 < (finiteIntensities cloud).length →
      Binary32.ofInt ((finiteIntensities cloud).length : Int) ≠ Flt.fin 0) ∧
    ((finiteIntensities cloud).length < 2 ^ 24 →
      Binary32.ofInt ((finiteIntensities cloud).length : Int)
        = Flt.fin ((finiteIntensities cloud).length : ℚ)) ∧
    averageIntensity [] = Flt.fin 0 := by
  have hloop : averageIntensityLoop cloud (Flt.fin 0, 0)
      = (Binary32.floatSum (finiteIntensities cloud),
          ((finiteIntensities cloud).length : Int)) := by
    rw [averageIntensityLoop_eq]
    simp [Binary32.floatSum]
  refine ⟨mem_finiteIntensities cloud, hloop, averageIntensity_mean_eq cloud,
    ofInt_pos_ne_zero _, ?_, ?_⟩
  · intro hlt
    unfold Binary32.ofInt
    have := round32_natCast _ hlt
    simpa using this
  · simp [averageIntensity, averageIntensityLoop]

theorem round32_absorb (k : ℚ) (h0 : 0 ≤ k) (h4 : k < 4) :
    round32 (2 ^ 26 + k) = Flt.fin (2 ^ 26) := by
  apply round32_round_down (2 ^ 26) (2 ^ 26 + k) (2 ^ 23) 152
  · norm_num
  · norm_num
  · norm_num
  · norm_num
  · linarith
  · have : (2 : ℚ) ^ 152 / 2 ^ 150 = 4 := by norm_num
    rw [this]
    linarith

/-- C18 fails as stated: on the intensities `2 ^ 26`, `3`, `3` and `2`, all
finite, `averageIntensity` returns `2 ^ 24`, while their sum divided by
their number is `2 ^ 24 + 2` (itself a `float` value): each of the three small
intensities is lost when it is added to the running `float` sum. -/
theorem averageIntensity_rounding_counterexample :
    averageIntensity absorbingCloud = Flt.fin (2 ^ 24) ∧
    (finiteIntensities absorbingCloud).sum / ((finiteIntensities absorbingCloud).length : ℚ)
      = 2 ^ 24 + 2 ∧
    round32 (2 ^ 24 + 2) = Flt.fin (2 ^ 24 + 2) := by
  have hfs : finiteIntensities absorbingCloud = [2 ^ 26, 3, 3, 2] := by
    simp [finiteIntensities, absorbingCloud]
  refine ⟨?_, ?_, ?_⟩
  · have hsum : Binary32.floatSum [2 ^ 26, 3, 3, 2] = Flt.fin (2 ^ 26) := by
      unfold Binary32.floatSum
      rw [List.foldl_cons, List.foldl_cons, List.foldl_cons, List.foldl_cons, List.foldl_nil,
        add32_fin, zero_add, round32_two_pow 26 (by norm_num),
        add32_fin, round32_absorb 3 (by norm_num) (by norm_num),
        add32_fin, round32_absorb 3 (by norm_num) (by norm_num),
        add32_fin, round32_absorb 2 (by norm_num) (by norm_num)]
    have h4 : Binary32.ofInt ((([2 ^ 26, 3, 3, 2] : List ℚ).length : Int)) = Flt.fin 4 := by
      unfold Binary32.ofInt
      have := round32_ofNat 4 (by norm_num)
      simpa using this
    have e : (2 : ℚ) ^ 26 / 4 = 2 ^ 24 := by norm_num
    rw [(averageIntensity_mean_eq absorbingCloud), hfs, if_neg (by simp), hsum, h4,
      div32_fin _ _ (by norm_num), e]
    exact round32_two_pow 24 (by norm_num)
  · rw [hfs]
    norm_num
  · have h := round32_exact (2 ^ 23 + 1) 150 (by norm_num)
      (lt_of_lt_of_le (Nat.mul_lt_mul_of_pos_right (by norm_num : 2 ^ 23 + 1 < 2 ^ 24)
        (by positivity)) (two_pow_mul_le 24 150 277 (by norm_num)))
    have e : (((2 ^ 23 + 1 : ℕ) : ℚ)) * 2 ^ 150 / 2 ^ 149 = 2 ^ 24 + 2 := by
      push_cast
      norm_num
    rw [e] at h
    exact h

/-! ## C16: getMaxOfRingRanges -/

theorem ringRangesLoop_spec (RINGS : Nat) (rest : List Point) (f : Nat → List Flt)
    (h : ∀ p ∈ rest, p.ring < RINGS) :
    ringRangesLoop rest ((List.range RINGS).map f)
      = some ((List.range RINGS).map (fun r =>
          f r ++ (ringPoints rest r).map Binary32.squaredPlanarRange)) := by
  induction rest generalizing f with
  | nil => simp [ringRangesLoop, ringPoints]
  | cons pt rest ih =>
    have hpt : pt.ring < RINGS := h pt (List.mem_cons_self _ _)
    have hrest : ∀ p ∈ rest, p.ring < RINGS := fun p hp => h p (List.mem_cons_of_mem _ hp)
    have hlen : pt.ring < ((List.range RINGS).map f).length := by simpa using hpt
    simp only [ringRangesLoop, hlen, if_true]
    rw [pushAt_map_range, ih _ hrest]
    congr 1
    apply List.map_congr_left
    intro r _
    by_cases hr : r = pt.ring
    · subst hr; simp [ringPoints, Binary32.squaredPlanarRange]
    · have hr2 : ¬ pt.ring = r := fun e => hr e.symm
      simp [ringPoints, hr, hr2]

/-- Closed form of `getMaxOfRingRanges` on a cloud with in-range ring ids. -/
theorem getMaxOfRingRanges_eq (RINGS : Nat) (sqrt : Flt → Flt) (cloud : Cloud)
    (h : ∀ p ∈ cloud, p.ring < RINGS) :
    getMaxOfRingRanges RINGS sqrt cloud
      = some ((List.range RINGS).map (fun r =>
          almostMaximum sqrt ((ringPoints cloud r).map Binary32.squaredPlanarRange))) := by
  unfold getMaxOfRingRanges
  rw [replicate_nil_eq_map_range, ringRangesLoop_spec RINGS cloud _ h]
  simp [List.map_map, Function.comp]

/-- Inserting a value that is not NaN into an ascending list of such values
keeps the list ascending. -/
theorem sorted_orderedInsert_flt (a : Flt) (l : List Flt) (ha : a ≠ Flt.nan)
    (hl : ∀ x ∈ l, x ≠ Flt.nan) (hs : l.Sorted (fun u v => Flt.le u v = true)) :
    (l.orderedInsert (fun u v => Flt.le u v = true) a).Sorted
      (fun u v => Flt.le u v = true) := by
  induction l with
  | nil => simp
  | cons b l ih =>
    have hb : b ≠ Flt.nan := hl b (List.mem_cons_self _ _)
    have hl2 : ∀ x ∈ l, x ≠ Flt.nan := fun x hx => hl x (List.mem_cons_of_mem _ hx)
    have hs2 := List.sorted_cons.mp hs
    rw [List.orderedInsert]
    split_ifs with hab
    · apply List.sorted_cons.mpr
      refine ⟨?_, hs⟩
      intro y hy
      rcases List.mem_cons.mp hy with h | h
      · rw [h]; exact hab
      · exact Flt.le_trans_of hab (hs2.1 y h)
    · have hba : Flt.le b a = true := by
        rcases Flt.le_total_of ha hb with h | h
        · exact absurd h hab
        · exact h
      apply List.sorted_cons.mpr
      refine ⟨?_, ih hl2 hs2.2⟩
      intro y hy
      rcases (List.mem_orderedInsert _).mp hy with h | h
      · rw [h]; exact hba
      · exact hs2.1 y h

/-- The sort puts values that are not NaN in ascending order. -/
theorem sort_sorted (l : List Flt) (hl : ∀ x ∈ l, x ≠ Flt.nan) :
    (sort l).Sorted (fun u v => Flt.le u v = true) := by
  unfold sort
  induction l with
  | nil => simp
  | cons a l ih =>
    have hl2 : ∀ x ∈ l, x ≠ Flt.nan := fun x hx => hl x (List.mem_cons_of_mem _ hx)
    rw [List.insertionSort]
    apply sorted_orderedInsert_flt a _ (hl a (List.mem_cons_self _ _)) _ (ih hl2)
    intro x hx
    exact hl2 x ((List.perm_insertionSort _ l).mem_iff.mp hx)

/-- A square is not negative, and neither is a sum of two squares: the
squared planar range of a point whose `x` and `z` are not NaN is not NaN. -/
theorem mul32_self_nonneg (x : Flt) (hx : x ≠ Flt.nan) :
    Flt.le (Flt.fin 0) (Binary32.mul x x) = true := by
  cases x with
  | fin a =>
    rw [mul32_fin]
    exact round32_nonneg _ (mul_self_nonneg a)
  | pinf => simp [Binary32.mul, Flt.mul, Flt.le]
  | ninf => simp [Binary32.mul, Flt.mul, Flt.le]
  | nan => exact absurd rfl hx

theorem add32_nonneg (u v : Flt) (hu : Flt.le (Flt.fin 0) u = true)
    (hv : Flt.le (Flt.fin 0) v = true) : Flt.le (Flt.fin 0) (Binary32.add u v) = true := by
  cases u with
  | fin a =>
    cases v with
    | fin b =>
      simp only [Flt.le, decide_eq_true_eq] at hu hv
      rw [add32_fin]
      exact round32_nonneg _ (add_nonneg hu hv)
    | pinf => simp [Binary32.add, Flt.add, Flt.le]
    | ninf => simp [Flt.le] at hv
    | nan => simp [Flt.le] at hv
  | pinf =>
    cases v with
    | fin b => simp [Binary32.add, Flt.add, Flt.le]
    | pinf => simp [Binary32.add, Flt.add, Flt.le]
    | ninf => simp [Flt.le] at hv
    | nan => simp [Flt.le] at hv
  | ninf => simp [Flt.le] at hu
  | nan => simp [Flt.le] at hu

theorem squaredPlanarRange_ne_nan (p : Point) (hx : p.x ≠ Flt.nan) (hz : p.z ≠ Flt.nan) :
    Binary32.squaredPlanarRange p ≠ Flt.nan :=
  (Flt.le_ne_nan (add32_nonneg _ _ (mul32_self_nonneg p.x hx) (mul32_self_nonneg p.z hz))).2

/-- C16: the 90th-percentile rank of `getMaxOfRingRanges`. For every cloud
with in-range ring ids the result has `RINGS` entries. The entry of a ring
without points is NaN. For a ring of `count >= 1` points the index
`count * 9 / 10` is below `count` and the entry is the square root of the
element at that index of the sorted squared planar ranges of the ring's
points, where the squared planar range is the `float` value of
`x * x + z * z` (both products and the sum rounded), the sorted list is a
rearrangement of those values, and it is ascending when no `x` or `z` of the
ring is NaN. -/
theorem getMaxOfRingRanges_percentile (RINGS : Nat) (sqrt : Flt → Flt) (cloud : Cloud)
    (hring : ∀ p ∈ cloud, p.ring < RINGS) :
    ∃ out : List Flt, getMaxOfRingRanges RINGS sqrt cloud = some out ∧
      out.length = RINGS ∧
      ∀ r : Nat, r < RINGS →
        (ringPoints cloud r = [] → out[r]? = some Flt.nan) ∧
        (1 ≤ (ringPoints cloud r).length →
          (ringPoints cloud r).length * 9 / 10 < (ringPoints cloud r).length ∧
          (sort ((ringPoints cloud r).map Binary32.squaredPlanarRange)).Perm
            ((ringPoints cloud r).map Binary32.squaredPlanarRange) ∧
          out[r]? = some (sqrt ((sort ((ringPoints cloud r).map
              Binary32.squaredPlanarRange)).getD
                ((ringPoints cloud r).length * 9 / 10) default)) ∧
          (∀ (p : Point) (xq zq u w : ℚ), p ∈ ringPoints cloud r →
            p.x = Flt.fin xq → p.z = Flt.fin zq →
            round32 (xq * xq) = Flt.fin u → round32 (zq * zq) = Flt.fin w →
            Binary32.squaredPlanarRange p = round32 (u + w)) ∧
          ((∀ p ∈ ringPoints cloud r, p.x ≠ Flt.nan ∧ p.z ≠ Flt.nan) →
            (sort ((ringPoints cloud r).map Binary32.squaredPlanarRange)).Sorted
              (fun u v => Flt.le u v = true))) := by
  refine ⟨_, getMaxOfRingRanges_eq RINGS sqrt cloud hring, by simp, ?_⟩
  intro r hr
  rw [getElem?_map_range RINGS _ r hr]
  constructor
  · intro hempty
    rw [hempty]
    rfl
  · intro hcount
    have hidx : (ringPoints cloud r).length * 9 / 10 < (ringPoints cloud r).length := by
      omega
    have hne : ((ringPoints cloud r).map Binary32.squaredPlanarRange).isEmpty = false := by
      cases hrp : ringPoints cloud r with
      | nil => rw [hrp] at hcount; simp at hcount
      | cons a t => rfl
    have hentry : almostMaximum sqrt ((ringPoints cloud r).map Binary32.squaredPlanarRange)
        = sqrt ((sort ((ringPoints cloud r).map Binary32.squaredPlanarRange)).getD
              ((ringPoints cloud r).length * 9 / 10) default) := by
      unfold almostMaximum
      rw [hne]
      simp
    refine ⟨hidx, List.perm_insertionSort _ _, by rw [hentry], ?_, ?_⟩
    · intro p xq zq u w _ hx hz hu hw
      unfold Binary32.squaredPlanarRange
      rw [hx, hz, mul32_fin, mul32_fin, hu, hw, add32_fin]
    · intro hnn
      apply sort_sorted
      intro x hx
      obtain ⟨p, hp, rfl⟩ := List.mem_map.mp hx
      exact squaredPlanarRange_ne_nan p (hnn p hp).1 (hnn p hp).2

/-- C16 at the sample cloud of four points on ring 0, with two rings. -/
theorem getMaxOfRingRanges_percentile_witness :
    (∀ p ∈ sampleFourCloud, p.ring < 2) ∧
    ∃ out : List Flt,
      getMaxOfRingRanges 2 (fun v => v) sampleFourCloud = some out ∧ out.length = 2 ∧
        out[1]? = some Flt.nan :=
  ⟨by simp [sampleFourCloud], by
    obtain ⟨out, h1, h2, h3⟩ :=
      getMaxOfRingRanges_percentile 2 (fun v => v) sampleFourCloud (by simp [sampleFourCloud])
    exact ⟨out, h1, h2, (h3 1 (by norm_num)).1 (by simp [ringPoints, sampleFourCloud])⟩⟩

/-! ## C7: projectPoint -/

theorem getD_map_of_getElem? (rq : Point → ℚ) (ring : List Point) (i : Nat) (p : Point)
    (h : ring[i]? = some p) : (ring.map rq).getD i 0 = rq p := by
  rw [List.getD_eq_getElem?_getD, List.getElem?_map, h]
  rfl

/-- The candidate that the loops of `computeEdges` append for the point at
position `i` of a ring with finite ranges. -/
theorem edgeRing32_candidate (range : Point → Flt) (rq : Point → ℚ) (st : EdgeState)
    (ring : List Point) (hfin : ∀ p ∈ ring, range p = Flt.fin (rq p))
    (i : Nat) (p : Point) (hi : 1 ≤ i) (hi2 : i + 1 < ring.length) (hp : ring[i]? = some p) :
    (Binary32.edgeRing range st ring).edge_cloud[st.edge_cloud.length + (i - 1)]?
      = some (Binary32.scored (p, Binary32.ringScore (ring.map rq) i)) := by
  obtain ⟨j, rfl⟩ : ∃ j, i = j + 1 := ⟨i - 1, by omega⟩
  have hj : j < ring.length := by omega
  have ha : ring[j]? = some ring[j] := List.getElem?_eq_getElem hj
  have hd : ring[j + 2]? = some ring[j + 2] := List.getElem?_eq_getElem (by omega)
  have ht := getElem?_triples ring j _ p _ ha hp hd
  rw [edgeRing32_eq, edge_cloud_foldl_pushCand, List.getElem?_append_right (by omega)]
  have e : st.edge_cloud.length + (j + 1 - 1) - st.edge_cloud.length = j := by omega
  rw [e, List.getElem?_map, ht, Option.map_some']
  have hpm : p ∈ ring := List.mem_iff_getElem?.mpr ⟨_, hp⟩
  rw [rawEdge32_fin range rq _ (hfin _ (List.getElem_mem hj)) (hfin _ hpm)
    (hfin _ (List.getElem_mem (by omega)))]
  unfold Binary32.ringScore
  rw [getD_map_of_getElem? rq ring (j + 1) p hp]
  have e1 : j + 1 - 1 = j := by omega
  rw [e1, getD_map_of_getElem? rq ring j _ ha, getD_map_of_getElem? rq ring (j + 1 + 1) _ hd]

/-- The ranges of a ring of `float` ranges are binary32 values. -/
theorem getD_map_closed (rq : Point → ℚ) (ring : List Point)
    (hrep : ∀ p ∈ ring, round32 (rq p) = Flt.fin (rq p)) (i : Nat) (hi : i < ring.length) :
    round32 ((ring.map rq).getD i 0) = Flt.fin ((ring.map rq).getD i 0) := by
  rw [getD_map_of_getElem? rq ring i _ (List.getElem?_eq_getElem hi)]
  exact hrep _ (List.getElem_mem hi)

/-- The product of a positive `float` value with ten is positive. -/
theorem mul32_ten_pos {x : Flt} (hx : Flt.lt (Flt.fin 0) x = true)
    (cx : ∀ v : ℚ, x = Flt.fin v → round32 v = Flt.fin v) :
    Flt.lt (Flt.fin 0) (Binary32.mul x (Flt.fin 10)) = true := by
  cases x with
  | fin v =>
    have hv : 0 < v := by simpa [Flt.lt] using hx
    rw [mul32_fin]
    have hm := round32_mono v (v * 10) (by linarith)
    rw [cx v rfl] at hm
    have hn := round32_ne_nan (v * 10)
    revert hm hn
    generalize round32 (v * 10) = r
    intro hm hn
    cases r with
    | fin w =>
      simp only [Flt.le, decide_eq_true_eq] at hm
      simp only [Flt.lt, decide_eq_true_eq]
      linarith
    | pinf => rfl
    | ninf => simp [Flt.le] at hm
    | nan => exact absurd rfl hn
  | pinf => simp [Binary32.mul, Flt.mul, Flt.infTimes, Flt.lt]
  | ninf => simp [Flt.lt] at hx
  | nan => simp [Flt.lt] at hx

theorem specMax_closed {a b : Flt} (ca : ∀ v : ℚ, a = Flt.fin v → round32 v = Flt.fin v)
    (cb : ∀ v : ℚ, b = Flt.fin v → round32 v = Flt.fin v) :
    ∀ v : ℚ, Binary32.specMax a b = Flt.fin v → round32 v = Flt.fin v := by
  unfold Binary32.specMax
  split_ifs
  · exact cb
  · exact ca

theorem Flt.lt_of_lt_of_le_of {a b d : Flt} (h1 : Flt.lt a b = true)
    (h2 : Flt.le b d = true) : Flt.lt a d = true := by
  cases a <;> cases b <;> cases d <;> simp_all [Flt.le, Flt.lt]
  exact lt_of_lt_of_le h1 h2

/-- The rounding of the larger of two values is the rounding of one of
them. -/
theorem round32_max_le (x y : ℚ) (d : Flt) (hx : Flt.le (round32 x) d = true)
    (hy : Flt.le (round32 y) d = true) : Flt.le (round32 (max x y)) d = true := by
  rcases max_choice x y with h | h
  · rw [h]; exact hx
  · rw [h]; exact hy

/-- C12, as amended. Let a ring of at least 3 points with finite `float`
ranges form a V-shape: the ranges fall strictly down to the point at the
interior position `k` and rise strictly after it. Then the point at `k` has
the least range of the ring; the loops of `computeEdges` give the point at
every interior position `i` the score
`max(0, max(range(prev) - range(curr), range(next) - range(curr))) * 10`
evaluated in `float`; the score of the point at `k` is the larger of its two
adjacent rounded range steps times 10 and is positive; and when no range step
between consecutive points of the ring exceeds the larger step adjacent to
`k`, the score of the point at `k` is at least the score of every other
candidate of the ring. -/
theorem vshape_minimum_score (range : Point → Flt) (rq : Point → ℚ) (st : EdgeState)
    (ring : List Point) (k : Nat)
    (hfin : ∀ p ∈ ring, range p = Flt.fin (rq p))
    (hrep : ∀ p ∈ ring, round32 (rq p) = Flt.fin (rq p))
    (hk0 : 1 ≤ k) (hk1 : k + 1 < ring.length)
    (hdown : ∀ i : Nat, i < k → (ring.map rq).getD (i + 1) 0 < (ring.map rq).getD i 0)
    (hup : ∀ i : Nat, k ≤ i → i + 1 < ring.length →
      (ring.map rq).getD i 0 < (ring.map rq).getD (i + 1) 0) :
    (∀ i : Nat, i < ring.length → (ring.map rq).getD k 0 ≤ (ring.map rq).getD i 0) ∧
    (∀ (i : Nat) (p : Point), 1 ≤ i → i + 1 < ring.length → ring[i]? = some p →
      (Binary32.edgeRing range st ring).edge_cloud[st.edge_cloud.length + (i - 1)]?
        = some (Binary32.scored (p, Binary32.ringScore (ring.map rq) i))) ∧
    (∃ p : Point, ring[k]? = some p ∧
      (Binary32.edgeRing range st ring).edge_cloud[st.edge_cloud.length + (k - 1)]?
        = some (Binary32.scored (p, Binary32.ringScore (ring.map rq) k))) ∧
    Binary32.ringScore (ring.map rq) k
      = Binary32.mul
          (Binary32.specMax
            (round32 ((ring.map rq).getD (k - 1) 0 - (ring.map rq).getD k 0))
            (round32 ((ring.map rq).getD (k + 1) 0 - (ring.map rq).getD k 0)))
          (Flt.fin 10) ∧
    Flt.lt (Flt.fin 0) (Binary32.ringScore (ring.map rq) k) = true ∧
    ((∀ i : Nat, i + 1 < ring.length →
        |(ring.map rq).getD (i + 1) 0 - (ring.map rq).getD i 0|
          ≤ max ((ring.map rq).getD (k - 1) 0 - (ring.map rq).getD k 0)
              ((ring.map rq).getD (k + 1) 0 - (ring.map rq).getD k 0)) →
      ∀ i : Nat, 1 ≤ i → i + 1 < ring.length →
        Flt.le (Binary32.ringScore (ring.map rq) i) (Binary32.ringScore (ring.map rq) k)
          = true) := by
  have hstep : (ring.map rq).getD k 0 < (ring.map rq).getD (k - 1) 0 := by
    have := hdown (k - 1) (by omega)
    have e : k - 1 + 1 = k := by omega
    rw [e] at this
    exact this
  have ck := getD_map_closed rq ring hrep k (by omega)
  have ckm := getD_map_closed rq ring hrep (k - 1) (by omega)
  -- the step before `k` rounds to a positive value
  have hA := round32_sub_pos _ _ ck ckm hstep
  have nA := round32_ne_nan ((ring.map rq).getD (k - 1) 0 - (ring.map rq).getD k 0)
  have nB := round32_ne_nan ((ring.map rq).getD (k + 1) 0 - (ring.map rq).getD k 0)
  have hX : Flt.lt (Flt.fin 0)
      (Binary32.specMax
        (round32 ((ring.map rq).getD (k - 1) 0 - (ring.map rq).getD k 0))
        (round32 ((ring.map rq).getD (k + 1) 0 - (ring.map rq).getD k 0))) = true :=
    Flt.lt_of_lt_of_le_of hA (le_specMax_left nA)
  have hk : Binary32.ringScore (ring.map rq) k
      = Binary32.mul
          (Binary32.specMax
            (round32 ((ring.map rq).getD (k - 1) 0 - (ring.map rq).getD k 0))
            (round32 ((ring.map rq).getD (k + 1) 0 - (ring.map rq).getD k 0)))
          (Flt.fin 10) := by
    unfold Binary32.ringScore Binary32.specScore
    congr 1
    generalize Binary32.specMax
        (round32 ((ring.map rq).getD (k - 1) 0 - (ring.map rq).getD k 0))
        (round32 ((ring.map rq).getD (k + 1) 0 - (ring.map rq).getD k 0)) = X at hX
    unfold Binary32.specMax
    rw [if_pos (Flt.le_of_lt_of hX)]
  refine ⟨?_, ?_, ?_, hk, ?_, ?_⟩
  · intro i hi
    rcases Nat.le_total i k with h | h
    · have := chain_down (fun j => (ring.map rq).getD j 0) k hdown (k - i) (by omega)
      have e : k - (k - i) = i := by omega
      simp only [e] at this
      exact this
    · have := chain_up (fun j => (ring.map rq).getD j 0) k ring.length hup (i - k) (by omega)
      have e : k + (i - k) = i := by omega
      simp only [e] at this
      exact this
  · intro i p hi hi2 hp
    exact edgeRing32_candidate range rq st ring hfin i p hi hi2 hp
  · have hp : ring[k]? = some ring[k] := List.getElem?_eq_getElem (by omega)
    exact ⟨_, hp, edgeRing32_candidate range rq st ring hfin k _ hk0 hk1 hp⟩
  · rw [hk]
    exact mul32_ten_pos hX
      (specMax_closed (fun v hv => round32_idem _ v hv) (fun v hv => round32_idem _ v hv))
  · intro hsteep i hi hi2
    rw [hk]
    unfold Binary32.ringScore Binary32.specScore
    have h1 := abs_le.mp (hsteep (i - 1) (by omega))
    have h2 := abs_le.mp (hsteep i hi2)
    have e : i - 1 + 1 = i := by omega
    rw [e] at h1
    have hD : Flt.le
        (round32 (max ((ring.map rq).getD (k - 1) 0 - (ring.map rq).getD k 0)
          ((ring.map rq).getD (k + 1) 0 - (ring.map rq).getD k 0)))
        (Binary32.specMax
          (round32 ((ring.map rq).getD (k - 1) 0 - (ring.map rq).getD k 0))
          (round32 ((ring.map rq).getD (k + 1) 0 - (ring.map rq).getD k 0))) = true :=
      round32_max_le _ _ _ (le_specMax_left nA) (le_specMax_right nA nB)
    have hAi : Flt.le (round32 ((ring.map rq).getD (i - 1) 0 - (ring.map rq).getD i 0))
        (Binary32.specMax
          (round32 ((ring.map rq).getD (k - 1) 0 - (ring.map rq).getD k 0))
          (round32 ((ring.map rq).getD (k + 1) 0 - (ring.map rq).getD k 0))) = true :=
      Flt.le_trans_of (round32_mono _ _ (by linarith [h1.1])) hD
    have hBi : Flt.le (round32 ((ring.map rq).getD (i + 1) 0 - (ring.map rq).getD i 0))
        (Binary32.specMax
          (round32 ((ring.map rq).getD (k - 1) 0 - (ring.map rq).getD k 0))
          (round32 ((ring.map rq).getD (k + 1) 0 - (ring.map rq).getD k 0))) = true :=
      Flt.le_trans_of (round32_mono _ _ h2.2) hD
    apply mul32_ten_mono (le_specMax_left (by simp))
    exact specMax_le (Flt.le_of_lt_of hX) (specMax_le hAi hBi)

theorem ringScore32_sampleVRing_1 :
    Binary32.ringScore (sampleVRing.map xRangeExact) 1 = Flt.fin 10 := by
  have e : Binary32.ringScore (sampleVRing.map xRangeExact) 1 = Binary32.specScore 5 4 1 := by
    simp [Binary32.ringScore, sampleVRing, xRangeExact]
  rw [e]
  unfold Binary32.specScore
  norm_num [round32_ofNat, round32_neg_ofNat, round32_one]
  norm_num [Binary32.specMax, Flt.le]
  norm_num [round32_ofNat, mul32_fin]

/-- C12, as amended, at the ring with ranges 5, 4, 1, 4 and 5, whose minimum
is at position 2 and whose steps are at most 3: the candidate at position 1
scores no more than the minimum-range point. -/
theorem vshape_minimum_score_witness :
    (∀ p ∈ sampleVRing, xRange p = Flt.fin (xRangeExact p)) ∧
    (∀ p ∈ sampleVRing, round32 (xRangeExact p) = Flt.fin (xRangeExact p)) ∧
    2 + 1 < sampleVRing.length ∧
    Binary32.ringScore (sampleVRing.map xRangeExact) 1 = Flt.fin 10 ∧
    Flt.le (Binary32.ringScore (sampleVRing.map xRangeExact) 1)
      (Binary32.ringScore (sampleVRing.map xRangeExact) 2) = true := by
  have hrep : ∀ p ∈ sampleVRing, round32 (xRangeExact p) = Flt.fin (xRangeExact p) := by
    intro p hp
    simp only [sampleVRing, List.mem_cons, List.mem_singleton, List.mem_nil_iff,
      or_false] at hp
    rcases hp with rfl | rfl | rfl | rfl | rfl
    · exact round32_ofNat 5 (by norm_num)
    · exact round32_ofNat 4 (by norm_num)
    · exact round32_one
    · exact round32_ofNat 4 (by norm_num)
    · exact round32_ofNat 5 (by norm_num)
  have hrs : sampleVRing.map xRangeExact = [5, 4, 1, 4, 5] := by
    simp [sampleVRing, xRangeExact]
  have hlen : sampleVRing.length = 5 := by simp [sampleVRing]
  refine ⟨by simp [sampleVRing, xRange, xRangeExact], hrep, by simp [sampleVRing],
    ringScore32_sampleVRing_1, ?_⟩
  refine (vshape_minimum_score xRange xRangeExact
      { min_difference := Flt.pinf, max_difference := Flt.fin 0, edge_cloud := [] }
      sampleVRing 2
      (by simp [sampleVRing, xRange, xRangeExact]) hrep (by norm_num)
      (by simp [sampleVRing]) ?_ ?_).2.2.2.2.2 ?_ 1 (le_refl 1) (by simp [sampleVRing])
  · intro i hi
    rw [hrs]
    have hi2 : i = 0 ∨ i = 1 := by omega
    rcases hi2 with h | h <;> subst h <;> norm_num
  · intro i hi hi2
    rw [hrs]
    rw [hlen] at hi2
    have hi3 : i = 2 ∨ i = 3 := by omega
    rcases hi3 with h | h <;> subst h <;> norm_num
  · intro i hi
    rw [hrs]
    rw [hlen] at hi
    have hi2 : i = 0 ∨ i = 1 ∨ i = 2 ∨ i = 3 := by omega
    rcases hi2 with h | h | h | h <;> subst h <;> norm_num

theorem specScore32_100_1_0 : Binary32.specScore 100 1 0 = Flt.fin 990 := by
  unfold Binary32.specScore
  norm_num [round32_ofNat, round32_neg_ofNat, round32_one, round32_neg_one]
  norm_num [Binary32.specMax, Flt.le]
  norm_num [round32_ofNat, mul32_fin]

theorem specScore32_1_0_1 : Binary32.specScore 1 0 1 = Flt.fin 10 := by
  unfold Binary32.specScore
  norm_num [round32_ofNat, round32_neg_ofNat, round32_one, round32_neg_one]
  norm_num [Binary32.specMax, Flt.le]
  norm_num [round32_ofNat, mul32_fin]

theorem specScore32_0_1_2 : Binary32.specScore 0 1 2 = Flt.fin 10 := by
  unfold Binary32.specScore
  norm_num [round32_ofNat, round32_neg_ofNat, round32_one, round32_neg_one]
  norm_num [Binary32.specMax, Flt.le]
  norm_num [round32_ofNat, mul32_fin]

theorem specCandidates32_sampleVScan :
    Binary32.specCandidates 1 xRangeExact sampleVScan
      = [(⟨Flt.fin 1, Flt.fin 0, Flt.fin 0, Flt.fin 0, 0⟩, Flt.fin 990),
         (⟨Flt.fin 0, Flt.fin 0, Flt.fin 0, Flt.fin 0, 0⟩, Flt.fin 10),
         (⟨Flt.fin 1, Flt.fin 0, Flt.fin 0, Flt.fin 0, 0⟩, Flt.fin 10)] := by
  have hr : List.range 1 = [0] := rfl
  simp [Binary32.specCandidates, hr, sampleVScan, ringPoints, triples, xRangeExact,
    specScore32_100_1_0, specScore32_1_0_1, specScore32_0_1_2]

/-- C12 fails as stated: the ring with the `float` ranges 100, 1, 0, 1, 2 is
V-shaped with its minimum at position 2, and the loops of `computeEdges` give
the points at positions 1, 2 and 3 the scores 990, 10 and 10, so the
minimum-range point scores less than the candidate before it. -/
theorem vshape_score_counterexample :
    sampleVScan.map xRangeExact = [100, 1, 0, 1, 2] ∧
    (∀ p ∈ sampleVScan, xRange p = Flt.fin (xRangeExact p)) ∧
    Binary32.computeEdgesScan 1 xRange sampleVScan
      = some { min_difference := Flt.fin 10, max_difference := Flt.fin 990,
               edge_cloud :=
                [⟨Flt.fin 1, Flt.fin 0, Flt.fin 0, Flt.fin 990, 0⟩,
                 ⟨Flt.fin 0, Flt.fin 0, Flt.fin 0, Flt.fin 10, 0⟩,
                 ⟨Flt.fin 1, Flt.fin 0, Flt.fin 0, Flt.fin 10, 0⟩] } ∧
    Binary32.ringScore (sampleVScan.map xRangeExact) 2 = Flt.fin 10 ∧
    Binary32.ringScore (sampleVScan.map xRangeExact) 1 = Flt.fin 990 ∧
    Flt.le (Binary32.ringScore (sampleVScan.map xRangeExact) 1)
      (Binary32.ringScore (sampleVScan.map xRangeExact) 2) = false := by
  have h1 : Binary32.ringScore (sampleVScan.map xRangeExact) 1 = Flt.fin 990 := by
    have e : Binary32.ringScore (sampleVScan.map xRangeExact) 1
        = Binary32.specScore 100 1 0 := by
      simp [Binary32.ringScore, sampleVScan, xRangeExact]
    rw [e, specScore32_100_1_0]
  have h2 : Binary32.ringScore (sampleVScan.map xRangeExact) 2 = Flt.fin 10 := by
    have e : Binary32.ringScore (sampleVScan.map xRangeExact) 2
        = Binary32.specScore 1 0 1 := by
      simp [Binary32.ringScore, sampleVScan, xRangeExact]
    rw [e, specScore32_1_0_1]
  refine ⟨by simp [sampleVScan, xRangeExact], by simp [sampleVScan, xRange, xRangeExact],
    ?_, h2, h1, ?_⟩
  · rw [computeEdgesScan32_eq 1 xRange xRangeExact sampleVScan (by simp [sampleVScan])
      (by simp [sampleVScan, xRange, xRangeExact]), specCandidates32_sampleVScan]
    simp [pushCand, Binary32.scored, Flt.MIN, Flt.MAX, Flt.lt]
    norm_num
  · rw [h1, h2]
    simp [Flt.le]
    norm_num

/-! ## A scan on which the rounding decides -/

theorem specScore32_10_10_3 : Binary32.specScore 10 10 3 = Flt.fin 0 := by
  unfold Binary32.specScore
  norm_num [round32_ofNat, round32_neg_ofNat, round32_zero]
  norm_num [Binary32.specMax, Flt.le]
  norm_num [round32_zero, mul32_fin]

theorem specScore32_10_3_5 : Binary32.specScore 10 3 5 = Flt.fin 70 := by
  unfold Binary32.specScore
  norm_num [round32_ofNat, round32_neg_ofNat]
  norm_num [Binary32.specMax, Flt.le]
  norm_num [round32_ofNat, mul32_fin]

theorem specScore32_3_5_15 : Binary32.specScore 3 5 15 = Flt.fin 100 := by
  unfold Binary32.specScore
  norm_num [round32_ofNat, round32_neg_ofNat]
  norm_num [Binary32.specMax, Flt.le]
  norm_num [round32_ofNat, mul32_fin]

theorem specCandidates32_thresholdScan :
    Binary32.specCandidates 1 xRangeExact thresholdScan
      = [(⟨Flt.fin 10, Flt.fin 0, Flt.fin 0, Flt.fin 0, 0⟩, Flt.fin 0),
         (⟨Flt.fin 3, Flt.fin 0, Flt.fin 0, Flt.fin 0, 0⟩, Flt.fin 70),
         (⟨Flt.fin 5, Flt.fin 0, Flt.fin 0, Flt.fin 0, 0⟩, Flt.fin 100)] := by
  have hr : List.range 1 = [0] := rfl
  simp [Binary32.specCandidates, hr, thresholdScan, ringPoints, triples, xRangeExact,
    specScore32_10_10_3, specScore32_10_3_5, specScore32_3_5_15]

/-- The `float` nearest to seven tenths lies between `0` and `3 / 4`. -/
theorem round32_seven_tenths :
    ∃ t : ℚ, round32 (7 / 10) = Flt.fin t ∧ 0 ≤ t ∧ t ≤ 3 / 4 := by
  have h34 : round32 (3 / 4) = Flt.fin (3 / 4) := by
    have h := round32_exact 3 147 (by norm_num)
      (lt_of_lt_of_le (Nat.mul_lt_mul_of_pos_right (by norm_num : 3 < 2 ^ 24) (by positivity))
        (two_pow_mul_le 24 147 277 (by norm_num)))
    have e : ((3 : ℕ) : ℚ) * 2 ^ 147 / 2 ^ 149 = 3 / 4 := by
      push_cast
      norm_num
    rw [e] at h
    exact h
  have hm := round32_mono (7 / 10) (3 / 4) (by norm_num)
  rw [h34] at hm
  exact Flt.fin_of_between (round32_nonneg _ (by norm_num)) hm

/-- The scan with the ranges 10, 10, 3, 5, 15 and the threshold `0.7f`, the
`float` nearest to seven tenths. The scores are 0, 70 and 100; the middle
candidate is normalised to the `float` quotient `70 / 100`, which is the
threshold itself and so is not above it: `computeEdges` returns the last
candidate alone, where the quotient of the exact numbers, seven tenths, is
above the threshold. -/
theorem computeEdges_thresholdScan :
    Binary32.computeEdges 1 xRange (round32 (7 / 10)) thresholdScan
      = some [⟨Flt.fin 5, Flt.fin 0, Flt.fin 0, Flt.fin 1, 0⟩] := by
  obtain ⟨t, ht, ht0, ht1⟩ := round32_seven_tenths
  have e70 : Binary32.div (Binary32.sub (Flt.fin 70) (Flt.fin 0))
      (Binary32.sub (Flt.fin 100) (Flt.fin 0)) = Flt.fin t := by
    rw [sub32_fin, sub32_fin, sub_zero, sub_zero, round32_ofNat 70 (by norm_num),
      round32_ofNat 100 (by norm_num), div32_fin _ _ (by norm_num)]
    have e : (70 : ℚ) / 100 = 7 / 10 := by norm_num
    rw [e, ht]
  have e100 : Binary32.div (Binary32.sub (Flt.fin 100) (Flt.fin 0))
      (Binary32.sub (Flt.fin 100) (Flt.fin 0)) = Flt.fin 1 := by
    rw [sub32_fin, sub_zero, round32_ofNat 100 (by norm_num), div32_fin _ _ (by norm_num),
      div_self (by norm_num), round32_one]
  have e0 : Binary32.div (Binary32.sub (Flt.fin 0) (Flt.fin 0))
      (Binary32.sub (Flt.fin 100) (Flt.fin 0)) = Flt.fin 0 := by
    rw [sub32_fin, sub32_fin, sub_zero, sub_zero, round32_zero,
      round32_ofNat 100 (by norm_num), div32_fin _ _ (by norm_num), zero_div, round32_zero]
  unfold Binary32.computeEdges
  rw [computeEdgesScan32_eq 1 xRange xRangeExact thresholdScan (by simp [thresholdScan])
    (by simp [thresholdScan, xRange, xRangeExact]), specCandidates32_thresholdScan]
  have hst : ([((⟨Flt.fin 10, Flt.fin 0, Flt.fin 0, Flt.fin 0, 0⟩ : Point), Flt.fin 0),
        (⟨Flt.fin 3, Flt.fin 0, Flt.fin 0, Flt.fin 0, 0⟩, Flt.fin 70),
        (⟨Flt.fin 5, Flt.fin 0, Flt.fin 0, Flt.fin 0, 0⟩, Flt.fin 100)].map
          Binary32.scored).foldl pushCand
        { min_difference := Flt.pinf, max_difference := Flt.fin 0, edge_cloud := [] }
      = { min_difference := Flt.fin 0, max_difference := Flt.fin 100,
          edge_cloud :=
            [⟨Flt.fin 10, Flt.fin 0, Flt.fin 0, Flt.fin 0, 0⟩,
             ⟨Flt.fin 3, Flt.fin 0, Flt.fin 0, Flt.fin 70, 0⟩,
             ⟨Flt.fin 5, Flt.fin 0, Flt.fin 0, Flt.fin 100, 0⟩] } := by
    norm_num [pushCand, Binary32.scored, Flt.MIN, Flt.MAX, Flt.lt]
  rw [hst]
  simp only
  rw [normalizeIntensity32_eq]
  simp only [List.map_cons, List.map_nil, e0, e70, e100, ht, discartWeakPoints]
  have c0 : Flt.lt (Flt.fin t) (Flt.fin 0) = false := by
    simp only [Flt.lt, decide_eq_false_iff_not, not_lt]
    exact ht0
  have c1 : Flt.lt (Flt.fin t) (Flt.fin 1) = true := by
    simp only [Flt.lt, decide_eq_true_eq]
    linarith
  rw [List.filter_cons, List.filter_cons, List.filter_cons, List.filter_nil]
  simp only [c0, Flt.lt_irrefl, c1, if_true, Bool.false_eq_true, if_false]

end ButVelodyne
